import Mathlib

/-!
# MaxRects bin packing: a shallow embedding of `maxrects/bin.go` and `maxrects/rectangle.go`

The Go code mutates a `*Bin` in place; here every method takes the bin and returns the
new bin (explicit state passing).  Go `int` values are modelled by mathematical integers
and the rounding `int(math.Pow(2, math.Ceil(math.Log2(float64(n)))))` by the exact least
power of two (`potCeil`).  The program agrees with this description as long as no 64-bit
operation wraps around and the floating-point rounding is exact, which it is up to `2 ^ 48`.
The theorems on whole runs are therefore stated for configurations and rectangles whose sizes
are at most `sizeLimit = 2 ^ 30`: all values the program then computes stay below `2 ^ 34`.
Theorems on a single function name the values that have to fit a 64-bit `int`; where a
function is compared with its 64-bit form, the wrap-around is `wrapInt`.
-/

namespace MaxRects

/-! ## 64-bit integers -/

/-- The value that a 64-bit two's-complement `int` holds after an operation whose exact
result is `n`: Go's integer arithmetic wraps around. -/
def wrapInt (n : Int) : Int :=
  (n + 9223372036854775808) % 18446744073709551616 - 9223372036854775808

/-! ## rectangle.go -/

/-- Mirror of `type Rect struct { Width, Height, X, Y int }`. -/
structure Rect where
  Width : Int
  Height : Int
  X : Int
  Y : Int
deriving DecidableEq

/-- Mirror of `func (rect *Rect) Collide(other Rect) bool`, with exact sums; `Collide64` is
the same function with 64-bit sums. -/
def Rect.Collide (rect other : Rect) : Bool :=
  decide (other.X < rect.X + rect.Width) &&
    decide (other.X + other.Width > rect.X) &&
    decide (other.Y < rect.Y + rect.Height) &&
    decide (other.Y + other.Height > rect.Y)

/-- The function `Collide` with the sums `X + Width` and `Y + Height` wrapped to 64 bits, as
Go computes them. -/
def Rect.Collide64 (rect other : Rect) : Bool :=
  decide (other.X < wrapInt (rect.X + rect.Width)) &&
    decide (wrapInt (other.X + other.Width) > rect.X) &&
    decide (other.Y < wrapInt (rect.Y + rect.Height)) &&
    decide (wrapInt (other.Y + other.Height) > rect.Y)

/-- Mirror of `func (rect *Rect) Contain(other Rect) bool`. -/
def Rect.Contain (rect other : Rect) : Bool :=
  decide (other.X ≥ rect.X) && decide (other.Y ≥ rect.Y) &&
    decide (other.X + other.Width ≤ rect.X + rect.Width) &&
    decide (other.Y + other.Height ≤ rect.Y + rect.Height)

/-! ## bin.go: data -/

/-- Modelled from the spec: the scoring-rule constant `PACK_MAX_AREA` (max-area rule), whose
declaration is not part of the provided sources; only its being different from
`PACK_MAX_EDGE` matters. -/
def PACK_MAX_AREA : Int := 0

/-- Modelled from the spec: the scoring-rule constant `PACK_MAX_EDGE` (max-edge rule, the
default), whose declaration is not part of the provided sources. -/
def PACK_MAX_EDGE : Int := 1

/-- The value of `math.MaxInt` on a 64-bit platform. -/
def maxInt : Int := 9223372036854775807

/-- Mirror of `type Bin struct`. -/
structure Bin where
  Width : Int
  Height : Int
  MaxWidth : Int
  MaxHeight : Int
  Smart : Bool
  POT : Bool
  Square : Bool
  Logic : Int
  Padding : Int
  FreeRects : List Rect
  verticalExpand : Bool
  stage : Rect
  border : Int
  dirty : Int
deriving DecidableEq

/-- Mirror of `func NewBin(maxWidth, maxHeight, padding, border int, smart bool) *Bin`. -/
def NewBin (maxWidth maxHeight padding border : Int) (smart : Bool) : Bin :=
  let width : Int := if !smart then maxWidth else 0
  let height : Int := if !smart then maxHeight else 0
  let free : List Rect :=
    [⟨maxWidth + padding - border * 2, maxHeight + padding - border * 2, border, border⟩]
  { Width := width
    Height := height
    MaxWidth := maxWidth
    MaxHeight := maxHeight
    Smart := smart
    POT := true
    Square := true
    Logic := PACK_MAX_EDGE
    Padding := padding
    FreeRects := free
    verticalExpand := false
    stage := ⟨width, height, 0, 0⟩
    border := border
    dirty := 0 }

/-! ## bin.go: power-of-two rounding -/

/-- Doubling search for the least power of two that is at least `n`, starting from `p`;
the first argument bounds the number of doublings. -/
def pow2Search : Nat → Nat → Nat → Nat
  | 0, p, _ => p
  | k + 1, p, n => if n ≤ p then p else pow2Search k (2 * p) n

/-- Mirror of `int(math.Pow(2, math.Ceil(math.Log2(float64(n)))))`: the least power of two
that is at least `n` for positive `n`; `0` for `0` (`Log2(0) = -Inf`, `Pow(2, -Inf) = 0`);
for negative `n` the float is NaN and the conversion yields the smallest 64-bit integer
(amd64).  For positive `n` this is the value of the floating-point expression as long as it
is computed exactly, that is for `n ≤ 2 ^ 48`; the theorems that depend on the rounding are
stated for sizes below that. -/
def potCeil (n : Int) : Int :=
  if n < 0 then -9223372036854775808
  else if n = 0 then 0
  else (pow2Search n.toNat 1 n.toNat : Nat)

/-! ## bin.go: findNode -/

/-- The `for _, r := range bin.FreeRects` loop of `findNode`, carrying `score` and
`bestNode`.  The score `areaFit` is the exact value; `fitScore64` is its 64-bit form. -/
def findNodeLoop (logic width height : Int) : List Rect → Int → Option Rect → Option Rect
  | [], _, bestNode => bestNode
  | r :: rest, score, bestNode =>
    if r.Width ≥ width ∧ r.Height ≥ height then
      let areaFit : Int :=
        if logic = PACK_MAX_AREA then r.Width * r.Height - width * height
        else min (r.Width - width) (r.Height - height)
      if areaFit < score then
        findNodeLoop logic width height rest areaFit (some ⟨width, height, r.X, r.Y⟩)
      else findNodeLoop logic width height rest score bestNode
    else findNodeLoop logic width height rest score bestNode

/-- Mirror of `func (bin *Bin) findNode(width, height int, _ bool) *Rect`; `nil` is `none`. -/
def Bin.findNode (bin : Bin) (width height : Int) : Option Rect :=
  findNodeLoop bin.Logic width height bin.FreeRects maxInt none

/-! ## bin.go: splitNode -/

/-- The statement `bin.FreeRects = append(bin.FreeRects, newNode)`. -/
def Bin.appendFree (bin : Bin) (newNode : Rect) : Bin :=
  { bin with FreeRects := bin.FreeRects ++ [newNode] }

/-- Mirror of `func (bin *Bin) splitNode(freeRect, usedNode Rect) bool`, returning the
result together with the updated bin. -/
def Bin.splitNode (bin : Bin) (freeRect usedNode : Rect) : Bool × Bin :=
  if !freeRect.Collide usedNode then (false, bin)
  else
    let b1 : Bin :=
      if usedNode.X < freeRect.X + freeRect.Width ∧ usedNode.X + usedNode.Width > freeRect.X then
        let b : Bin :=
          if usedNode.Y > freeRect.Y ∧ usedNode.Y < freeRect.Y + freeRect.Height then
            bin.appendFree ⟨freeRect.Width, usedNode.Y - freeRect.Y, freeRect.X, freeRect.Y⟩
          else bin
        if usedNode.Y + usedNode.Height < freeRect.Y + freeRect.Height then
          b.appendFree
            ⟨freeRect.Width, freeRect.Y + freeRect.Height - (usedNode.Y + usedNode.Height),
              freeRect.X, usedNode.Y + usedNode.Height⟩
        else b
      else bin
    let b2 : Bin :=
      if usedNode.Y < freeRect.Y + freeRect.Height ∧ usedNode.Y + usedNode.Height > freeRect.Y then
        let b : Bin :=
          if usedNode.X > freeRect.X ∧ usedNode.X < freeRect.X + freeRect.Width then
            b1.appendFree ⟨usedNode.X - freeRect.X, freeRect.Height, freeRect.X, freeRect.Y⟩
          else b1
        if usedNode.X + usedNode.Width < freeRect.X + freeRect.Width then
          b.appendFree
            ⟨freeRect.X + freeRect.Width - (usedNode.X + usedNode.Width), freeRect.Height,
              usedNode.X + usedNode.Width, freeRect.Y⟩
        else b
      else b1
    (true, b2)

/-! ## bin.go: pruneFreeList -/

/-- The inner `for j < len` loop of `pruneFreeList` for a fixed `i` and `tmpRect1`.  The
first argument is `len - j`, the number of positions still to visit.  The result is the list
after the loop and whether the loop was left by `break` (entry `i` removed). -/
def pruneInner (tmpRect1 : Rect) (i : Nat) : Nat → Nat → List Rect → Bool × List Rect
  | 0, _, free => (false, free)
  | k + 1, j, free =>
    match free[j]? with
    | none => (false, free)
    | some tmpRect2 =>
      if tmpRect2.Contain tmpRect1 then (true, free.eraseIdx i)
      else if tmpRect1.Contain tmpRect2 then pruneInner tmpRect1 i k j (free.eraseIdx j)
      else pruneInner tmpRect1 i k (j + 1) free

/-- The outer `for i < len` loop of `pruneFreeList`.  After a `break` the Go code runs
`i--` and then `i++`, so `i` stays; otherwise `i` advances.  The first argument bounds the
number of iterations; each iteration removes the entry at `i` or advances `i`, so the
length of the list is enough. -/
def pruneOuter : Nat → Nat → List Rect → List Rect
  | 0, _, free => free
  | fuel + 1, i, free =>
    match free[i]? with
    | none => free
    | some tmpRect1 =>
      match pruneInner tmpRect1 i (free.length - (i + 1)) (i + 1) free with
      | (true, free1) => pruneOuter fuel i free1
      | (false, free1) => pruneOuter fuel (i + 1) free1

/-- Mirror of `func (bin *Bin) pruneFreeList()`. -/
def Bin.pruneFreeList (bin : Bin) : Bin :=
  { bin with FreeRects := pruneOuter bin.FreeRects.length 0 bin.FreeRects }

/-! ## bin.go: expandFreeRects and updateBinSize -/

/-- The body of the first loop of `expandFreeRects` on one free rectangle. -/
def Bin.expandOne (bin : Bin) (width height : Int) (freeRect : Rect) : Rect :=
  let r1 : Rect :=
    if freeRect.X + freeRect.Width ≥ min (bin.Width + bin.Padding - bin.border) width then
      { freeRect with Width := width - freeRect.X - bin.border }
    else freeRect
  if r1.Y + r1.Height ≥ min (bin.Height + bin.Padding - bin.border) height then
    { r1 with Height := height - r1.Y - bin.border }
  else r1

/-- The filter of the second loop of `expandFreeRects`. -/
def Bin.keepFree (bin : Bin) (freeRect : Rect) : Bool :=
  !(decide (freeRect.Width ≤ 0) || decide (freeRect.Height ≤ 0) ||
    decide (freeRect.X < bin.border) || decide (freeRect.Y < bin.border))

/-- Mirror of `func (bin *Bin) expandFreeRects(width, height int)`. -/
def Bin.expandFreeRects (bin : Bin) (width height : Int) : Bin :=
  let expanded : List Rect := bin.FreeRects.map (bin.expandOne width height)
  let appended : List Rect :=
    expanded ++
      [⟨width - bin.Width - bin.Padding, height - bin.border * 2,
          bin.Width + bin.Padding - bin.border, bin.border⟩,
        ⟨width - bin.border * 2, height - bin.Height - bin.Padding,
          bin.border, bin.Height + bin.Padding - bin.border⟩]
  let newFreeRects : List Rect := appended.filter bin.keepFree
  Bin.pruneFreeList { bin with FreeRects := newFreeRects }

/-- Mirror of `func (bin *Bin) updateBinSize(node Rect) bool`, returning the result together
with the updated bin. -/
def Bin.updateBinSize (bin : Bin) (node : Rect) : Bool × Bin :=
  if !bin.Smart then (false, bin)
  else if bin.stage.Contain node then (false, bin)
  else
    let tmpWidth0 : Int := max bin.Width (node.X + node.Width - bin.Padding + bin.border)
    let tmpHeight0 : Int := max bin.Height (node.Y + node.Height - bin.Padding + bin.border)
    let tmpWidth1 : Int := if bin.POT then potCeil tmpWidth0 else tmpWidth0
    let tmpHeight1 : Int := if bin.POT then potCeil tmpHeight0 else tmpHeight0
    let tmpWidth : Int := if bin.Square then max tmpWidth1 tmpHeight1 else tmpWidth1
    let tmpHeight : Int := if bin.Square then tmpWidth else tmpHeight1
    if tmpWidth > bin.MaxWidth + bin.Padding ∨ tmpHeight > bin.MaxHeight + bin.Padding then
      (false, bin)
    else
      let b : Bin := bin.expandFreeRects (tmpWidth + bin.Padding) (tmpHeight + bin.Padding)
      (true,
        { b with
          stage := { b.stage with Width := tmpWidth, Height := tmpHeight }
          Width := tmpWidth
          Height := tmpHeight })

/-! ## bin.go: Place -/

/-- The `for i := 0; i < numRectToProcess; i++` loop of `Place`.  The first argument is
`numRectToProcess - i`.  When `splitNode` reports a hit, entry `i` is removed and both
`numRectToProcess` and `i` are decremented, so after `i++` the index is unchanged. -/
def Bin.splitLoop (node : Rect) : Nat → Nat → Bin → Bin
  | 0, _, bin => bin
  | k + 1, i, bin =>
    match bin.FreeRects[i]? with
    | none => bin
    | some freeRect =>
      match bin.splitNode freeRect node with
      | (true, b) => Bin.splitLoop node k i { b with FreeRects := b.FreeRects.eraseIdx i }
      | (false, b) => Bin.splitLoop node k (i + 1) b

/-- The rectangle proposed to `updateBinSize` for a growth to the right. -/
def Bin.rightNode (bin : Bin) (rect : Rect) : Rect :=
  ⟨rect.Width + bin.Padding, rect.Height + bin.Padding,
    bin.Width + bin.Padding - bin.border, bin.border⟩

/-- The rectangle proposed to `updateBinSize` for a growth downwards. -/
def Bin.downNode (bin : Bin) (rect : Rect) : Rect :=
  ⟨rect.Width + bin.Padding, rect.Height + bin.Padding,
    bin.border, bin.Height + bin.Padding - bin.border⟩

/-- The branch of `Place` taken when `findNode` found `node`. -/
def Bin.placeFound (bin : Bin) (rect node : Rect) : Bin × Rect :=
  let b1 : Bin := (bin.updateBinSize node).2
  let b2 : Bin := Bin.splitLoop node b1.FreeRects.length 0 b1
  let b3 : Bin := b2.pruneFreeList
  let b4 : Bin := { b3 with verticalExpand := decide (b3.Width > b3.Height) }
  ({ b4 with dirty := b4.dirty + 1 }, { rect with X := node.X, Y := node.Y })

/-- The two growth attempts `updateBinSize(first) || updateBinSize(second)` of `Place`
(the second node is computed only when the first attempt is rejected, on the then
unchanged bin). -/
def Bin.growEither (bin : Bin) (rect : Rect) : Bool × Bin :=
  if !bin.verticalExpand then
    match bin.updateBinSize (bin.rightNode rect) with
    | (true, b) => (true, b)
    | (false, b) => b.updateBinSize (b.downNode rect)
  else
    match bin.updateBinSize (bin.downNode rect) with
    | (true, b) => (true, b)
    | (false, b) => b.updateBinSize (b.rightNode rect)

/-- The two growth attempts of `Place` as in `Bin.growEither`, together with the nodes that
were passed to `updateBinSize`, in the order of the calls. -/
def Bin.growEitherLog (bin : Bin) (rect : Rect) : (Bool × Bin) × List Rect :=
  if !bin.verticalExpand then
    match bin.updateBinSize (bin.rightNode rect) with
    | (true, b) => ((true, b), [bin.rightNode rect])
    | (false, b) => (b.updateBinSize (b.downNode rect), [bin.rightNode rect, b.downNode rect])
  else
    match bin.updateBinSize (bin.downNode rect) with
    | (true, b) => ((true, b), [bin.downNode rect])
    | (false, b) => (b.updateBinSize (b.rightNode rect), [bin.downNode rect, b.rightNode rect])

/-- Mirror of `func (bin *Bin) Place(rect *Rect) bool`.  The Go function calls itself after
an accepted growth; the first argument bounds the depth of that recursion and the result is
`none` when the bound is exhausted.  Otherwise the result is the returned boolean, the bin
and the rectangle after the call. -/
def Bin.Place : Nat → Bin → Rect → Option (Bool × Bin × Rect)
  | 0, _, _ => none
  | fuel + 1, bin, rect =>
    match bin.findNode (rect.Width + bin.Padding) (rect.Height + bin.Padding) with
    | some node =>
      let r := bin.placeFound rect node
      some (true, r.1, r.2)
    | none =>
      match bin.growEither rect with
      | (true, b) => Bin.Place fuel b rect
      | (false, b) => some (false, b, rect)

/-- The bin of `newTestBin(padding, border)` generalised to any maximum size: `NewBin` with
growth enabled followed by the assignments `bin.POT = pot` and `bin.Square = square`. -/
def configuredBin (maxWidth maxHeight padding border : Int) (smart pot square : Bool) : Bin :=
  { NewBin maxWidth maxHeight padding border smart with POT := pot, Square := square }

/-! ## bin.go: PlaceAll -/

/-- The comparison function that `PlaceAll` passes to `sort.SliceStable`: for `a = rects[i]`
and `b = rects[k]` it returns `max(b.Width, b.Height) - max(a.Width, a.Height) < 0`, the
difference being a 64-bit `int`. -/
def placeAllLess (a b : Rect) : Bool :=
  decide (wrapInt (max b.Width b.Height - max a.Width a.Height) < 0)

/-- Modelled from the spec: `sort.SliceStable` of the Go standard library, which is not part
of the sources; the spec calls it a stable sort (equal elements keep their relative input
order).  It is rendered as the stable insertion sort: an element is moved behind those
elements only that `less` puts strictly before it. -/
def sliceStable (less : Rect → Rect → Bool) (rects : List Rect) : List Rect :=
  rects.insertionSort (fun a b => less b a = false)

/-- The loop `for _, rect := range rects` of `PlaceAll` with its early return.  The first
argument bounds the recursion depth of every `Place` call; the result is `none` when a call
exhausts it.  Otherwise the result is whether `nil` was returned, the bin, and the
rectangles of the slice after the call. -/
def Bin.placeEach (fuel : Nat) : Bin → List Rect → Option (Bool × Bin × List Rect)
  | bin, [] => some (true, bin, [])
  | bin, rect :: rest =>
    match bin.Place fuel rect with
    | none => none
    | some (false, b, r) => some (false, b, r :: rest)
    | some (true, b, r) =>
      match Bin.placeEach fuel b rest with
      | none => none
      | some (ok, b2, rs) => some (ok, b2, r :: rs)

/-- Mirror of `func (bin *Bin) PlaceAll(rects []*Rect) error`; the slice of pointers is the
list of the rectangles pointed to. -/
def Bin.PlaceAll (fuel : Nat) (bin : Bin) (rects : List Rect) :
    Option (Bool × Bin × List Rect) :=
  bin.placeEach fuel (sliceStable placeAllLess rects)


/-! ## Specification vocabulary -/

/-- The fields of a bin that no method assigns after construction and configuration. -/
structure Cfg where
  MaxWidth : Int
  MaxHeight : Int
  Smart : Bool
  POT : Bool
  Square : Bool
  Logic : Int
  Padding : Int
  border : Int

/-- The configuration fields of a bin. -/
def Bin.cfg (bin : Bin) : Cfg :=
  ⟨bin.MaxWidth, bin.MaxHeight, bin.Smart, bin.POT, bin.Square, bin.Logic, bin.Padding,
    bin.border⟩

/-- The nodes appended by `splitNode` when the free rectangle collides with the used node,
in the order of the four `append` statements. -/
def splitPieces (freeRect usedNode : Rect) : List Rect :=
  (if usedNode.X < freeRect.X + freeRect.Width ∧ usedNode.X + usedNode.Width > freeRect.X then
      (if usedNode.Y > freeRect.Y ∧ usedNode.Y < freeRect.Y + freeRect.Height then
          [(⟨freeRect.Width, usedNode.Y - freeRect.Y, freeRect.X, freeRect.Y⟩ : Rect)]
        else []) ++
        (if usedNode.Y + usedNode.Height < freeRect.Y + freeRect.Height then
          [(⟨freeRect.Width, freeRect.Y + freeRect.Height - (usedNode.Y + usedNode.Height),
              freeRect.X, usedNode.Y + usedNode.Height⟩ : Rect)]
        else [])
    else []) ++
    (if usedNode.Y < freeRect.Y + freeRect.Height ∧ usedNode.Y + usedNode.Height > freeRect.Y then
      (if usedNode.X > freeRect.X ∧ usedNode.X < freeRect.X + freeRect.Width then
          [(⟨usedNode.X - freeRect.X, freeRect.Height, freeRect.X, freeRect.Y⟩ : Rect)]
        else []) ++
        (if usedNode.X + usedNode.Width < freeRect.X + freeRect.Width then
          [(⟨freeRect.X + freeRect.Width - (usedNode.X + usedNode.Width), freeRect.Height,
              usedNode.X + usedNode.Width, freeRect.Y⟩ : Rect)]
        else [])
    else [])

/-- The width `tmpWidth` that `updateBinSize` compares with the maximum and then assigns. -/
def Bin.growWidth (bin : Bin) (node : Rect) : Int :=
  let w0 : Int := max bin.Width (node.X + node.Width - bin.Padding + bin.border)
  let h0 : Int := max bin.Height (node.Y + node.Height - bin.Padding + bin.border)
  let w1 : Int := if bin.POT then potCeil w0 else w0
  let h1 : Int := if bin.POT then potCeil h0 else h0
  if bin.Square then max w1 h1 else w1

/-- The height `tmpHeight` that `updateBinSize` compares with the maximum and then assigns. -/
def Bin.growHeight (bin : Bin) (node : Rect) : Int :=
  let h0 : Int := max bin.Height (node.Y + node.Height - bin.Padding + bin.border)
  let h1 : Int := if bin.POT then potCeil h0 else h0
  if bin.Square then bin.growWidth node else h1

/-- The padded footprint `Rect{Width+Padding, Height+Padding, X, Y}` of a placed rectangle. -/
def footprint (padding : Int) (r : Rect) : Rect :=
  ⟨r.Width + padding, r.Height + padding, r.X, r.Y⟩

/-- A number that is `0` or a power of two. -/
def IsPotOrZero (n : Int) : Prop := n = 0 ∨ ∃ j : Nat, n = 2 ^ j

/-- The states reachable from `b0` by finitely many calls of `Place` that returned, each on
a rectangle satisfying `ok`.  The list holds the rectangles for which `Place` returned
true, as left by the call (with `X` and `Y` written), most recent first. -/
inductive Reach (ok : Rect → Prop) (b0 : Bin) : Bin → List Rect → Prop
  | init : Reach ok b0 b0 []
  | placed {bin bin1 : Bin} {done : List Rect} {rect rect1 : Rect} {fuel : Nat} :
      Reach ok b0 bin done → ok rect → bin.Place fuel rect = some (true, bin1, rect1) →
      Reach ok b0 bin1 (rect1 :: done)
  | failed {bin bin1 : Bin} {done : List Rect} {rect rect1 : Rect} {fuel : Nat} :
      Reach ok b0 bin done → ok rect → bin.Place fuel rect = some (false, bin1, rect1) →
      Reach ok b0 bin1 done

/-- Rectangles of positive width and height. -/
def PositiveRect (r : Rect) : Prop := 0 < r.Width ∧ 0 < r.Height

/-- Rectangles of non-negative width and height. -/
def NonNegRect (r : Rect) : Prop := 0 ≤ r.Width ∧ 0 ≤ r.Height

/-- No restriction on the rectangle. -/
def AnyRect (_ : Rect) : Prop := True

/-- The largest size for which the theorems on whole runs are stated, `2 ^ 30`.  With sizes
up to it no sum or difference formed by the program leaves the range of a 64-bit `int`, and
the floating-point expression of the power-of-two rounding gives the exact power of two. -/
@[reducible] def sizeLimit : Int := 1073741824

/-- Arguments of `NewBin` within the size limit: positive maximum sizes, non-negative padding
and border, none above `sizeLimit`. -/
@[reducible] def SmallConfig (maxWidth maxHeight padding border : Int) : Prop :=
  0 < maxWidth ∧ maxWidth ≤ sizeLimit ∧ 0 < maxHeight ∧ maxHeight ≤ sizeLimit ∧
    0 ≤ padding ∧ padding ≤ sizeLimit ∧ 0 ≤ border ∧ border ≤ sizeLimit

/-- Rectangles whose width and height are at most `sizeLimit` in absolute value (`X` and `Y`
are not read by `Place`). -/
@[reducible] def SmallRect (r : Rect) : Prop :=
  -sizeLimit ≤ r.Width ∧ r.Width ≤ sizeLimit ∧ -sizeLimit ≤ r.Height ∧ r.Height ≤ sizeLimit

/-- A value of at most `sizeLimit` in absolute value. -/
@[reducible] def SmallValue (n : Int) : Prop := -sizeLimit ≤ n ∧ n ≤ sizeLimit

/-- All four fields of the rectangle are within the size limit. -/
@[reducible] def Rect.SmallFields (r : Rect) : Prop :=
  SmallValue r.Width ∧ SmallValue r.Height ∧ SmallValue r.X ∧ SmallValue r.Y

/-- The sizes that `updateBinSize` reads are within the size limit. -/
@[reducible] def Bin.SmallFields (b : Bin) : Prop :=
  SmallValue b.Width ∧ SmallValue b.Height ∧ SmallValue b.MaxWidth ∧ SmallValue b.MaxHeight ∧
    SmallValue b.Padding ∧ SmallValue b.border ∧ b.stage.SmallFields

/-- The right and bottom edges `X + Width` and `Y + Height` of the rectangle fit a 64-bit
`int`. -/
@[reducible] def Rect.EdgesFit (r : Rect) : Prop :=
  -9223372036854775808 ≤ r.X + r.Width ∧ r.X + r.Width ≤ 9223372036854775807 ∧
    -9223372036854775808 ≤ r.Y + r.Height ∧ r.Y + r.Height ≤ 9223372036854775807

/-- Rectangles of positive width and height within the size limit. -/
@[reducible] def SmallPositiveRect (r : Rect) : Prop := PositiveRect r ∧ SmallRect r

/-- Rectangles of non-negative width and height within the size limit. -/
@[reducible] def SmallNonNegRect (r : Rect) : Prop := NonNegRect r ∧ SmallRect r

/-- The room left for growth: the distance of the container from its largest admissible
size, `MaxWidth + Padding` by `MaxHeight + Padding`. -/
def Bin.slack (bin : Bin) : Nat :=
  (bin.MaxWidth + bin.Padding - bin.Width).toNat +
    (bin.MaxHeight + bin.Padding - bin.Height).toNat

/-- One accepted growth of `Place` for `rect`: the step from the bin on which `findNode`
fails to the bin on which `Place` calls itself again. -/
def GrowStep (rect : Rect) (bin bin1 : Bin) : Prop :=
  bin.findNode (rect.Width + bin.Padding) (rect.Height + bin.Padding) = none ∧
    bin.growEither rect = (true, bin1)

/-- The size bound `Width ≤ MaxWidth + Padding`, `Height ≤ MaxHeight + Padding`. -/
def Bin.Bounded (b : Bin) : Prop :=
  b.Width ≤ b.MaxWidth + b.Padding ∧ b.Height ≤ b.MaxHeight + b.Padding

/-- Sizes are not negative, are `0` or powers of two under `POT`, and equal under `Square`. -/
def Bin.Shaped (b : Bin) : Prop :=
  0 ≤ b.Width ∧ 0 ≤ b.Height ∧ (b.POT = true → IsPotOrZero b.Width ∧ IsPotOrZero b.Height) ∧
    (b.Square = true → b.Width = b.Height)


/-- Growth-enabled bins never have a negative size. -/
def Bin.NonNeg (b : Bin) : Prop := b.Smart = true → 0 ≤ b.Width ∧ 0 ≤ b.Height

/-- A small bin configured like `newTestBin`: maximum 4 by 4, no padding, border 1. -/
def borderBin : Bin := configuredBin 4 4 0 1 true true false

/-- The bin `borderBin` after `Place` has failed on a 3 by 1 rectangle: the call accepted a
growth to 4 by 4 and then found no room. -/
def borderBinGrown : Bin :=
  { borderBin with Width := 4, Height := 4, stage := ⟨4, 4, 0, 0⟩ }

/-- Every free rectangle is at most as wide and as high as the first free rectangle of
`NewBin`. -/
def Bin.FreeWithinMax (b : Bin) : Prop :=
  ∀ f ∈ b.FreeRects, f.Width ≤ b.MaxWidth + b.Padding - b.border * 2 ∧
    f.Height ≤ b.MaxHeight + b.Padding - b.border * 2

/-- The state of a bin with growth disabled: the container has its maximum size and no
free rectangle exceeds the first one. -/
def Bin.Fixed (b : Bin) : Prop :=
  b.Smart = false ∧ b.Width = b.MaxWidth ∧ b.Height = b.MaxHeight ∧ b.FreeWithinMax

/-- A bin with growth disabled, maximum 4 by 4, after a 2 by 2 rectangle was placed. -/
def fixedBinUsed : Bin :=
  { configuredBin 4 4 0 0 false true true with
    FreeRects := [⟨4, 2, 0, 2⟩, ⟨2, 4, 2, 0⟩]
    dirty := 1 }

/-- Every free rectangle lies inside the current container, inset by the border and
extended by the padding allowance on the right and at the bottom. -/
def Bin.FreeIn (b : Bin) : Prop :=
  ∀ f ∈ b.FreeRects, b.border ≤ f.X ∧ b.border ≤ f.Y ∧
    f.X + f.Width ≤ b.Width + b.Padding - b.border ∧
    f.Y + f.Height ≤ b.Height + b.Padding - b.border

/-- The bin is exactly as `NewBin` with growth enabled left it: empty container, the one
free rectangle of maximum size. -/
def Bin.Fresh (b : Bin) : Prop :=
  b.Width = 0 ∧ b.Height = 0 ∧ b.stage = ⟨0, 0, 0, 0⟩ ∧
    b.FreeRects =
      [⟨b.MaxWidth + b.Padding - b.border * 2, b.MaxHeight + b.Padding - b.border * 2,
        b.border, b.border⟩]

/-- The placed rectangles `done` are packed in the bin: they have positive size, their
padded footprints lie inside the container inset by the border (with the padding allowance
on the right and at the bottom), no free rectangle collides with a footprint, and no two
footprints collide. -/
structure Bin.Packed (b : Bin) (done : List Rect) : Prop where
  pos : ∀ r ∈ done, 0 < r.Width ∧ 0 < r.Height
  inb : ∀ r ∈ done, b.border ≤ r.X ∧ b.border ≤ r.Y ∧
    r.X + (r.Width + b.Padding) ≤ b.Width + b.Padding - b.border ∧
    r.Y + (r.Height + b.Padding) ≤ b.Height + b.Padding - b.border
  nohit : ∀ r ∈ done, ∀ f ∈ b.FreeRects, f.Collide (footprint b.Padding r) = false
  pw : done.Pairwise
    (fun r1 r2 => (footprint b.Padding r1).Collide (footprint b.Padding r2) = false)

/-- A configuration in which the first placement always finds the container able to grow:
growth enabled, non-negative padding and border, and a maximum size that is admissible
under the chosen shape constraints (powers of two under POT, equal sides under Square). -/
def Bin.GoodCfg (b : Bin) : Prop :=
  b.Smart = true ∧ 0 ≤ b.Padding ∧ 0 ≤ b.border ∧
    (b.POT = true → IsPotOrZero b.MaxWidth ∧ IsPotOrZero b.MaxHeight) ∧
    (b.Square = true → b.MaxWidth = b.MaxHeight)

/-- The invariant of a growth-enabled bin in a good configuration. -/
def Bin.PackInv (b : Bin) (done : List Rect) : Prop :=
  b.GoodCfg ∧ b.Shaped ∧ b.Bounded ∧ b.Packed done ∧ (b.FreeIn ∨ (b.Fresh ∧ done = []))

/-- A bin configured like `newTestBin` with maximum 8 by 8, padding 1 and border 1. -/
def testBin : Bin := configuredBin 8 8 1 1 true true false

/-- The bin `testBin` after a 2 by 2 rectangle was placed (at `(1, 1)`). -/
def testBin1 : Bin :=
  { testBin with
    Width := 4, Height := 4, FreeRects := [], stage := ⟨4, 4, 0, 0⟩, dirty := 1 }

/-- The bin `testBin1` after a second 2 by 2 rectangle was placed (at `(4, 1)`, after a
growth to the right). -/
def testBin2 : Bin :=
  { testBin with
    Width := 8, Height := 4, FreeRects := [⟨1, 3, 7, 1⟩], verticalExpand := true,
    stage := ⟨8, 4, 0, 0⟩, dirty := 2 }

/-- The bin of `NewBin(1000, 1000, 0, 0, true)`: POT and Square set, as `NewBin` leaves
them, with a maximum size that is not a power of two. -/
def atlasBin : Bin := NewBin 1000 1000 0 0 true

/-- The bin `atlasBin` after `Place` returned true for a 600 by 600 rectangle: the growth
to 1024 by 1024 was rejected, so the container is still 0 by 0. -/
def atlasBin1 : Bin :=
  { atlasBin with FreeRects := [⟨1000, 400, 0, 600⟩, ⟨400, 1000, 600, 0⟩], dirty := 1 }

/-- The bin `atlasBin1` after `Place` returned true for a 500 by 500 rectangle. -/
def atlasBin2 : Bin :=
  { atlasBin with
    Width := 512, Height := 512, FreeRects := [⟨512, 12, 0, 500⟩, ⟨12, 512, 500, 0⟩],
    stage := ⟨512, 512, 0, 0⟩, dirty := 2 }

/-- The point `(x, y)` of the plane lies in the open interior
`(X, X+Width) × (Y, Y+Height)` of the rectangle. -/
def Rect.InInterior (r : Rect) (x y : ℝ) : Prop :=
  (r.X : ℝ) < x ∧ x < ((r.X + r.Width : Int) : ℝ) ∧
    (r.Y : ℝ) < y ∧ y < ((r.Y + r.Height : Int) : ℝ)

/-- The point `(x, y)` of the plane lies in the region of the rectangle, taken with its left
and top edge and without its right and bottom edge, so that the region is the union of the
unit cells `[i, i+1) × [j, j+1)` with `X ≤ i < X+Width` and `Y ≤ j < Y+Height`. -/
def Rect.Covers (r : Rect) (x y : ℝ) : Prop :=
  (r.X : ℝ) ≤ x ∧ x < ((r.X + r.Width : Int) : ℝ) ∧
    (r.Y : ℝ) ≤ y ∧ y < ((r.Y + r.Height : Int) : ℝ)

/-- A bin whose only free rectangle is 4 by 4 at the origin, with growth disabled. -/
def plainBin : Bin := configuredBin 4 4 0 0 false true true

/-- A free region qualifies for a request of `width` by `height`. -/
def Rect.Fits (r : Rect) (width height : Int) : Prop := r.Width ≥ width ∧ r.Height ≥ height

/-- The score of a free region for a request of `width` by `height` in the words of the
spec: the leftover area for the max-area rule, the smaller of the two leftover sides for
the max-edge rule. -/
def fitScore (logic width height : Int) (r : Rect) : Int :=
  if logic = PACK_MAX_AREA then r.Width * r.Height - width * height
  else min (r.Width - width) (r.Height - height)

/-- The score as `findNode` computes it, every product and difference being a 64-bit
`int`. -/
def fitScore64 (logic width height : Int) (r : Rect) : Int :=
  if logic = PACK_MAX_AREA then
    wrapInt (wrapInt (r.Width * r.Height) - wrapInt (width * height))
  else min (wrapInt (r.Width - width)) (wrapInt (r.Height - height))

/-- The outcome of the scan of `findNode` over the regions `l`: nothing was chosen and no
qualifying region scores below `math.MaxInt`, or the chosen region scores below
`math.MaxInt`, strictly below every qualifying region before it and not above any
qualifying region after it. -/
def FoundBest (logic width height : Int) (l : List Rect) (res : Option Rect) : Prop :=
  (res = none ∧ ∀ q ∈ l, q.Fits width height → maxInt ≤ fitScore logic width height q) ∨
    ∃ (pre : List Rect) (r : Rect) (post : List Rect),
      l = pre ++ r :: post ∧ res = some ⟨width, height, r.X, r.Y⟩ ∧ r.Fits width height ∧
        fitScore logic width height r < maxInt ∧
        (∀ q ∈ pre, q.Fits width height →
          fitScore logic width height r < fitScore logic width height q) ∧
        (∀ q ∈ post, q.Fits width height →
          fitScore logic width height r ≤ fitScore logic width height q)

/-- The bin of `NewBin(math.MaxInt, math.MaxInt, 0, 0, false)`, whose only free rectangle
has the largest 64-bit side lengths. -/
def hugeBin : Bin := NewBin 9223372036854775807 9223372036854775807 0 0 false

/-- A bin with three free rectangles, the second and third of equal score for a 2 by 2
request. -/
def threeFreeBin : Bin :=
  { plainBin with FreeRects := [⟨5, 5, 0, 0⟩, ⟨3, 4, 5, 0⟩, ⟨4, 3, 0, 5⟩] }

/-- The rounding of the spec, "the least power of two that is at least `n`; 0 stays 0". -/
def specNextPow2 (n : Int) : Int := if n = 0 then 0 else 2 ^ Nat.clog 2 n.toNat

/-- The growth computation in the words of the spec: the tentative sizes are the larger of
the current size and the needed extent; under POT each is rounded up to a power of two;
then, under Square, both become the larger of the two. -/
def specGrowth (bin : Bin) (node : Rect) : Int × Int :=
  let w : Int := max bin.Width (node.X + node.Width - bin.Padding + bin.border)
  let h : Int := max bin.Height (node.Y + node.Height - bin.Padding + bin.border)
  let wr : Int := if bin.POT then specNextPow2 w else w
  let hr : Int := if bin.POT then specNextPow2 h else h
  if bin.Square then (max wr hr, max wr hr) else (wr, hr)

/-- The bin of `newTestBin(0, 0)`: maximum 1024 by 1024, no padding, no border. -/
def monkeyBin : Bin := configuredBin 1024 1024 0 0 true true false

/-- The bin `monkeyBin` after a 200 by 100 rectangle was placed. -/
def monkeyBin1 : Bin :=
  { monkeyBin with
    Width := 256, Height := 128, FreeRects := [⟨256, 28, 0, 100⟩, ⟨56, 128, 200, 0⟩],
    verticalExpand := true, stage := ⟨256, 128, 0, 0⟩, dirty := 1 }

/-- The inner loop of `pruneFreeList` seen on lists: `t` is the region at position `i`,
`kept` are the regions after it that were visited and kept, `rest` those still to visit.
The result is whether the loop broke (the region `t` is removed) and the regions that
follow position `i` afterwards. -/
def pruneScan (t : Rect) : List Rect → List Rect → Bool × List Rect
  | kept, [] => (false, kept)
  | kept, x :: rest =>
    if x.Contain t then (true, kept ++ x :: rest)
    else if t.Contain x then pruneScan t kept rest
    else pruneScan t (kept ++ [x]) rest

/-- The outer loop of `pruneFreeList` seen on lists: the part of the list from position `i`
on is replaced by its pruned form. -/
def pruneList : Nat → List Rect → List Rect
  | 0, l => l
  | _ + 1, [] => []
  | fuel + 1, t :: rest =>
    match pruneScan t [] rest with
    | (true, l) => pruneList fuel l
    | (false, l) => t :: pruneList fuel l

/-- No region of the list is contained in a region at another position. -/
def Pruned (l : List Rect) : Prop :=
  l.Pairwise (fun a b => a.Contain b = false ∧ b.Contain a = false)

/-- A list of free regions with a duplicate and two nested regions. -/
def nestedFree : List Rect := [⟨2, 2, 0, 0⟩, ⟨4, 4, 0, 0⟩, ⟨1, 5, 0, 0⟩, ⟨4, 4, 0, 0⟩]

/-- One step of the batch placement in the words of the spec: as long as no placement has
failed, `place` is called on the next rectangle; after a failure the remaining rectangles
are left as they are. -/
def placeAllSpecStep (fuel : Nat) (st : Option (Bool × Bin × List Rect)) (rect : Rect) :
    Option (Bool × Bin × List Rect) :=
  match st with
  | none => none
  | some (false, b, seen) => some (false, b, seen ++ [rect])
  | some (true, b, seen) =>
    match b.Place fuel rect with
    | none => none
    | some (ok, b1, r1) => some (ok, b1, seen ++ [r1])

/-- The batch placement in the words of the spec: sort by descending `max(width, height)`
with a stable sort, then place each rectangle in that order, stopping at the first failure
without rolling back. -/
def placeAllSpec (fuel : Nat) (bin : Bin) (rects : List Rect) :
    Option (Bool × Bin × List Rect) :=
  (sliceStable placeAllLess rects).foldl (placeAllSpecStep fuel) (some (true, bin, []))

/-- A run of `Place` calls that all returned true: from the first bin, over the given
rectangles in order, to the last bin and the rectangles as the calls left them. -/
inductive PlacedRun (fuel : Nat) : Bin → List Rect → Bin → List Rect → Prop
  | nil {bin : Bin} : PlacedRun fuel bin [] bin []
  | cons {bin b1 b2 : Bin} {rect r1 : Rect} {rest rs : List Rect} :
      bin.Place fuel rect = some (true, b1, r1) → PlacedRun fuel b1 rest b2 rs →
      PlacedRun fuel bin (rect :: rest) b2 (r1 :: rs)

/-- The larger side of a rectangle, the sort key of `PlaceAll`. -/
def Rect.maxSide (r : Rect) : Int := max r.Width r.Height

/-- A batch for the bin `plainBin` in which the second placement fails: sorted it is the 4 by 2
rectangle, then the 3 by 3 and the 1 by 3 rectangle (equal larger side, input order kept). -/
def batchFailing : List Rect := [⟨3, 3, 7, 7⟩, ⟨1, 3, 8, 8⟩, ⟨4, 2, 9, 9⟩]

/-- The bin `plainBin` after the 4 by 2 rectangle of `batchFailing` was placed. -/
def plainBinFailed : Bin := { plainBin with FreeRects := [⟨4, 2, 0, 2⟩], dirty := 1 }

/-- A batch for the bin `plainBin` in which every placement succeeds. -/
def batchFitting : List Rect := [⟨1, 2, 7, 7⟩, ⟨2, 1, 8, 8⟩, ⟨4, 2, 9, 9⟩]

/-- The bin `plainBin` after the three rectangles of `batchFitting` were placed. -/
def plainBinFitted : Bin :=
  { plainBin with FreeRects := [⟨3, 1, 1, 3⟩, ⟨1, 2, 3, 2⟩], dirty := 3 }


/-- The bin `monkeyBin1` after a 100 by 100 rectangle was placed: the container grew downwards
to 256 by 256 and the rectangle went to `(0, 100)`. -/
def monkeyBin2 : Bin :=
  { monkeyBin with
    Width := 256, Height := 256,
    FreeRects := [⟨56, 256, 200, 0⟩, ⟨256, 56, 0, 200⟩, ⟨156, 156, 100, 100⟩],
    verticalExpand := false, stage := ⟨256, 256, 0, 0⟩, dirty := 2 }

/-- The bin of `newTestBin(0, 0)` with the maximum 128 by 1024, after a 100 by 100 rectangle
was placed: the container is 128 by 128 and cannot grow to the right any more. -/
def tallBin1 : Bin :=
  { configuredBin 128 1024 0 0 true true false with
    Width := 128, Height := 128, FreeRects := [⟨128, 28, 0, 100⟩, ⟨28, 128, 100, 0⟩],
    verticalExpand := false, stage := ⟨128, 128, 0, 0⟩, dirty := 1 }


/-- The bound on the free regions: with non-negative padding and border, and a growth-enabled
container of non-negative size, no free region is wider than `MaxWidth + 2 * Padding` or
higher than `MaxHeight + 2 * Padding`. -/
def Bin.FreeBelow (b : Bin) : Prop :=
  0 ≤ b.Padding ∧ 0 ≤ b.border ∧ b.NonNeg ∧
    ∀ q ∈ b.FreeRects,
      q.Width ≤ b.MaxWidth + 2 * b.Padding ∧ q.Height ≤ b.MaxHeight + 2 * b.Padding


/-! ## Power-of-two rounding -/

/-- A value in the range of a 64-bit `int` is not changed by the wrap-around. -/
theorem wrapInt_eq (n : Int) (h1 : -9223372036854775808 ≤ n) (h2 : n ≤ 9223372036854775807) :
    wrapInt n = n := by
  unfold wrapInt
  omega

theorem pow2Search_spec : ∀ (k p n : Nat), (∃ j, p = 2 ^ j) → (∀ m, n ≤ 2 ^ m → p ≤ 2 ^ m) →
    n ≤ p * 2 ^ k →
    (∃ j, pow2Search k p n = 2 ^ j) ∧ n ≤ pow2Search k p n ∧
      ∀ m, n ≤ 2 ^ m → pow2Search k p n ≤ 2 ^ m
  | 0, p, n, hp, hmin, hk => by
    simp only [pow2Search]
    exact ⟨hp, by simpa using hk, hmin⟩
  | k + 1, p, n, hp, hmin, hk => by
    simp only [pow2Search]
    split_ifs with h
    · exact ⟨hp, h, hmin⟩
    · obtain ⟨j, rfl⟩ := hp
      apply pow2Search_spec k (2 * 2 ^ j) n ⟨j + 1, by ring⟩
      · intro m hm
        have h1 : 2 ^ j < 2 ^ m := by omega
        have h2 : j < m := (Nat.pow_lt_pow_iff_right (by norm_num)).1 h1
        calc 2 * 2 ^ j = 2 ^ (j + 1) := by ring
          _ ≤ 2 ^ m := Nat.pow_le_pow_right (by norm_num) h2
      · calc n ≤ 2 ^ j * 2 ^ (k + 1) := hk
          _ = 2 * 2 ^ j * 2 ^ k := by ring

theorem potCeil_zero : potCeil 0 = 0 := by simp [potCeil]

theorem potCeil_pos_spec (n : Int) (hn : 0 < n) :
    ∃ j : Nat, potCeil n = 2 ^ j ∧ n ≤ potCeil n ∧ ∀ m : Nat, n ≤ 2 ^ m → potCeil n ≤ 2 ^ m := by
  obtain ⟨a, rfl⟩ : ∃ a : Nat, n = a := ⟨n.toNat, by omega⟩
  have ha : 0 < a := by exact_mod_cast hn
  have hs := pow2Search_spec a 1 a ⟨0, rfl⟩ (fun m _ => Nat.one_le_two_pow)
    (by simpa using (Nat.lt_two_pow a).le)
  obtain ⟨⟨j, hj⟩, hge, hmin⟩ := hs
  have hpc : potCeil (a : Int) = (pow2Search a 1 a : Nat) := by
    have h1 : ¬ ((a : Int) < 0) := by omega
    have h2 : ¬ ((a : Int) = 0) := by omega
    simp [potCeil, h2]
  refine ⟨j, ?_, ?_, ?_⟩
  · rw [hpc, hj]; push_cast; rfl
  · rw [hpc]; exact_mod_cast hge
  · intro m hm
    rw [hpc]
    have : a ≤ 2 ^ m := by exact_mod_cast hm
    exact_mod_cast hmin m this

theorem potCeil_ge (n : Int) (hn : 0 ≤ n) : n ≤ potCeil n := by
  rcases hn.lt_or_eq with h | h
  · obtain ⟨_, _, h2, _⟩ := potCeil_pos_spec n h
    exact h2
  · subst h; simp [potCeil_zero]

theorem potCeil_isPotOrZero (n : Int) (hn : 0 ≤ n) : IsPotOrZero (potCeil n) := by
  rcases hn.lt_or_eq with h | h
  · obtain ⟨j, h1, _, _⟩ := potCeil_pos_spec n h
    exact Or.inr ⟨j, h1⟩
  · subst h; exact Or.inl potCeil_zero

theorem potCeil_pow (k : Nat) : potCeil (2 ^ k) = 2 ^ k := by
  have hpos : (0 : Int) < 2 ^ k := by positivity
  obtain ⟨_, _, h2, h3⟩ := potCeil_pos_spec _ hpos
  exact le_antisymm (h3 k le_rfl) h2

theorem potCeil_fix (n : Int) (h : IsPotOrZero n) : potCeil n = n := by
  rcases h with h | ⟨j, h⟩
  · subst h; exact potCeil_zero
  · subst h; exact potCeil_pow j

theorem potCeil_mono (a b : Int) (ha : 0 ≤ a) (hab : a ≤ b) : potCeil a ≤ potCeil b := by
  rcases ha.lt_or_eq with h | h
  · obtain ⟨_, _, _, h3⟩ := potCeil_pos_spec a h
    obtain ⟨j, h1, h2, _⟩ := potCeil_pos_spec b (by omega)
    rw [h1]
    apply h3
    rw [← h1]
    omega
  · subst h
    rw [potCeil_zero]
    have := potCeil_ge b hab
    omega

/-! ## Basic facts about the operations -/

theorem collide_iff (a u : Rect) :
    a.Collide u = true ↔
      u.X < a.X + a.Width ∧ u.X + u.Width > a.X ∧ u.Y < a.Y + a.Height ∧
        u.Y + u.Height > a.Y := by
  simp [Rect.Collide, and_assoc]

theorem contain_iff (a u : Rect) :
    a.Contain u = true ↔
      a.X ≤ u.X ∧ a.Y ≤ u.Y ∧ u.X + u.Width ≤ a.X + a.Width ∧
        u.Y + u.Height ≤ a.Y + a.Height := by
  simp [Rect.Contain, and_assoc]

theorem collide_symm (a u : Rect) : a.Collide u = u.Collide a := by
  rw [Bool.eq_iff_iff, collide_iff, collide_iff]
  constructor <;> intro h <;> omega

theorem splitNode_eq (bin : Bin) (f u : Rect) :
    bin.splitNode f u =
      if f.Collide u then (true, { bin with FreeRects := bin.FreeRects ++ splitPieces f u })
      else (false, bin) := by
  unfold Bin.splitNode splitPieces
  by_cases hc : f.Collide u = true
  · simp only [hc, Bool.not_true, Bool.false_eq_true, if_false, if_true]
    split_ifs <;> simp [Bin.appendFree]
  · simp [hc]

theorem pruneInner_sublist (t : Rect) (i : Nat) :
    ∀ (k j : Nat) (free : List Rect), (pruneInner t i k j free).2.Sublist free
  | 0, _, free => by simp [pruneInner]
  | k + 1, j, free => by
    simp only [pruneInner]
    split
    · exact List.Sublist.refl _
    · split_ifs
      · exact List.eraseIdx_sublist _ _
      · exact (pruneInner_sublist t i k j _).trans (List.eraseIdx_sublist _ _)
      · exact pruneInner_sublist t i k (j + 1) free

theorem pruneOuter_sublist : ∀ (fuel i : Nat) (free : List Rect),
    (pruneOuter fuel i free).Sublist free
  | 0, _, free => by simp [pruneOuter]
  | fuel + 1, i, free => by
    simp only [pruneOuter]
    split
    · exact List.Sublist.refl _
    · rename_i t _
      have hin := pruneInner_sublist t i (free.length - (i + 1)) (i + 1) free
      split
      · rename_i free1 heq
        rw [heq] at hin
        exact (pruneOuter_sublist fuel i free1).trans hin
      · rename_i free1 heq
        rw [heq] at hin
        exact (pruneOuter_sublist fuel (i + 1) free1).trans hin

theorem pruneFreeList_eq (bin : Bin) :
    bin.pruneFreeList = { bin with FreeRects := pruneOuter bin.FreeRects.length 0 bin.FreeRects } :=
  rfl

theorem mem_pruneFreeList (bin : Bin) (x : Rect) (h : x ∈ bin.pruneFreeList.FreeRects) :
    x ∈ bin.FreeRects :=
  (pruneOuter_sublist _ _ _).subset h

theorem updateBinSize_eq (bin : Bin) (node : Rect) :
    bin.updateBinSize node =
      if bin.Smart = false then (false, bin)
      else if bin.stage.Contain node = true then (false, bin)
      else if bin.growWidth node > bin.MaxWidth + bin.Padding ∨
          bin.growHeight node > bin.MaxHeight + bin.Padding then (false, bin)
      else
        (true,
          { bin.expandFreeRects (bin.growWidth node + bin.Padding)
              (bin.growHeight node + bin.Padding) with
            stage := ⟨bin.growWidth node, bin.growHeight node, bin.stage.X, bin.stage.Y⟩
            Width := bin.growWidth node
            Height := bin.growHeight node }) := by
  unfold Bin.updateBinSize Bin.growHeight Bin.growWidth
  rcases bin with ⟨W, H, MW, MH, smart, pot, sq, lg, p, free, ve, st, bd, d⟩
  cases smart <;> cases pot <;> cases sq <;> rfl

theorem updateBinSize_false (bin : Bin) (node : Rect) (h : (bin.updateBinSize node).1 = false) :
    (bin.updateBinSize node).2 = bin := by
  rw [updateBinSize_eq] at h ⊢
  split_ifs at h ⊢ <;> simp_all

theorem updateBinSize_true (bin b1 : Bin) (node : Rect)
    (h : bin.updateBinSize node = (true, b1)) :
    bin.Smart = true ∧ bin.stage.Contain node = false ∧
      bin.growWidth node ≤ bin.MaxWidth + bin.Padding ∧
      bin.growHeight node ≤ bin.MaxHeight + bin.Padding ∧
      b1 = { bin.expandFreeRects (bin.growWidth node + bin.Padding)
                (bin.growHeight node + bin.Padding) with
              stage := ⟨bin.growWidth node, bin.growHeight node, bin.stage.X, bin.stage.Y⟩
              Width := bin.growWidth node
              Height := bin.growHeight node } := by
  rw [updateBinSize_eq] at h
  split_ifs at h with h1 h2 h3
  · simp at h
  · simp at h
  · simp at h
  · simp only [Prod.mk.injEq, true_and] at h
    have h3 := not_or.1 h3
    exact ⟨by simpa using h1, by simpa using h2, by omega, by omega, h.symm⟩

/-! ## The split loop, the growth attempts and `Place` -/

theorem eraseIdx_middle (pre rest : List Rect) (f : Rect) :
    (pre ++ f :: rest).eraseIdx pre.length = pre ++ rest := by
  induction pre with
  | nil => simp
  | cons a pre ih => simp [ih]

theorem splitLoop_spec (node : Rect) : ∀ (rest pre app : List Rect) (b : Bin),
    b.FreeRects = pre ++ rest ++ app →
    Bin.splitLoop node rest.length pre.length b =
      { b with
        FreeRects := pre ++ rest.filter (fun f => !f.Collide node) ++ app ++
          (rest.filter (fun f => f.Collide node)).flatMap (fun f => splitPieces f node) }
  | [], pre, app, b, h => by
    have h2 : pre ++ app = b.FreeRects := by simp [h]
    simp [Bin.splitLoop, h2]
  | f :: rest, pre, app, b, h => by
    have hget : b.FreeRects[pre.length]? = some f := by
      rw [h, List.append_assoc, List.getElem?_append_right (le_refl _)]
      simp
    simp only [List.length_cons, Bin.splitLoop, hget, splitNode_eq]
    by_cases hc : f.Collide node = true
    · simp only [hc, if_true]
      have he : (b.FreeRects ++ splitPieces f node).eraseIdx pre.length =
          pre ++ rest ++ (app ++ splitPieces f node) := by
        rw [h]
        have := eraseIdx_middle pre (rest ++ (app ++ splitPieces f node)) f
        simpa [List.append_assoc] using this
      rw [he]
      have ih := splitLoop_spec node rest pre (app ++ splitPieces f node)
        { b with FreeRects := pre ++ rest ++ (app ++ splitPieces f node) } rfl
      rw [ih]
      simp [List.filter_cons, hc, List.append_assoc]
    · have hc2 : f.Collide node = false := by simpa using hc
      simp only [hc2, Bool.false_eq_true, if_false]
      have ih := splitLoop_spec node rest (pre ++ [f]) app b (by simp [h])
      simp only [List.length_append, List.length_singleton] at ih
      rw [ih]
      simp [List.filter_cons, hc2, List.append_assoc]

theorem splitLoop_full (node : Rect) (b : Bin) :
    Bin.splitLoop node b.FreeRects.length 0 b =
      { b with
        FreeRects := b.FreeRects.filter (fun f => !f.Collide node) ++
          (b.FreeRects.filter (fun f => f.Collide node)).flatMap (fun f => splitPieces f node) } := by
  have := splitLoop_spec node b.FreeRects [] [] b (by simp)
  simpa using this

theorem placeFound_eq (bin : Bin) (rect node : Rect) :
    bin.placeFound rect node =
      (let b1 := (bin.updateBinSize node).2
       let split := b1.FreeRects.filter (fun f => !f.Collide node) ++
          (b1.FreeRects.filter (fun f => f.Collide node)).flatMap (fun f => splitPieces f node)
       ({ b1 with
          FreeRects := pruneOuter split.length 0 split
          verticalExpand := decide (b1.Width > b1.Height)
          dirty := b1.dirty + 1 },
        { rect with X := node.X, Y := node.Y })) := by
  simp only [Bin.placeFound, splitLoop_full, Bin.pruneFreeList]

theorem growEither_cases (bin b1 : Bin) (rect : Rect) (ok : Bool)
    (h : bin.growEither rect = (ok, b1)) :
    (ok = false ∧ b1 = bin) ∨
      (ok = true ∧ (bin.updateBinSize (bin.rightNode rect) = (true, b1) ∨
        bin.updateBinSize (bin.downNode rect) = (true, b1))) := by
  have key : ∀ (n1 n2 : Bin → Rect),
      (match bin.updateBinSize (n1 bin) with
        | (true, b) => (true, b)
        | (false, b) => b.updateBinSize (n2 b)) = (ok, b1) →
      (ok = false ∧ b1 = bin) ∨
        (ok = true ∧ (bin.updateBinSize (n1 bin) = (true, b1) ∨
          bin.updateBinSize (n2 bin) = (true, b1))) := by
    intro n1 n2 hk
    rcases hr : bin.updateBinSize (n1 bin) with ⟨o1, c1⟩
    rw [hr] at hk
    cases o1
    · have hc : c1 = bin := by
        have := updateBinSize_false bin (n1 bin) (by rw [hr])
        rwa [hr] at this
      subst hc
      change c1.updateBinSize (n2 c1) = (ok, b1) at hk
      cases ok
      · left
        refine ⟨rfl, ?_⟩
        have := updateBinSize_false c1 (n2 c1) (by rw [hk])
        rw [hk] at this
        exact this
      · right
        exact ⟨rfl, Or.inr hk⟩
    · change (true, c1) = (ok, b1) at hk
      simp only [Prod.mk.injEq] at hk
      obtain ⟨h1, h2⟩ := hk
      subst h1 h2
      right
      exact ⟨rfl, Or.inl rfl⟩
  unfold Bin.growEither at h
  split_ifs at h
  · exact key (fun b => b.rightNode rect) (fun b => b.downNode rect) h
  · have := key (fun b => b.downNode rect) (fun b => b.rightNode rect) h
    tauto

theorem Place_induct (rect : Rect) (Q : Bin → Prop) (R : Bool → Bin → Rect → Prop)
    (hfound : ∀ b node, Q b →
      b.findNode (rect.Width + b.Padding) (rect.Height + b.Padding) = some node →
      R true (b.placeFound rect node).1 (b.placeFound rect node).2)
    (hgrow : ∀ b b1, Q b → GrowStep rect b b1 → Q b1)
    (hfail : ∀ b, Q b →
      b.findNode (rect.Width + b.Padding) (rect.Height + b.Padding) = none →
      b.growEither rect = (false, b) → R false b rect) :
    ∀ (fuel : Nat) (b : Bin) (ok : Bool) (b1 : Bin) (r1 : Rect), Q b →
      b.Place fuel rect = some (ok, b1, r1) → R ok b1 r1
  | 0, b, ok, b1, r1, _, h => by simp [Bin.Place] at h
  | fuel + 1, b, ok, b1, r1, hQ, h => by
    simp only [Bin.Place] at h
    split at h
    · rename_i node hf
      simp only [Option.some.injEq, Prod.mk.injEq] at h
      obtain ⟨h1, h2, h3⟩ := h
      subst h1 h2 h3
      exact hfound b node hQ hf
    · rename_i hf
      split at h
      · rename_i b2 hg
        exact Place_induct rect Q R hfound hgrow hfail fuel b2 ok b1 r1
          (hgrow b b2 hQ ⟨hf, hg⟩) h
      · rename_i b2 hg
        simp only [Option.some.injEq, Prod.mk.injEq] at h
        obtain ⟨h1, h2, h3⟩ := h
        subst h1 h2 h3
        have hb : b2 = b := by
          rcases growEither_cases b b2 rect false hg with ⟨_, h⟩ | ⟨h, _⟩
          · exact h
          · simp at h
        subst hb
        exact hfail b2 hQ hf hg

/-! ## Container size: what every growth guarantees -/

theorem cfg_updateBinSize (bin : Bin) (node : Rect) : (bin.updateBinSize node).2.cfg = bin.cfg := by
  rw [updateBinSize_eq]
  split_ifs <;> rfl

theorem cfg_placeFound (bin : Bin) (rect node : Rect) :
    (bin.placeFound rect node).1.cfg = bin.cfg := by
  rw [placeFound_eq]
  exact cfg_updateBinSize bin node

theorem width_placeFound (bin : Bin) (rect node : Rect) :
    (bin.placeFound rect node).1.Width = (bin.updateBinSize node).2.Width := by
  rw [placeFound_eq]

theorem height_placeFound (bin : Bin) (rect node : Rect) :
    (bin.placeFound rect node).1.Height = (bin.updateBinSize node).2.Height := by
  rw [placeFound_eq]

theorem grow_facts (bin : Bin) (node : Rect) (hW : 0 ≤ bin.Width) (hH : 0 ≤ bin.Height) :
    bin.Width ≤ bin.growWidth node ∧ bin.Height ≤ bin.growHeight node ∧
      node.X + node.Width - bin.Padding + bin.border ≤ bin.growWidth node ∧
      node.Y + node.Height - bin.Padding + bin.border ≤ bin.growHeight node ∧
      (bin.POT = true → IsPotOrZero (bin.growWidth node) ∧ IsPotOrZero (bin.growHeight node)) ∧
      (bin.Square = true → bin.growWidth node = bin.growHeight node) := by
  have hw0 : 0 ≤ max bin.Width (node.X + node.Width - bin.Padding + bin.border) :=
    le_max_of_le_left hW
  have hh0 : 0 ≤ max bin.Height (node.Y + node.Height - bin.Padding + bin.border) :=
    le_max_of_le_left hH
  have hw1 := potCeil_ge _ hw0
  have hh1 := potCeil_ge _ hh0
  have hw2 := potCeil_isPotOrZero _ hw0
  have hh2 := potCeil_isPotOrZero _ hh0
  have a1 := le_max_left bin.Width (node.X + node.Width - bin.Padding + bin.border)
  have a2 := le_max_right bin.Width (node.X + node.Width - bin.Padding + bin.border)
  have a3 := le_max_left bin.Height (node.Y + node.Height - bin.Padding + bin.border)
  have a4 := le_max_right bin.Height (node.Y + node.Height - bin.Padding + bin.border)
  unfold Bin.growHeight Bin.growWidth
  cases hP : bin.POT <;> cases hS : bin.Square <;>
    simp only [Bool.false_eq_true, if_false, if_true, false_implies, true_implies, and_true]
  · omega
  · refine ⟨?_, ?_, ?_, ?_⟩
    · exact le_trans a1 (le_max_left _ _)
    · exact le_trans a3 (le_max_right _ _)
    · exact le_trans a2 (le_max_left _ _)
    · exact le_trans a4 (le_max_right _ _)
  · exact ⟨by omega, by omega, by omega, by omega, hw2, hh2⟩
  · refine ⟨?_, ?_, ?_, ?_, ?_⟩
    · exact le_trans (le_trans a1 hw1) (le_max_left _ _)
    · exact le_trans (le_trans a3 hh1) (le_max_right _ _)
    · exact le_trans (le_trans a2 hw1) (le_max_left _ _)
    · exact le_trans (le_trans a4 hh1) (le_max_right _ _)
    · rcases max_choice (potCeil (max bin.Width (node.X + node.Width - bin.Padding + bin.border)))
        (potCeil (max bin.Height (node.Y + node.Height - bin.Padding + bin.border))) with h | h
      · rw [h]; exact ⟨hw2, hw2⟩
      · rw [h]; exact ⟨hh2, hh2⟩

/-- What an accepted growth leaves behind. -/
theorem updateBinSize_true_dims (bin b1 : Bin) (node : Rect)
    (h : bin.updateBinSize node = (true, b1)) :
    b1.cfg = bin.cfg ∧ b1.Width = bin.growWidth node ∧ b1.Height = bin.growHeight node ∧
      b1.Width ≤ bin.MaxWidth + bin.Padding ∧ b1.Height ≤ bin.MaxHeight + bin.Padding := by
  obtain ⟨_, _, h3, h4, h5⟩ := updateBinSize_true bin b1 node h
  subst h5
  exact ⟨rfl, rfl, rfl, h3, h4⟩

/-- A property of the configuration and the container size that every accepted growth
preserves is preserved by `Place`. -/
theorem Place_dims (Q : Bin → Prop)
    (hQ : ∀ b b1 : Bin, b1.cfg = b.cfg → b1.Width = b.Width → b1.Height = b.Height → Q b → Q b1)
    (hupd : ∀ (b b1 : Bin) (node : Rect), Q b → b.updateBinSize node = (true, b1) → Q b1)
    (fuel : Nat) (b : Bin) (rect : Rect) (ok : Bool) (b1 : Bin) (r1 : Rect) (h0 : Q b)
    (h : b.Place fuel rect = some (ok, b1, r1)) : Q b1 := by
  have hany : ∀ (b : Bin) (node : Rect), Q b → Q (b.updateBinSize node).2 := by
    intro b node hb
    rcases hu : b.updateBinSize node with ⟨o, c⟩
    cases o
    · have := updateBinSize_false b node (by rw [hu])
      rw [hu] at this
      simp only at this ⊢
      rw [this]; exact hb
    · exact hupd b c node hb hu
  refine Place_induct rect Q (fun _ b _ => Q b) ?_ ?_ ?_ fuel b ok b1 r1 h0 h
  · intro b node hb _
    exact hQ _ _ (by rw [placeFound_eq]; rfl) (width_placeFound b rect node)
      (height_placeFound b rect node) (hany b node hb)
  · intro b b1 hb hg
    rcases growEither_cases b b1 rect true hg.2 with ⟨h, _⟩ | ⟨_, h | h⟩
    · simp at h
    · exact hupd _ _ _ hb h
    · exact hupd _ _ _ hb h
  · intro b hb _ _
    exact hb

theorem Reach_inv {okp : Rect → Prop} {b0 : Bin} (Q : Bin → Prop) (h0 : Q b0)
    (hstep : ∀ (fuel : Nat) (b : Bin) (rect : Rect) (ok : Bool) (b1 : Bin) (r1 : Rect),
      Q b → okp rect → b.Place fuel rect = some (ok, b1, r1) → Q b1)
    {bin : Bin} {done : List Rect} (h : Reach okp b0 bin done) : Q bin := by
  induction h with
  | init => exact h0
  | placed _ hok hp ih => exact hstep _ _ _ _ _ _ ih hok hp
  | failed _ hok hp ih => exact hstep _ _ _ _ _ _ ih hok hp

theorem Reach_dims {okp : Rect → Prop} {b0 : Bin} (Q : Bin → Prop)
    (hQ : ∀ b b1 : Bin, b1.cfg = b.cfg → b1.Width = b.Width → b1.Height = b.Height → Q b → Q b1)
    (hupd : ∀ (b b1 : Bin) (node : Rect), Q b → b.updateBinSize node = (true, b1) → Q b1)
    (h0 : Q b0) {bin : Bin} {done : List Rect} (h : Reach okp b0 bin done) : Q bin :=
  Reach_inv Q h0 (fun fuel b rect ok b1 r1 hb _ hp => Place_dims Q hQ hupd fuel b rect ok b1 r1 hb hp) h

theorem Reach_mono {p q : Rect → Prop} (hpq : ∀ r, p r → q r) {b0 bin : Bin} {done : List Rect}
    (h : Reach p b0 bin done) : Reach q b0 bin done := by
  induction h with
  | init => exact Reach.init
  | placed _ hok hp ih => exact Reach.placed ih (hpq _ hok) hp
  | failed _ hok hp ih => exact Reach.failed ih (hpq _ hok) hp

/-- The configuration is never changed by `Place`. -/
theorem Reach_cfg {okp : Rect → Prop} {b0 bin : Bin} {done : List Rect}
    (h : Reach okp b0 bin done) : bin.cfg = b0.cfg :=
  Reach_dims (fun b => b.cfg = b0.cfg) (fun _ _ h1 _ _ hb => h1.trans hb)
    (fun b b1 node hb hu => (updateBinSize_true_dims b b1 node hu).1.trans hb) rfl h

theorem Bounded_congr (b b1 : Bin) (hc : b1.cfg = b.cfg) (hw : b1.Width = b.Width)
    (hh : b1.Height = b.Height) (h : b.Bounded) : b1.Bounded := by
  have h1 : b1.MaxWidth = b.MaxWidth := congrArg Cfg.MaxWidth hc
  have h2 : b1.MaxHeight = b.MaxHeight := congrArg Cfg.MaxHeight hc
  have h3 : b1.Padding = b.Padding := congrArg Cfg.Padding hc
  unfold Bin.Bounded at h ⊢
  rw [h1, h2, h3, hw, hh]; exact h

theorem Bounded_update (b b1 : Bin) (node : Rect) (_ : b.Bounded)
    (hu : b.updateBinSize node = (true, b1)) : b1.Bounded := by
  obtain ⟨hc, _, _, h4, h5⟩ := updateBinSize_true_dims b b1 node hu
  have h1 : b1.MaxWidth = b.MaxWidth := congrArg Cfg.MaxWidth hc
  have h2 : b1.MaxHeight = b.MaxHeight := congrArg Cfg.MaxHeight hc
  have h3 : b1.Padding = b.Padding := congrArg Cfg.Padding hc
  unfold Bin.Bounded
  rw [h1, h2, h3]; exact ⟨h4, h5⟩

theorem Shaped_congr (b b1 : Bin) (hc : b1.cfg = b.cfg) (hw : b1.Width = b.Width)
    (hh : b1.Height = b.Height) (h : b.Shaped) : b1.Shaped := by
  have h1 : b1.POT = b.POT := congrArg Cfg.POT hc
  have h2 : b1.Square = b.Square := congrArg Cfg.Square hc
  unfold Bin.Shaped at h ⊢
  rw [h1, h2, hw, hh]; exact h

theorem Shaped_update (b b1 : Bin) (node : Rect) (h : b.Shaped)
    (hu : b.updateBinSize node = (true, b1)) : b1.Shaped := by
  obtain ⟨hc, hw, hh, _, _⟩ := updateBinSize_true_dims b b1 node hu
  have h1 : b1.POT = b.POT := congrArg Cfg.POT hc
  have h2 : b1.Square = b.Square := congrArg Cfg.Square hc
  obtain ⟨g1, g2, _, _, g5, g6⟩ := grow_facts b node h.1 h.2.1
  unfold Bin.Shaped
  rw [h1, h2, hw, hh]
  exact ⟨le_trans h.1 g1, le_trans h.2.1 g2, g5, g6⟩

theorem Reach_Bounded {okp : Rect → Prop} {b0 bin : Bin} {done : List Rect}
    (h : Reach okp b0 bin done) (h0 : b0.Bounded) : bin.Bounded :=
  Reach_dims Bin.Bounded Bounded_congr Bounded_update h0 h

theorem Reach_Shaped {okp : Rect → Prop} {b0 bin : Bin} {done : List Rect}
    (h : Reach okp b0 bin done) (h0 : b0.Shaped) : bin.Shaped :=
  Reach_dims Bin.Shaped Shaped_congr Shaped_update h0 h

theorem configuredBin_Shaped (maxWidth maxHeight padding border : Int) (pot square : Bool) :
    (configuredBin maxWidth maxHeight padding border true pot square).Shaped :=
  ⟨le_refl _, le_refl _, fun _ => ⟨Or.inl rfl, Or.inl rfl⟩, fun _ => rfl⟩

theorem isPotOrZero_le_pow (w p : Int) (k : Nat) (hw : IsPotOrZero w) (hle : w ≤ 2 ^ k + p)
    (hp : p < 2 ^ k) : w ≤ 2 ^ k := by
  rcases hw with h | ⟨j, h⟩
  · subst h; positivity
  · subst h
    by_contra hc
    have h1 : (2 : Int) ^ k < 2 ^ j := by omega
    have h2 : (2 : Nat) ^ k < 2 ^ j := by exact_mod_cast h1
    have h3 : k < j := (Nat.pow_lt_pow_iff_right (by norm_num)).1 h2
    have h4 : (2 : Nat) ^ (k + 1) ≤ 2 ^ j := Nat.pow_le_pow_right (by norm_num) h3
    have h5 : (2 : Int) ^ (k + 1) ≤ 2 ^ j := by exact_mod_cast h4
    have h6 : (2 : Int) ^ (k + 1) = 2 * 2 ^ k := by ring
    omega

/-! ## Termination of `Place` -/

theorem NonNeg_congr (b b1 : Bin) (hc : b1.cfg = b.cfg) (hw : b1.Width = b.Width)
    (hh : b1.Height = b.Height) (h : b.NonNeg) : b1.NonNeg := by
  have h1 : b1.Smart = b.Smart := congrArg Cfg.Smart hc
  unfold Bin.NonNeg at h ⊢
  rw [h1, hw, hh]; exact h

theorem NonNeg_update (b b1 : Bin) (node : Rect) (h : b.NonNeg)
    (hu : b.updateBinSize node = (true, b1)) : b1.NonNeg := by
  obtain ⟨hs, _, _, _, _⟩ := updateBinSize_true b b1 node hu
  obtain ⟨_, hw, hh, _, _⟩ := updateBinSize_true_dims b b1 node hu
  obtain ⟨g1, g2, _⟩ := grow_facts b node (h hs).1 (h hs).2
  intro _
  rw [hw, hh]
  exact ⟨le_trans (h hs).1 g1, le_trans (h hs).2 g2⟩

theorem Reach_NonNeg {okp : Rect → Prop} {b0 bin : Bin} {done : List Rect}
    (h : Reach okp b0 bin done) (h0 : b0.NonNeg) : bin.NonNeg :=
  Reach_dims Bin.NonNeg NonNeg_congr NonNeg_update h0 h

theorem configuredBin_NonNeg (maxWidth maxHeight padding border : Int) (smart pot square : Bool) :
    (configuredBin maxWidth maxHeight padding border smart pot square).NonNeg := by
  intro hs
  have : smart = true := hs
  subst this
  exact ⟨le_refl _, le_refl _⟩

/-- An accepted growth for a rectangle with `Width + Padding > 0` and `Height + Padding > 0`
never shrinks the container, enlarges it strictly in one direction and stays within
`MaxWidth + Padding` by `MaxHeight + Padding`. -/
theorem growEither_true (bin b1 : Bin) (rect : Rect) (hn : bin.NonNeg)
    (hg : bin.growEither rect = (true, b1)) :
    b1.cfg = bin.cfg ∧ b1.NonNeg ∧ bin.Width ≤ b1.Width ∧ bin.Height ≤ b1.Height ∧
      b1.Width ≤ bin.MaxWidth + bin.Padding ∧ b1.Height ≤ bin.MaxHeight + bin.Padding ∧
      (0 < rect.Width + bin.Padding → 0 < rect.Height + bin.Padding →
        bin.Width < b1.Width ∨ bin.Height < b1.Height) := by
  have key : ∀ node : Rect, bin.updateBinSize node = (true, b1) →
      (bin.Width < node.X + node.Width - bin.Padding + bin.border ∨
        bin.Height < node.Y + node.Height - bin.Padding + bin.border) →
      b1.cfg = bin.cfg ∧ b1.NonNeg ∧ bin.Width ≤ b1.Width ∧ bin.Height ≤ b1.Height ∧
        b1.Width ≤ bin.MaxWidth + bin.Padding ∧ b1.Height ≤ bin.MaxHeight + bin.Padding ∧
        (bin.Width < b1.Width ∨ bin.Height < b1.Height) := by
    intro node hu hs
    obtain ⟨hsm, _, _, _, _⟩ := updateBinSize_true bin b1 node hu
    obtain ⟨hc, hw, hh, h4, h5⟩ := updateBinSize_true_dims bin b1 node hu
    obtain ⟨g1, g2, g3, g4, _⟩ := grow_facts bin node (hn hsm).1 (hn hsm).2
    refine ⟨hc, NonNeg_update bin b1 node hn hu, ?_, ?_, h4, h5, ?_⟩
    · omega
    · omega
    · omega
  rcases growEither_cases bin b1 rect true hg with ⟨h, _⟩ | ⟨_, h | h⟩
  · simp at h
  · by_cases hpos : 0 < rect.Width + bin.Padding
    · obtain ⟨k1, k2, k3, k4, k5, k6, k7⟩ := key _ h (Or.inl (by simp only [Bin.rightNode]; omega))
      exact ⟨k1, k2, k3, k4, k5, k6, fun _ _ => k7⟩
    · obtain ⟨hsm, _, _, _, _⟩ := updateBinSize_true bin b1 _ h
      obtain ⟨hc, hw, hh, h4, h5⟩ := updateBinSize_true_dims bin b1 _ h
      obtain ⟨g1, g2, _⟩ := grow_facts bin (bin.rightNode rect) (hn hsm).1 (hn hsm).2
      exact ⟨hc, NonNeg_update bin b1 _ hn h, by omega, by omega, h4, h5,
        fun h1 _ => absurd h1 hpos⟩
  · by_cases hpos : 0 < rect.Height + bin.Padding
    · obtain ⟨k1, k2, k3, k4, k5, k6, k7⟩ := key _ h (Or.inr (by simp only [Bin.downNode]; omega))
      exact ⟨k1, k2, k3, k4, k5, k6, fun _ _ => k7⟩
    · obtain ⟨hsm, _, _, _, _⟩ := updateBinSize_true bin b1 _ h
      obtain ⟨hc, hw, hh, h4, h5⟩ := updateBinSize_true_dims bin b1 _ h
      obtain ⟨g1, g2, _⟩ := grow_facts bin (bin.downNode rect) (hn hsm).1 (hn hsm).2
      exact ⟨hc, NonNeg_update bin b1 _ hn h, by omega, by omega, h4, h5,
        fun _ h1 => absurd h1 hpos⟩

theorem slack_lt (bin b1 : Bin) (hc : b1.cfg = bin.cfg) (hw : bin.Width ≤ b1.Width)
    (hh : bin.Height ≤ b1.Height) (hmw : b1.Width ≤ bin.MaxWidth + bin.Padding)
    (hmh : b1.Height ≤ bin.MaxHeight + bin.Padding)
    (hs : bin.Width < b1.Width ∨ bin.Height < b1.Height) : b1.slack < bin.slack := by
  have h1 : b1.MaxWidth = bin.MaxWidth := congrArg Cfg.MaxWidth hc
  have h2 : b1.MaxHeight = bin.MaxHeight := congrArg Cfg.MaxHeight hc
  have h3 : b1.Padding = bin.Padding := congrArg Cfg.Padding hc
  unfold Bin.slack
  rw [h1, h2, h3]
  omega

theorem Place_fuel_succ : ∀ (fuel : Nat) (bin : Bin) (rect : Rect) (res : Bool × Bin × Rect),
    bin.Place fuel rect = some res → bin.Place (fuel + 1) rect = some res
  | 0, _, _, _, h => by simp [Bin.Place] at h
  | fuel + 1, bin, rect, res, h => by
    rw [Bin.Place] at h ⊢
    split at h
    · exact h
    · split at h
      · rename_i b2 hg
        exact Place_fuel_succ fuel b2 rect res h
      · exact h

theorem Place_fuel_mono (bin : Bin) (rect : Rect) (res : Bool × Bin × Rect) (n m : Nat)
    (hnm : n ≤ m) (h : bin.Place n rect = some res) : bin.Place m rect = some res := by
  induction hnm with
  | refl => exact h
  | step _ ih => exact Place_fuel_succ _ _ _ _ ih

theorem Place_returns (rect : Rect) : ∀ (fuel : Nat) (bin : Bin), bin.NonNeg →
    0 < rect.Width + bin.Padding → 0 < rect.Height + bin.Padding → bin.slack < fuel →
    ∃ res, bin.Place fuel rect = some res
  | 0, _, _, _, _, h => by omega
  | fuel + 1, bin, hn, hw, hh, hs => by
    rw [Bin.Place]
    split
    · exact ⟨_, rfl⟩
    · split
      · rename_i b2 hg
        obtain ⟨k1, k2, k3, k4, k5, k6, k7⟩ := growEither_true bin b2 rect hn hg
        have hp : b2.Padding = bin.Padding := congrArg Cfg.Padding k1
        have := slack_lt bin b2 k1 k3 k4 k5 k6 (k7 hw hh)
        exact Place_returns rect fuel b2 k2 (by rw [hp]; exact hw) (by rw [hp]; exact hh)
          (by omega)
      · exact ⟨_, rfl⟩

/-! ## Claims on the container size -/

/-- With a negative maximum the fresh growth-enabled bin is larger than its bound: the bin
`NewBin(-1, -1, 0, 0, true)` starts with `Width = 0` and `MaxWidth + Padding = -1`.  The
maximum sizes are required to be positive. -/
theorem NewBin_negative_maximum :
    ¬ ((NewBin (-1) (-1) 0 0 true).Width ≤
      (NewBin (-1) (-1) 0 0 true).MaxWidth + (NewBin (-1) (-1) 0 0 true).Padding) := by
  decide

/-- C5 (bounded growth): for every bin created by `NewBin` with `padding ≥ 0` and a positive
maximum size (more generally `maxWidth + padding ≥ 0` and `maxHeight + padding ≥ 0`), growth
enabled or disabled, any POT/Square setting, in the initial state and after every call of
`Place`, on any rectangle, `Width ≤ MaxWidth + Padding` and `Height ≤ MaxHeight + Padding`. -/
theorem C5_bounded_growth (maxWidth maxHeight padding border : Int) (smart pot square : Bool)
    (hp : 0 ≤ padding) (hw : 0 ≤ maxWidth + padding) (hh : 0 ≤ maxHeight + padding)
    (bin : Bin) (done : List Rect)
    (h : Reach AnyRect (configuredBin maxWidth maxHeight padding border smart pot square)
      bin done) :
    bin.MaxWidth = maxWidth ∧ bin.MaxHeight = maxHeight ∧ bin.Padding = padding ∧
      bin.Width ≤ bin.MaxWidth + bin.Padding ∧ bin.Height ≤ bin.MaxHeight + bin.Padding := by
  have hc := Reach_cfg h
  have h0 : (configuredBin maxWidth maxHeight padding border smart pot square).Bounded := by
    cases smart
    · exact ⟨by show maxWidth ≤ maxWidth + padding; omega,
        by show maxHeight ≤ maxHeight + padding; omega⟩
    · exact ⟨hw, hh⟩
  have hb := Reach_Bounded h h0
  exact ⟨congrArg Cfg.MaxWidth hc, congrArg Cfg.MaxHeight hc, congrArg Cfg.Padding hc, hb.1, hb.2⟩

/-- C5, witness: the bound on `borderBin` after a failed call that grew it to 4 by 4. -/
theorem C5_bounded_growth_witness :
    Reach AnyRect (configuredBin 4 4 0 1 true true false) borderBinGrown [] ∧
      borderBinGrown.Width ≤ borderBinGrown.MaxWidth + borderBinGrown.Padding ∧
      borderBinGrown.Height ≤ borderBinGrown.MaxHeight + borderBinGrown.Padding :=
  have hr : Reach AnyRect (configuredBin 4 4 0 1 true true false) borderBinGrown [] :=
    Reach.failed Reach.init trivial
      (by decide : (configuredBin 4 4 0 1 true true false).Place 2 ⟨3, 1, 0, 0⟩ =
        some (false, borderBinGrown, ⟨3, 1, 0, 0⟩))
  ⟨hr, (C5_bounded_growth 4 4 0 1 true true false (by decide) (by decide) (by decide)
    borderBinGrown [] hr).2.2.2⟩

/-- C6 (never above the maximum under power-of-two sizing): on a growth-enabled bin with POT
set whose `MaxWidth` and `MaxHeight` are powers of two and `0 ≤ Padding < min(MaxWidth,
MaxHeight)`, after any finite sequence of `Place` calls `Width ≤ MaxWidth` and
`Height ≤ MaxHeight`. -/
theorem C6_pot_within_max (j k : Nat) (padding border : Int) (square : Bool)
    (hp : 0 ≤ padding) (hlt : padding < min ((2 : Int) ^ j) ((2 : Int) ^ k))
    (bin : Bin) (done : List Rect)
    (h : Reach AnyRect (configuredBin (2 ^ j) (2 ^ k) padding border true true square)
      bin done) :
    bin.MaxWidth = 2 ^ j ∧ bin.MaxHeight = 2 ^ k ∧ bin.Width ≤ bin.MaxWidth ∧
      bin.Height ≤ bin.MaxHeight := by
  have hc := Reach_cfg h
  have h1 : bin.MaxWidth = 2 ^ j := congrArg Cfg.MaxWidth hc
  have h2 : bin.MaxHeight = 2 ^ k := congrArg Cfg.MaxHeight hc
  have h3 : bin.Padding = padding := congrArg Cfg.Padding hc
  have h4 : bin.POT = true := congrArg Cfg.POT hc
  have hj : (0 : Int) < 2 ^ j := by positivity
  have hk : (0 : Int) < 2 ^ k := by positivity
  have h0 : (configuredBin (2 ^ j) (2 ^ k) padding border true true square).Bounded :=
    ⟨by show (0 : Int) ≤ 2 ^ j + padding; omega, by show (0 : Int) ≤ 2 ^ k + padding; omega⟩
  have hb := Reach_Bounded h h0
  have hs := Reach_Shaped h (configuredBin_Shaped _ _ _ _ _ _)
  obtain ⟨p1, p2⟩ := hs.2.2.1 h4
  have hb1 : bin.Width ≤ 2 ^ j + padding := by
    have := hb.1
    rwa [h1, h3] at this
  have hb2 : bin.Height ≤ 2 ^ k + padding := by
    have := hb.2
    rwa [h2, h3] at this
  refine ⟨h1, h2, ?_, ?_⟩
  · rw [h1]
    exact isPotOrZero_le_pow _ padding j p1 hb1 (lt_of_lt_of_le hlt (min_le_left _ _))
  · rw [h2]
    exact isPotOrZero_le_pow _ padding k p2 hb2 (lt_of_lt_of_le hlt (min_le_right _ _))

/-- C6, witness: `borderBin` (maximum `2 ^ 2` by `2 ^ 2`) after the failed call that grew it. -/
theorem C6_pot_within_max_witness :
    Reach AnyRect (configuredBin (2 ^ 2) (2 ^ 2) 0 1 true true false) borderBinGrown [] ∧
      borderBinGrown.Width ≤ borderBinGrown.MaxWidth ∧
      borderBinGrown.Height ≤ borderBinGrown.MaxHeight :=
  have hr : Reach AnyRect (configuredBin (2 ^ 2) (2 ^ 2) 0 1 true true false) borderBinGrown [] :=
    Reach.failed Reach.init trivial
      (by decide : (configuredBin (2 ^ 2) (2 ^ 2) 0 1 true true false).Place 2 ⟨3, 1, 0, 0⟩ =
        some (false, borderBinGrown, ⟨3, 1, 0, 0⟩))
  ⟨hr, (C6_pot_within_max 2 2 0 1 false (by decide) (by decide) borderBinGrown [] hr).2.2⟩

/-- C7 (shape constraints): for a growth-enabled bin with positive maximum sizes,
`padding ≥ 0` and `border ≥ 0`, all at most `sizeLimit`, whose POT and Square flags are
chosen before the first placement, in every state reachable by `Place` calls on rectangles of
non-negative size (at most `sizeLimit`): if POT is set then `Width` and `Height` are each `0`
or a power of two, and if Square is set then `Width = Height`. -/
theorem C7_shape_constraints (maxWidth maxHeight padding border : Int) (pot square : Bool)
    (_hcfg : SmallConfig maxWidth maxHeight padding border) (bin : Bin) (done : List Rect)
    (h : Reach SmallNonNegRect (configuredBin maxWidth maxHeight padding border true pot square)
      bin done) :
    bin.POT = pot ∧ bin.Square = square ∧
      (bin.POT = true → IsPotOrZero bin.Width ∧ IsPotOrZero bin.Height) ∧
      (bin.Square = true → bin.Width = bin.Height) := by
  have hc := Reach_cfg h
  have hs := Reach_Shaped h (configuredBin_Shaped _ _ _ _ _ _)
  exact ⟨congrArg Cfg.POT hc, congrArg Cfg.Square hc, hs.2.2.1, hs.2.2.2⟩

/-- C7, witness: `borderBin` after the failed call that grew it to 4 by 4. -/
theorem C7_shape_constraints_witness :
    Reach SmallNonNegRect (configuredBin 4 4 0 1 true true false) borderBinGrown [] ∧
      (borderBinGrown.POT = true →
        IsPotOrZero borderBinGrown.Width ∧ IsPotOrZero borderBinGrown.Height) :=
  have hr : Reach SmallNonNegRect (configuredBin 4 4 0 1 true true false) borderBinGrown [] :=
    Reach.failed Reach.init ⟨⟨by decide, by decide⟩, by decide⟩
      (by decide : (configuredBin 4 4 0 1 true true false).Place 2 ⟨3, 1, 0, 0⟩ =
        some (false, borderBinGrown, ⟨3, 1, 0, 0⟩))
  ⟨hr, (C7_shape_constraints 4 4 0 1 true false (by decide) borderBinGrown [] hr).2.2.1⟩

/-! ## Claims on termination and on failed placements -/

theorem GrowStep_chain (rect : Rect) (bin b : Bin) (hn : bin.NonNeg)
    (h : Relation.ReflTransGen (GrowStep rect) bin b) : b.NonNeg ∧ b.cfg = bin.cfg := by
  induction h with
  | refl => exact ⟨hn, rfl⟩
  | tail _ hstep ih =>
    obtain ⟨k1, k2, _⟩ := growEither_true _ _ rect ih.1 hstep.2
    exact ⟨k2, k1.trans ih.2⟩

/-- C10 (`Place` terminates): for every bin state reachable from `NewBin` (positive maximum
sizes, `padding ≥ 0`, `border ≥ 0`, any growth, POT and Square setting) by calls on any
rectangles, and every rectangle of positive width and height, all sizes being at most
`sizeLimit`, `Place` returns: the depth of its recursion is at most the slack
`(MaxWidth + Padding - Width) + (MaxHeight + Padding - Height)` of the bin plus one.  The
reason is that every retry, from the bin of the call or from a bin reached by earlier
retries, follows an accepted growth, which strictly increases `Width` or `Height`, shrinks
neither, and leaves `Width ≤ MaxWidth + Padding` and `Height ≤ MaxHeight + Padding`. -/
theorem C10_place_terminates (maxWidth maxHeight padding border : Int)
    (smart pot square : Bool) (hcfg : SmallConfig maxWidth maxHeight padding border)
    (bin : Bin) (done : List Rect)
    (h : Reach SmallRect (configuredBin maxWidth maxHeight padding border smart pot square)
      bin done)
    (rect : Rect) (hpos : SmallPositiveRect rect) :
    (∃ res, ∀ fuel, bin.slack < fuel → bin.Place fuel rect = some res) ∧
      ∀ b b1 : Bin, Relation.ReflTransGen (GrowStep rect) bin b → GrowStep rect b b1 →
        (b.Width < b1.Width ∨ b.Height < b1.Height) ∧ b.Width ≤ b1.Width ∧
          b.Height ≤ b1.Height ∧ b1.Width ≤ b1.MaxWidth + b1.Padding ∧
          b1.Height ≤ b1.MaxHeight + b1.Padding ∧ b1.slack < b.slack := by
  have hp : 0 ≤ padding := hcfg.2.2.2.2.1
  have hw : 0 < rect.Width := hpos.1.1
  have hh : 0 < rect.Height := hpos.1.2
  have hc := Reach_cfg h
  have hpad : bin.Padding = padding := congrArg Cfg.Padding hc
  have hn := Reach_NonNeg h (configuredBin_NonNeg _ _ _ _ _ _ _)
  constructor
  · obtain ⟨res, hres⟩ := Place_returns rect (bin.slack + 1) bin hn (by omega) (by omega)
      (Nat.lt_succ_self _)
    exact ⟨res, fun fuel hf => Place_fuel_mono bin rect res _ fuel hf hres⟩
  · intro b b1 hchain hstep
    obtain ⟨hbn, hbc⟩ := GrowStep_chain rect bin b hn hchain
    have hbp : b.Padding = padding := (congrArg Cfg.Padding hbc).trans hpad
    obtain ⟨k1, _, k3, k4, k5, k6, k7⟩ := growEither_true b b1 rect hbn hstep.2
    have hs := k7 (by omega) (by omega)
    have e1 : b1.MaxWidth = b.MaxWidth := congrArg Cfg.MaxWidth k1
    have e2 : b1.MaxHeight = b.MaxHeight := congrArg Cfg.MaxHeight k1
    have e3 : b1.Padding = b.Padding := congrArg Cfg.Padding k1
    refine ⟨hs, k3, k4, ?_, ?_, slack_lt b b1 k1 k3 k4 k5 k6 hs⟩
    · rw [e1, e3]; exact k5
    · rw [e2, e3]; exact k6

/-- C10, witness: on `borderBin` the call for a 3 by 1 rectangle returns (it fails after one
accepted growth). -/
theorem C10_place_terminates_witness :
    (∃ res, ∀ fuel, borderBin.slack < fuel → borderBin.Place fuel ⟨3, 1, 0, 0⟩ = some res) ∧
      GrowStep ⟨3, 1, 0, 0⟩ borderBin borderBinGrown ∧ borderBinGrown.slack < borderBin.slack :=
  have hc := C10_place_terminates 4 4 0 1 true true false (by decide)
    borderBin [] Reach.init ⟨3, 1, 0, 0⟩ ⟨⟨by decide, by decide⟩, by decide⟩
  have hg : GrowStep ⟨3, 1, 0, 0⟩ borderBin borderBinGrown := ⟨by decide, by decide⟩
  ⟨hc.1, hg, (hc.2 borderBin borderBinGrown Relation.ReflTransGen.refl hg).2.2.2.2.2⟩

/-- C8, counterexample: on `borderBin` (configured like `newTestBin`, maximum 4 by 4,
border 1) `Place` of a 3 by 1 rectangle returns false, yet the container has grown from
0 by 0 to 4 by 4: the growth accepted during the call is kept when the retry fails. -/
theorem C8_counterexample :
    Reach AnyRect (configuredBin 4 4 0 1 true true false) borderBin [] ∧
      borderBin.Place 2 ⟨3, 1, 0, 0⟩ = some (false, borderBinGrown, ⟨3, 1, 0, 0⟩) ∧
      borderBin.Width = 0 ∧ borderBinGrown.Width = 4 ∧
      borderBin.Height = 0 ∧ borderBinGrown.Height = 4 :=
  ⟨Reach.init, by decide, rfl, rfl, rfl, rfl⟩

/-- C8, amended (failed placements keep accepted growth): for every state of a
growth-enabled bin reachable from `NewBin` by `Place` calls and every rectangle, if `Place`
returns false then the rectangle is unchanged and `Width` and `Height` are not smaller than
before the call; the whole bin (`Width`, `Height` and `FreeRects` included) is the same as
before when the call accepted no growth, that is when both growth attempts are rejected on
the bin of the call, and, for a rectangle of positive width and height with
`padding ≥ 0`, whenever `Width` and `Height` are the same as before. -/
theorem C8_failed_place_keeps_growth (maxWidth maxHeight padding border : Int)
    (pot square : Bool) (bin : Bin) (done : List Rect)
    (h : Reach AnyRect (configuredBin maxWidth maxHeight padding border true pot square)
      bin done)
    (rect : Rect) (fuel : Nat) (bin1 : Bin) (rect1 : Rect)
    (hf : bin.Place fuel rect = some (false, bin1, rect1)) :
    rect1 = rect ∧ bin.Width ≤ bin1.Width ∧ bin.Height ≤ bin1.Height ∧
      ((bin.growEither rect).1 = false → bin1 = bin) ∧
      (0 ≤ padding → 0 < rect.Width → 0 < rect.Height →
        bin1.Width = bin.Width → bin1.Height = bin.Height → bin1 = bin) := by
  have hc := Reach_cfg h
  have hpad : bin.Padding = padding := congrArg Cfg.Padding hc
  have hn := Reach_NonNeg h (configuredBin_NonNeg _ _ _ _ _ _ _)
  have main := Place_induct rect
    (fun b => b.NonNeg ∧ b.cfg = bin.cfg ∧ bin.Width ≤ b.Width ∧ bin.Height ≤ b.Height ∧
      (0 ≤ padding → 0 < rect.Width → 0 < rect.Height →
        b.Width = bin.Width → b.Height = bin.Height → b = bin))
    (fun ok b r => ok = false → r = rect ∧ bin.Width ≤ b.Width ∧ bin.Height ≤ b.Height ∧
      (0 ≤ padding → 0 < rect.Width → 0 < rect.Height →
        b.Width = bin.Width → b.Height = bin.Height → b = bin))
    (fun _ _ _ _ hok => by simp at hok)
    (fun b b1 hb hg => by
      obtain ⟨q1, q2, q3, q4, _⟩ := hb
      obtain ⟨k1, k2, k3, k4, _, _, k7⟩ := growEither_true b b1 rect q1 hg.2
      have hbp : b.Padding = padding := (congrArg Cfg.Padding q2).trans hpad
      refine ⟨k2, k1.trans q2, by omega, by omega, ?_⟩
      intro h1 h2 h3 h4 h5
      have := k7 (by omega) (by omega)
      omega)
    (fun b hb _ _ _ => ⟨rfl, hb.2.2.1, hb.2.2.2.1, hb.2.2.2.2⟩)
    fuel bin false bin1 rect1 ⟨hn, rfl, le_refl _, le_refl _, fun _ _ _ _ _ => rfl⟩ hf rfl
  refine ⟨main.1, main.2.1, main.2.2.1, ?_, main.2.2.2⟩
  intro hrej
  cases fuel with
  | zero => simp [Bin.Place] at hf
  | succ n =>
    rw [Bin.Place] at hf
    split at hf
    · simp at hf
    · split at hf
      · rename_i b2 hg
        rw [hg] at hrej
        simp at hrej
      · rename_i b2 hg
        simp only [Option.some.injEq, Prod.mk.injEq, true_and] at hf
        rcases growEither_cases bin b2 rect false hg with ⟨_, h2⟩ | ⟨h2, _⟩
        · rw [← hf.1]; exact h2
        · simp at h2

/-- C8, witness: the failed call on `borderBin` kept the growth to 4 by 4, and the
rectangle is unchanged. -/
theorem C8_failed_place_keeps_growth_witness :
    borderBin.Place 2 ⟨3, 1, 0, 0⟩ = some (false, borderBinGrown, ⟨3, 1, 0, 0⟩) ∧
      borderBin.Width ≤ borderBinGrown.Width ∧ borderBin.Height ≤ borderBinGrown.Height :=
  have hf : borderBin.Place 2 ⟨3, 1, 0, 0⟩ = some (false, borderBinGrown, ⟨3, 1, 0, 0⟩) := by
    decide
  have hc := C8_failed_place_keeps_growth 4 4 0 1 true false borderBin [] Reach.init
    ⟨3, 1, 0, 0⟩ 2 borderBinGrown ⟨3, 1, 0, 0⟩ hf
  ⟨hf, hc.2.1, hc.2.2.1⟩

/-! ## findNode, the pieces of a split, and bins with growth disabled -/

theorem findNodeLoop_some (logic w h : Int) : ∀ (l : List Rect) (score : Int)
    (best : Option Rect) (node : Rect), findNodeLoop logic w h l score best = some node →
    best = some node ∨ ∃ f ∈ l, f.Width ≥ w ∧ f.Height ≥ h ∧ node = ⟨w, h, f.X, f.Y⟩
  | [], _, _, _, hn => Or.inl (by simpa [findNodeLoop] using hn)
  | r :: rest, score, best, node, hn => by
    rw [findNodeLoop] at hn
    dsimp only at hn
    split_ifs at hn with h1 <;>
      rcases findNodeLoop_some logic w h rest _ _ node hn with h3 | ⟨f, hf, h3⟩ <;>
      first
        | exact Or.inr ⟨f, List.mem_cons_of_mem _ hf, h3⟩
        | exact Or.inl h3
        | exact Or.inr ⟨r, List.mem_cons_self _ _, h1.1, h1.2, (Option.some.inj h3).symm⟩

theorem findNode_some (bin : Bin) (w h : Int) (node : Rect) (hn : bin.findNode w h = some node) :
    ∃ f ∈ bin.FreeRects, f.Width ≥ w ∧ f.Height ≥ h ∧ node = ⟨w, h, f.X, f.Y⟩ := by
  rcases findNodeLoop_some _ w h _ _ _ node hn with h3 | h3
  · simp at h3
  · exact h3

theorem findNodeLoop_nofit (logic w h : Int) : ∀ (l : List Rect) (score : Int)
    (best : Option Rect), (∀ f ∈ l, ¬ (f.Width ≥ w ∧ f.Height ≥ h)) →
    findNodeLoop logic w h l score best = best
  | [], _, _, _ => by simp [findNodeLoop]
  | r :: rest, score, best, hno => by
    rw [findNodeLoop]
    have h1 := hno r (List.mem_cons_self _ _)
    rw [if_neg h1]
    exact findNodeLoop_nofit logic w h rest score best
      (fun f hf => hno f (List.mem_cons_of_mem _ hf))

theorem mem_ite_nil {c : Prop} [Decidable c] (x : Rect) (l : List Rect) :
    x ∈ (if c then l else []) ↔ c ∧ x ∈ l := by
  split_ifs with h <;> simp [h]

/-- The pieces left of a free rectangle by a used node that collides with it lie inside the
free rectangle and do not collide with the used node. -/
theorem splitPieces_spec (f u x : Rect) (hc : f.Collide u = true) (hx : x ∈ splitPieces f u) :
    f.Contain x = true ∧ x.Collide u = false := by
  rw [collide_iff] at hc
  rw [contain_iff, ← Bool.not_eq_true, collide_iff]
  simp only [splitPieces, List.mem_append, mem_ite_nil, List.mem_singleton] at hx
  rcases hx with ⟨_, ⟨h2, rfl⟩ | ⟨h2, rfl⟩⟩ | ⟨_, ⟨h2, rfl⟩ | ⟨h2, rfl⟩⟩ <;>
    (constructor <;> simp only <;> omega)

theorem mem_placeFound (bin : Bin) (rect node x : Rect)
    (hx : x ∈ (bin.placeFound rect node).1.FreeRects) :
    (x ∈ (bin.updateBinSize node).2.FreeRects ∧ x.Collide node = false) ∨
      ∃ f ∈ (bin.updateBinSize node).2.FreeRects, f.Collide node = true ∧
        x ∈ splitPieces f node := by
  rw [placeFound_eq] at hx
  have hx2 := (pruneOuter_sublist _ _ _).subset hx
  simp only [List.mem_append, List.mem_filter, List.mem_flatMap] at hx2
  rcases hx2 with ⟨h1, h2⟩ | ⟨f, ⟨h1, h2⟩, h3⟩
  · exact Or.inl ⟨h1, by simpa using h2⟩
  · exact Or.inr ⟨f, h1, h2, h3⟩

theorem updateBinSize_not_smart (bin : Bin) (node : Rect) (hs : bin.Smart = false) :
    bin.updateBinSize node = (false, bin) := by
  rw [updateBinSize_eq, if_pos hs]

theorem growEither_not_smart (bin : Bin) (rect : Rect) (hs : bin.Smart = false) :
    bin.growEither rect = (false, bin) := by
  unfold Bin.growEither
  split_ifs <;> simp [updateBinSize_not_smart, hs]

theorem Fixed_place (fuel : Nat) (b : Bin) (rect : Rect) (ok : Bool) (b1 : Bin) (r1 : Rect)
    (hb : b.Fixed ∧ b.cfg = c) (hp : b.Place fuel rect = some (ok, b1, r1)) :
    b1.Fixed ∧ b1.cfg = c := by
  refine Place_induct rect (fun b => b.Fixed ∧ b.cfg = c) (fun _ b _ => b.Fixed ∧ b.cfg = c)
    ?_ ?_ ?_ fuel b ok b1 r1 hb hp
  · intro b node ⟨⟨hs, hw, hh, hfree⟩, hcfg⟩ _
    have hu : (b.updateBinSize node).2 = b := by rw [updateBinSize_not_smart b node hs]
    have hc2 : (b.placeFound rect node).1.cfg = b.cfg := cfg_placeFound b rect node
    have e1 : (b.placeFound rect node).1.MaxWidth = b.MaxWidth := congrArg Cfg.MaxWidth hc2
    have e2 : (b.placeFound rect node).1.MaxHeight = b.MaxHeight := congrArg Cfg.MaxHeight hc2
    have e3 : (b.placeFound rect node).1.Padding = b.Padding := congrArg Cfg.Padding hc2
    have e4 : (b.placeFound rect node).1.border = b.border := congrArg Cfg.border hc2
    have e5 : (b.placeFound rect node).1.Smart = b.Smart := congrArg Cfg.Smart hc2
    refine ⟨⟨e5.trans hs, ?_, ?_, ?_⟩, hc2.trans hcfg⟩
    · rw [width_placeFound, hu, e1]; exact hw
    · rw [height_placeFound, hu, e2]; exact hh
    · intro x hx
      rw [e1, e2, e3, e4]
      rcases mem_placeFound b rect node x hx with ⟨h1, _⟩ | ⟨f, h1, h2, h3⟩
      · rw [hu] at h1
        exact hfree x h1
      · rw [hu] at h1
        have hf := hfree f h1
        have hcon := (splitPieces_spec f node x h2 h3).1
        rw [contain_iff] at hcon
        omega
  · intro b b1 ⟨⟨hs, _⟩, _⟩ hg
    have := hg.2
    rw [growEither_not_smart b rect hs] at this
    simp at this
  · intro b hb _ _
    exact hb

/-- C9 (growth disabled): for a bin created with `smart = false` (positive maximum sizes,
`padding ≥ 0`, `border ≥ 0`, any POT/Square setting), in every state reachable by `Place`
calls `Width = MaxWidth` and `Height = MaxHeight`, and `Place` of any rectangle with
`Width > MaxWidth` or `Height > MaxHeight` returns false (without recursion) and leaves the
whole bin and the rectangle, hence its `X` and `Y`, unchanged.  All sizes, of the
configuration and of the rectangles, are at most `sizeLimit` in absolute value. -/
theorem C9_growth_disabled (maxWidth maxHeight padding border : Int) (pot square : Bool)
    (hcfg : SmallConfig maxWidth maxHeight padding border) (bin : Bin) (done : List Rect)
    (h : Reach SmallRect (configuredBin maxWidth maxHeight padding border false pot square)
      bin done) :
    bin.MaxWidth = maxWidth ∧ bin.MaxHeight = maxHeight ∧
      bin.Width = bin.MaxWidth ∧ bin.Height = bin.MaxHeight ∧
      ∀ rect : Rect, SmallRect rect →
        rect.Width > bin.MaxWidth ∨ rect.Height > bin.MaxHeight →
        ∀ fuel : Nat, bin.Place (fuel + 1) rect = some (false, bin, rect) := by
  have hb : 0 ≤ border := hcfg.2.2.2.2.2.2.1
  have h0 : (configuredBin maxWidth maxHeight padding border false pot square).Fixed ∧
      (configuredBin maxWidth maxHeight padding border false pot square).cfg =
        (configuredBin maxWidth maxHeight padding border false pot square).cfg := by
    refine ⟨⟨rfl, rfl, rfl, ?_⟩, rfl⟩
    intro f hf
    have : f = ⟨maxWidth + padding - border * 2, maxHeight + padding - border * 2,
        border, border⟩ := by simpa [configuredBin, NewBin] using hf
    subst this
    exact ⟨le_refl _, le_refl _⟩
  have hfix := Reach_inv (fun b => b.Fixed ∧ b.cfg =
    (configuredBin maxWidth maxHeight padding border false pot square).cfg) h0
    (fun fuel b rect ok b1 r1 hb _ hp => Fixed_place fuel b rect ok b1 r1 hb hp) h
  obtain ⟨⟨hs, hw, hh, hfree⟩, hc⟩ := hfix
  have e1 : bin.MaxWidth = maxWidth := congrArg Cfg.MaxWidth hc
  have e2 : bin.MaxHeight = maxHeight := congrArg Cfg.MaxHeight hc
  have e3 : bin.Padding = padding := congrArg Cfg.Padding hc
  have e4 : bin.border = border := congrArg Cfg.border hc
  refine ⟨e1, e2, hw, hh, ?_⟩
  intro rect _ hbig fuel
  have hnone : bin.findNode (rect.Width + bin.Padding) (rect.Height + bin.Padding) = none := by
    apply findNodeLoop_nofit
    intro f hf
    have := hfree f hf
    omega
  rw [Bin.Place, hnone, growEither_not_smart bin rect hs]

/-- C9, witness: a bin with growth disabled and maximum 4 by 4, after one placement, keeps
its size and rejects a 5 by 1 rectangle without any change. -/
theorem C9_growth_disabled_witness :
    Reach SmallRect (configuredBin 4 4 0 0 false true true) fixedBinUsed [⟨2, 2, 0, 0⟩] ∧
      fixedBinUsed.Width = 4 ∧ fixedBinUsed.Height = 4 ∧
      fixedBinUsed.Place 1 ⟨5, 1, 7, 9⟩ = some (false, fixedBinUsed, ⟨5, 1, 7, 9⟩) :=
  have hr : Reach SmallRect (configuredBin 4 4 0 0 false true true) fixedBinUsed
      [⟨2, 2, 0, 0⟩] :=
    Reach.placed Reach.init (by decide)
      (by decide : (configuredBin 4 4 0 0 false true true).Place 1 ⟨2, 2, 5, 5⟩ =
        some (true, fixedBinUsed, ⟨2, 2, 0, 0⟩))
  have hc := C9_growth_disabled 4 4 0 0 true true (by decide) fixedBinUsed _ hr
  ⟨hr, hc.2.2.1, hc.2.2.2.1, hc.2.2.2.2 ⟨5, 1, 7, 9⟩ (by decide) (Or.inl (by decide)) 0⟩

/-! ## Growth keeps the packing -/

theorem mem_expandFreeRects (bin : Bin) (w h : Int) (x : Rect)
    (hx : x ∈ (bin.expandFreeRects w h).FreeRects) :
    bin.keepFree x = true ∧
      ((∃ f ∈ bin.FreeRects, x = bin.expandOne w h f) ∨
        x = ⟨w - bin.Width - bin.Padding, h - bin.border * 2,
            bin.Width + bin.Padding - bin.border, bin.border⟩ ∨
        x = ⟨w - bin.border * 2, h - bin.Height - bin.Padding,
            bin.border, bin.Height + bin.Padding - bin.border⟩) := by
  unfold Bin.expandFreeRects at hx
  have h1 := mem_pruneFreeList _ x hx
  simp only [List.mem_filter, List.mem_append, List.mem_map, List.mem_cons,
    List.mem_singleton, List.not_mem_nil, or_false] at h1
  refine ⟨h1.2, ?_⟩
  rcases h1.1 with ⟨f, hf, rfl⟩ | h2 | h2
  · exact Or.inl ⟨f, hf, rfl⟩
  · exact Or.inr (Or.inl h2)
  · exact Or.inr (Or.inr h2)

theorem keepFree_iff (bin : Bin) (x : Rect) :
    bin.keepFree x = true ↔ 0 < x.Width ∧ 0 < x.Height ∧ bin.border ≤ x.X ∧ bin.border ≤ x.Y := by
  simp only [Bin.keepFree, Bool.not_eq_true', Bool.or_eq_false_iff, decide_eq_false_iff_not,
    not_le, not_lt, and_assoc]

theorem expandOne_eq (bin : Bin) (w h : Int) (f : Rect) :
    bin.expandOne w h f =
      ⟨if f.X + f.Width ≥ min (bin.Width + bin.Padding - bin.border) w then
          w - f.X - bin.border else f.Width,
        if f.Y + f.Height ≥ min (bin.Height + bin.Padding - bin.border) h then
          h - f.Y - bin.border else f.Height,
        f.X, f.Y⟩ := by
  rcases f with ⟨fw, fh, fx, fy⟩
  by_cases h1 : fx + fw ≥ min (bin.Width + bin.Padding - bin.border) w <;>
    by_cases h2 : fy + fh ≥ min (bin.Height + bin.Padding - bin.border) h <;>
    simp [Bin.expandOne, h1, h2]

theorem updateBinSize_true_fields (b b1 : Bin) (node : Rect)
    (hu : b.updateBinSize node = (true, b1)) :
    b1.Width = b.growWidth node ∧ b1.Height = b.growHeight node ∧ b1.Padding = b.Padding ∧
      b1.border = b.border ∧
      b1.FreeRects = (b.expandFreeRects (b.growWidth node + b.Padding)
        (b.growHeight node + b.Padding)).FreeRects := by
  obtain ⟨_, _, _, _, hb1⟩ := updateBinSize_true b b1 node hu
  subst hb1
  exact ⟨rfl, rfl, rfl, rfl, rfl⟩

/-- An accepted growth keeps the placed rectangles packed and leaves every free rectangle
inside the new container. -/
theorem Packed_update (b b1 : Bin) (node : Rect) (done : List Rect) (hp : 0 ≤ b.Padding)
    (hbd : 0 ≤ b.border) (hW : 0 ≤ b.Width) (hH : 0 ≤ b.Height) (hP : b.Packed done)
    (hu : b.updateBinSize node = (true, b1)) : b1.Packed done ∧ b1.FreeIn := by
  obtain ⟨ew, eh, ep, eb, ef⟩ := updateBinSize_true_fields b b1 node hu
  obtain ⟨g1, g2, _⟩ := grow_facts b node hW hH
  have hmem := mem_expandFreeRects b (b.growWidth node + b.Padding)
    (b.growHeight node + b.Padding)
  constructor
  · refine ⟨hP.pos, ?_, ?_, ?_⟩
    · intro r hr
      have := hP.inb r hr
      rw [ew, eh, ep, eb]
      omega
    · intro r hr x hx
      rw [ef] at hx
      rw [ep]
      have hin := hP.inb r hr
      have hpos := hP.pos r hr
      obtain ⟨_, hx2⟩ := hmem x hx
      rw [← Bool.not_eq_true, collide_iff]
      simp only [footprint]
      rcases hx2 with ⟨f, hf, rfl⟩ | rfl | rfl
      · have hno := hP.nohit r hr f hf
        rw [← Bool.not_eq_true, collide_iff] at hno
        simp only [footprint] at hno
        rw [expandOne_eq]
        simp only
        split_ifs <;> omega
      · simp only; omega
      · simp only; omega
    · rw [ep]; exact hP.pw
  · intro x hx
    rw [ef] at hx
    rw [ew, eh, ep, eb]
    obtain ⟨hk, hx2⟩ := hmem x hx
    rw [keepFree_iff] at hk
    rcases hx2 with ⟨f, hf, rfl⟩ | rfl | rfl
    · rw [expandOne_eq] at hk ⊢
      simp only at hk ⊢
      split_ifs <;> omega
    · simp only at hk ⊢; omega
    · simp only at hk ⊢; omega

/-! ## A placement keeps the packing -/

theorem GoodCfg_congr (b b1 : Bin) (hc : b1.cfg = b.cfg) (h : b.GoodCfg) : b1.GoodCfg := by
  have e1 : b1.MaxWidth = b.MaxWidth := congrArg Cfg.MaxWidth hc
  have e2 : b1.MaxHeight = b.MaxHeight := congrArg Cfg.MaxHeight hc
  have e3 : b1.Padding = b.Padding := congrArg Cfg.Padding hc
  have e4 : b1.border = b.border := congrArg Cfg.border hc
  have e5 : b1.Smart = b.Smart := congrArg Cfg.Smart hc
  have e6 : b1.POT = b.POT := congrArg Cfg.POT hc
  have e7 : b1.Square = b.Square := congrArg Cfg.Square hc
  unfold Bin.GoodCfg at h ⊢
  rw [e1, e2, e3, e4, e5, e6, e7]; exact h

theorem collide_of_contain (f x u : Rect) (hc : f.Contain x = true) (hx : x.Collide u = true) :
    f.Collide u = true := by
  rw [contain_iff] at hc
  rw [collide_iff] at hx ⊢
  omega

/-- In a good configuration a growth whose tentative size, before rounding and squaring, is
within the maximum is within the maximum after them. -/
theorem grow_le_max (b : Bin) (node : Rect) (hg : b.GoodCfg) (hW : 0 ≤ b.Width)
    (hH : 0 ≤ b.Height)
    (h1 : max b.Width (node.X + node.Width - b.Padding + b.border) ≤ b.MaxWidth)
    (h2 : max b.Height (node.Y + node.Height - b.Padding + b.border) ≤ b.MaxHeight) :
    b.growWidth node ≤ b.MaxWidth ∧ b.growHeight node ≤ b.MaxHeight := by
  obtain ⟨_, _, _, hpot, hsq⟩ := hg
  have hw0 : 0 ≤ max b.Width (node.X + node.Width - b.Padding + b.border) :=
    le_max_of_le_left hW
  have hh0 : 0 ≤ max b.Height (node.Y + node.Height - b.Padding + b.border) :=
    le_max_of_le_left hH
  unfold Bin.growHeight Bin.growWidth
  cases hP : b.POT <;> cases hS : b.Square <;>
    simp only [Bool.false_eq_true, if_false, if_true]
  · exact ⟨h1, h2⟩
  · have := hsq hS
    exact ⟨max_le h1 (by omega), max_le (by omega) h2⟩
  · obtain ⟨p1, p2⟩ := hpot hP
    have q1 := potCeil_mono _ _ hw0 h1
    have q2 := potCeil_mono _ _ hh0 h2
    rw [potCeil_fix _ p1] at q1
    rw [potCeil_fix _ p2] at q2
    exact ⟨q1, q2⟩
  · obtain ⟨p1, p2⟩ := hpot hP
    have q1 := potCeil_mono _ _ hw0 h1
    have q2 := potCeil_mono _ _ hh0 h2
    rw [potCeil_fix _ p1] at q1
    rw [potCeil_fix _ p2] at q2
    have := hsq hS
    exact ⟨max_le q1 (by omega), max_le (by omega) q2⟩

theorem PackInv_grow (b b1 : Bin) (node : Rect) (done : List Rect) (h : b.PackInv done)
    (hu : b.updateBinSize node = (true, b1)) : b1.PackInv done := by
  obtain ⟨hg, hs, hb, hP, _⟩ := h
  obtain ⟨hc, _⟩ := updateBinSize_true_dims b b1 node hu
  obtain ⟨q1, q2⟩ := Packed_update b b1 node done hg.2.1 hg.2.2.1 hs.1 hs.2.1 hP hu
  exact ⟨GoodCfg_congr b b1 hc hg, Shaped_update b b1 node hs hu, Bounded_update b b1 node hb hu,
    q1, Or.inl q2⟩

/-- The split and prune steps of a successful placement keep the packing, once the node is
known to lie inside the container and to be clear of the earlier footprints. -/
theorem PackInv_split (b b1 : Bin) (rect node : Rect) (done : List Rect)
    (hb1 : (b.updateBinSize node).2 = b1) (hg : b1.GoodCfg) (hs : b1.Shaped)
    (hbo : b1.Bounded) (hP : b1.Packed done) (hF : b1.FreeIn) (hpos : PositiveRect rect)
    (hnw : node.Width = rect.Width + b1.Padding) (hnh : node.Height = rect.Height + b1.Padding)
    (hin : b1.border ≤ node.X ∧ b1.border ≤ node.Y ∧
      node.X + node.Width ≤ b1.Width + b1.Padding - b1.border ∧
      node.Y + node.Height ≤ b1.Height + b1.Padding - b1.border)
    (hclear : ∀ r ∈ done, node.Collide (footprint b1.Padding r) = false) :
    (b.placeFound rect node).1.PackInv ((b.placeFound rect node).2 :: done) := by
  have hc1 : b1.cfg = b.cfg := by rw [← hb1]; exact cfg_updateBinSize b node
  have hc : (b.placeFound rect node).1.cfg = b1.cfg := (cfg_placeFound b rect node).trans hc1.symm
  have ew : (b.placeFound rect node).1.Width = b1.Width := by rw [width_placeFound, hb1]
  have eh : (b.placeFound rect node).1.Height = b1.Height := by rw [height_placeFound, hb1]
  have ep : (b.placeFound rect node).1.Padding = b1.Padding := congrArg Cfg.Padding hc
  have eb : (b.placeFound rect node).1.border = b1.border := congrArg Cfg.border hc
  have er : (b.placeFound rect node).2 = { rect with X := node.X, Y := node.Y } := by
    rw [placeFound_eq]
  have efoot : footprint b1.Padding { rect with X := node.X, Y := node.Y } = node := by
    rcases node with ⟨nw, nh, nx, ny⟩
    simp only at hnw hnh
    simp [footprint, hnw, hnh]
  have hmem : ∀ x ∈ (b.placeFound rect node).1.FreeRects,
      (x ∈ b1.FreeRects ∧ x.Collide node = false) ∨
        ∃ f ∈ b1.FreeRects, f.Collide node = true ∧ x ∈ splitPieces f node := by
    intro x hx
    have := mem_placeFound b rect node x hx
    rwa [hb1] at this
  refine ⟨GoodCfg_congr _ _ hc hg, Shaped_congr _ _ hc ew eh hs, Bounded_congr _ _ hc ew eh hbo,
    ⟨?_, ?_, ?_, ?_⟩, Or.inl ?_⟩
  · intro r hr
    rcases List.mem_cons.1 hr with rfl | hr
    · rw [er]; exact hpos
    · exact hP.pos r hr
  · intro r hr
    rw [ew, eh, ep, eb]
    rcases List.mem_cons.1 hr with rfl | hr
    · rw [er]
      simp only
      omega
    · exact hP.inb r hr
  · intro r hr x hx
    rw [ep]
    rcases List.mem_cons.1 hr with rfl | hr
    · rw [er, efoot]
      rcases hmem x hx with ⟨_, h2⟩ | ⟨f, _, h2, h3⟩
      · exact h2
      · exact (splitPieces_spec f node x h2 h3).2
    · rcases hmem x hx with ⟨h1, _⟩ | ⟨f, h1, h2, h3⟩
      · exact hP.nohit r hr x h1
      · have hno := hP.nohit r hr f h1
        by_contra hcon
        have hcon2 : x.Collide (footprint b1.Padding r) = true := by simpa using hcon
        have := collide_of_contain f x _ (splitPieces_spec f node x h2 h3).1 hcon2
        rw [hno] at this
        simp at this
  · rw [ep, List.pairwise_cons]
    refine ⟨?_, hP.pw⟩
    intro r hr
    rw [er, efoot]
    exact hclear r hr
  · intro x hx
    rw [ew, eh, ep, eb]
    rcases hmem x hx with ⟨h1, _⟩ | ⟨f, h1, h2, h3⟩
    · exact hF x h1
    · have hf := hF f h1
      have hcon := (splitPieces_spec f node x h2 h3).1
      rw [contain_iff] at hcon
      omega

/-- A successful placement of a positive rectangle keeps the packing invariant and adds the
rectangle to the packed ones. -/
theorem PackInv_found (b : Bin) (rect node : Rect) (done : List Rect) (h : b.PackInv done)
    (hpos : PositiveRect rect)
    (hf : b.findNode (rect.Width + b.Padding) (rect.Height + b.Padding) = some node) :
    (b.placeFound rect node).1.PackInv ((b.placeFound rect node).2 :: done) := by
  obtain ⟨f0, hf0, hfw, hfh, hnode⟩ := findNode_some b _ _ node hf
  obtain ⟨hg, hs, hbo, hP, hcase⟩ := h
  have hsm := hg.1
  have hpad := hg.2.1
  have hbd := hg.2.2.1
  have hclear0 : ∀ r ∈ done, node.Collide (footprint b.Padding r) = false := by
    intro r hr
    have hno := hP.nohit r hr f0 hf0
    rw [← Bool.not_eq_true, collide_iff] at hno ⊢
    subst hnode
    simp only at hno ⊢
    omega
  rcases hu : b.updateBinSize node with ⟨o, b1⟩
  have hb1 : (b.updateBinSize node).2 = b1 := by rw [hu]
  cases o
  · have hbb : b1 = b := by
      have := updateBinSize_false b node (by rw [hu])
      rw [hu] at this
      exact this
    subst hbb
    have hF : b1.FreeIn := by
      rcases hcase with hF | ⟨⟨fw, fh, fst, ffree⟩, _⟩
      · exact hF
      · exfalso
        rw [ffree, List.mem_singleton] at hf0
        subst hf0
        subst hnode
        simp only at hfw hfh hu
        have hgl := grow_le_max b1
          ⟨rect.Width + b1.Padding, rect.Height + b1.Padding, b1.border, b1.border⟩ hg
          hs.1 hs.2.1 (by simp only [fw]; have := hpos.1; omega)
          (by simp only [fh]; have := hpos.2; omega)
        rw [updateBinSize_eq] at hu
        have hcn : b1.stage.Contain
            ⟨rect.Width + b1.Padding, rect.Height + b1.Padding, b1.border, b1.border⟩ = false := by
          rw [← Bool.not_eq_true, contain_iff, fst]
          simp only
          have := hpos.1
          omega
        rw [if_neg (by simp [hsm]), if_neg (by simp [hcn]), if_neg (by omega)] at hu
        simp at hu
    refine PackInv_split b1 b1 rect node done hb1 hg hs hbo hP hF hpos ?_ ?_ ?_ hclear0
    · subst hnode; rfl
    · subst hnode; rfl
    · have := hF f0 hf0
      subst hnode
      simp only
      omega
  · obtain ⟨ew, eh, ep, eb, _⟩ := updateBinSize_true_fields b b1 node hu
    obtain ⟨g1, g2, g3, g4, _⟩ := grow_facts b node hs.1 hs.2.1
    have hinv1 := PackInv_grow b b1 node done ⟨hg, hs, hbo, hP, hcase⟩ hu
    obtain ⟨hg1, hs1, hbo1, hP1, hcase1⟩ := hinv1
    have hF1 : b1.FreeIn := by
      rcases hcase1 with h | ⟨⟨_, _, _, _⟩, _⟩
      · exact h
      · exact (Packed_update b b1 node done hpad hbd hs.1 hs.2.1 hP hu).2
    refine PackInv_split b b1 rect node done hb1 hg1 hs1 hbo1 hP1 hF1 hpos ?_ ?_ ?_ ?_
    · rw [ep]; subst hnode; rfl
    · rw [ep]; subst hnode; rfl
    · rw [ew, eh, ep, eb]
      rcases hcase with hF | ⟨⟨_, _, _, ffree⟩, _⟩
      · have := hF f0 hf0
        subst hnode
        simp only at g3 g4 ⊢
        omega
      · rw [ffree, List.mem_singleton] at hf0
        subst hf0
        subst hnode
        simp only at g3 g4 ⊢
        omega
    · rw [ep]; exact hclear0

/-! ## The packing invariant on reachable states -/

theorem Place_PackInv (done : List Rect) (fuel : Nat) (b : Bin) (rect : Rect) (ok : Bool)
    (b1 : Bin) (r1 : Rect) (h : b.PackInv done) (hpos : PositiveRect rect)
    (hp : b.Place fuel rect = some (ok, b1, r1)) :
    b1.PackInv (if ok = true then r1 :: done else done) := by
  refine Place_induct rect (fun b => b.PackInv done)
    (fun ok b1 r1 => b1.PackInv (if ok = true then r1 :: done else done))
    ?_ ?_ ?_ fuel b ok b1 r1 h hp
  · intro b node hb hf
    simpa using PackInv_found b rect node done hb hpos hf
  · intro b b1 hb hg
    rcases growEither_cases b b1 rect true hg.2 with ⟨h, _⟩ | ⟨_, h | h⟩
    · simp at h
    · exact PackInv_grow b b1 _ done hb h
    · exact PackInv_grow b b1 _ done hb h
  · intro b hb _ _
    simpa using hb

theorem Reach_PackInv {b0 bin : Bin} {done : List Rect} (h : Reach PositiveRect b0 bin done)
    (h0 : b0.PackInv []) : bin.PackInv done := by
  induction h with
  | init => exact h0
  | placed _ hok hp ih => simpa using Place_PackInv _ _ _ _ _ _ _ ih hok hp
  | failed _ hok hp ih => simpa using Place_PackInv _ _ _ _ _ _ _ ih hok hp

theorem configuredBin_PackInv (maxWidth maxHeight padding border : Int) (pot square : Bool)
    (hp : 0 ≤ padding) (hb : 0 ≤ border) (hw : 0 ≤ maxWidth) (hh : 0 ≤ maxHeight)
    (hpot : pot = true → IsPotOrZero maxWidth ∧ IsPotOrZero maxHeight)
    (hsq : square = true → maxWidth = maxHeight) :
    (configuredBin maxWidth maxHeight padding border true pot square).PackInv [] := by
  refine ⟨⟨rfl, hp, hb, hpot, hsq⟩, configuredBin_Shaped _ _ _ _ _ _, ?_, ?_, ?_⟩
  · exact ⟨by show (0 : Int) ≤ maxWidth + padding; omega,
      by show (0 : Int) ≤ maxHeight + padding; omega⟩
  · exact ⟨by simp, by simp, by simp, List.Pairwise.nil⟩
  · exact Or.inr ⟨⟨rfl, rfl, rfl, rfl⟩, rfl⟩

theorem testBin_PackInv (k : Nat) (padding border : Int) (hp : 0 ≤ padding) (hb : 0 ≤ border) :
    (configuredBin (2 ^ k) (2 ^ k) padding border true true false).PackInv [] :=
  configuredBin_PackInv _ _ _ _ _ _ hp hb (by positivity) (by positivity)
    (fun _ => ⟨Or.inr ⟨k, rfl⟩, Or.inr ⟨k, rfl⟩⟩) (fun h => by simp at h)

/-! ## Claims on the monkey test -/

/-- C3 (monkey-test no-overlap): on a growth-enabled bin configured like `newTestBin` (POT
set, Square unset, `MaxWidth` and `MaxHeight` the same power of two) with any
`padding ≥ 0` and `border ≥ 0`, after any finite sequence of `Place` calls on rectangles of
positive width and height, the padded footprints of any two distinct successfully placed
rectangles do not collide, in either order, and hence neither do the rectangles
themselves.  The maximum, the padding, the border and the sides of the rectangles are at
most `sizeLimit`. -/
theorem C3_monkey_no_overlap (k : Nat) (padding border : Int)
    (hcfg : SmallConfig (2 ^ k) (2 ^ k) padding border) (bin : Bin) (done : List Rect)
    (hsmall : Reach SmallPositiveRect
      (configuredBin (2 ^ k) (2 ^ k) padding border true true false) bin done) :
    done.Pairwise (fun r1 r2 =>
      (footprint padding r1).Collide (footprint padding r2) = false ∧
        (footprint padding r2).Collide (footprint padding r1) = false ∧
        r1.Collide r2 = false ∧ r2.Collide r1 = false) := by
  have hp : 0 ≤ padding := hcfg.2.2.2.2.1
  have hb : 0 ≤ border := hcfg.2.2.2.2.2.2.1
  have h := Reach_mono (fun r (hr : SmallPositiveRect r) => hr.1) hsmall
  have hinv := Reach_PackInv h (testBin_PackInv k padding border hp hb)
  have hpad : bin.Padding = padding := congrArg Cfg.Padding (Reach_cfg h)
  have hpw := hinv.2.2.2.1.pw
  rw [hpad] at hpw
  refine hpw.imp ?_
  intro r1 r2 h12
  have h21 : (footprint padding r2).Collide (footprint padding r1) = false := by
    rw [collide_symm]; exact h12
  refine ⟨h12, h21, ?_, ?_⟩
  · rw [← Bool.not_eq_true, collide_iff] at h12 ⊢
    simp only [footprint] at h12
    omega
  · rw [← Bool.not_eq_true, collide_iff] at h21 ⊢
    simp only [footprint] at h21
    omega

/-- C3, witness: two 2 by 2 rectangles placed in `testBin` (maximum `2 ^ 3`, padding 1,
border 1) end at `(4, 1)` and `(1, 1)`, and their footprints do not collide. -/
theorem C3_monkey_no_overlap_witness :
    Reach SmallPositiveRect (configuredBin (2 ^ 3) (2 ^ 3) 1 1 true true false) testBin2
        [⟨2, 2, 4, 1⟩, ⟨2, 2, 1, 1⟩] ∧
      [(⟨2, 2, 4, 1⟩ : Rect), ⟨2, 2, 1, 1⟩].Pairwise (fun r1 r2 =>
        (footprint 1 r1).Collide (footprint 1 r2) = false ∧
          (footprint 1 r2).Collide (footprint 1 r1) = false ∧
          r1.Collide r2 = false ∧ r2.Collide r1 = false) :=
  have h1 : Reach SmallPositiveRect (configuredBin (2 ^ 3) (2 ^ 3) 1 1 true true false) testBin1
      [⟨2, 2, 1, 1⟩] :=
    Reach.placed Reach.init ⟨⟨by decide, by decide⟩, by decide⟩
      (by decide : (configuredBin (2 ^ 3) (2 ^ 3) 1 1 true true false).Place 1 ⟨2, 2, 0, 0⟩ =
        some (true, testBin1, ⟨2, 2, 1, 1⟩))
  have h2 : Reach SmallPositiveRect (configuredBin (2 ^ 3) (2 ^ 3) 1 1 true true false) testBin2
      [⟨2, 2, 4, 1⟩, ⟨2, 2, 1, 1⟩] :=
    Reach.placed h1 ⟨⟨by decide, by decide⟩, by decide⟩
      (by decide : testBin1.Place 2 ⟨2, 2, 0, 0⟩ = some (true, testBin2, ⟨2, 2, 4, 1⟩))
  ⟨h2, C3_monkey_no_overlap 3 1 1 (by decide) testBin2 _ h2⟩

/-- C4 (monkey-test in-bounds with border inset): on a growth-enabled bin configured like
`newTestBin` (POT set, Square unset, `MaxWidth` and `MaxHeight` the same power of two) with
any `padding ≥ 0` and `border ≥ 0`, after any finite sequence of `Place` calls on
rectangles of positive width and height, every successfully placed rectangle keeps the
border inset on all four sides of the final container, and in particular lies inside it.
The maximum, the padding, the border and the sides of the rectangles are at most
`sizeLimit`. -/
theorem C4_monkey_in_bounds (k : Nat) (padding border : Int)
    (hcfg : SmallConfig (2 ^ k) (2 ^ k) padding border) (bin : Bin) (done : List Rect)
    (hsmall : Reach SmallPositiveRect
      (configuredBin (2 ^ k) (2 ^ k) padding border true true false) bin done) :
    ∀ r ∈ done, border ≤ r.X ∧ border ≤ r.Y ∧ r.X + r.Width + border ≤ bin.Width ∧
      r.Y + r.Height + border ≤ bin.Height ∧
      0 ≤ r.X ∧ 0 ≤ r.Y ∧ r.X + r.Width ≤ bin.Width ∧ r.Y + r.Height ≤ bin.Height := by
  have hp : 0 ≤ padding := hcfg.2.2.2.2.1
  have hb : 0 ≤ border := hcfg.2.2.2.2.2.2.1
  have h := Reach_mono (fun r (hr : SmallPositiveRect r) => hr.1) hsmall
  have hinv := Reach_PackInv h (testBin_PackInv k padding border hp hb)
  have hpad : bin.Padding = padding := congrArg Cfg.Padding (Reach_cfg h)
  have hbor : bin.border = border := congrArg Cfg.border (Reach_cfg h)
  intro r hr
  have hin := hinv.2.2.2.1.inb r hr
  rw [hpad, hbor] at hin
  omega

/-- C4, witness: the two rectangles placed in `testBin` keep the border of 1 inside the
final 8 by 4 container. -/
theorem C4_monkey_in_bounds_witness :
    Reach SmallPositiveRect (configuredBin (2 ^ 3) (2 ^ 3) 1 1 true true false) testBin2
        [⟨2, 2, 4, 1⟩, ⟨2, 2, 1, 1⟩] ∧
      ∀ r ∈ [(⟨2, 2, 4, 1⟩ : Rect), ⟨2, 2, 1, 1⟩],
        1 ≤ r.X ∧ 1 ≤ r.Y ∧ r.X + r.Width + 1 ≤ testBin2.Width ∧
          r.Y + r.Height + 1 ≤ testBin2.Height ∧
          0 ≤ r.X ∧ 0 ≤ r.Y ∧ r.X + r.Width ≤ testBin2.Width ∧
          r.Y + r.Height ≤ testBin2.Height :=
  have h1 : Reach SmallPositiveRect (configuredBin (2 ^ 3) (2 ^ 3) 1 1 true true false) testBin1
      [⟨2, 2, 1, 1⟩] :=
    Reach.placed Reach.init ⟨⟨by decide, by decide⟩, by decide⟩
      (by decide : (configuredBin (2 ^ 3) (2 ^ 3) 1 1 true true false).Place 1 ⟨2, 2, 0, 0⟩ =
        some (true, testBin1, ⟨2, 2, 1, 1⟩))
  have h2 : Reach SmallPositiveRect (configuredBin (2 ^ 3) (2 ^ 3) 1 1 true true false) testBin2
      [⟨2, 2, 4, 1⟩, ⟨2, 2, 1, 1⟩] :=
    Reach.placed h1 ⟨⟨by decide, by decide⟩, by decide⟩
      (by decide : testBin1.Place 2 ⟨2, 2, 0, 0⟩ = some (true, testBin2, ⟨2, 2, 4, 1⟩))
  ⟨h2, C4_monkey_in_bounds 3 1 1 (by decide) testBin2 _ h2⟩

/-! ## Claims on arbitrary maximum sizes -/

/-- C1 (no-overlap), evaluated at a failing input: on `NewBin(1000, 1000, 0, 0, true)`
`Place` returns true for a 600 by 600 rectangle and then for a 500 by 500 rectangle, and
writes the position `(0, 0)` into both, so that their footprints collide.  The first call
finds a free rectangle, `updateBinSize` rejects the growth to 1024 by 1024, and `Place`
ignores the rejection. -/
theorem C1_overlap_at_failing_input :
    Reach PositiveRect atlasBin atlasBin2 [⟨500, 500, 0, 0⟩, ⟨600, 600, 0, 0⟩] ∧
      (footprint atlasBin2.Padding ⟨500, 500, 0, 0⟩).Collide
        (footprint atlasBin2.Padding ⟨600, 600, 0, 0⟩) = true :=
  have h1 : Reach PositiveRect atlasBin atlasBin1 [⟨600, 600, 0, 0⟩] :=
    Reach.placed Reach.init ⟨by decide, by decide⟩
      (by decide : atlasBin.Place 1 ⟨600, 600, 0, 0⟩ = some (true, atlasBin1, ⟨600, 600, 0, 0⟩))
  ⟨Reach.placed h1 ⟨by decide, by decide⟩
      (by decide : atlasBin1.Place 2 ⟨500, 500, 0, 0⟩ =
        some (true, atlasBin2, ⟨500, 500, 0, 0⟩)),
    by decide⟩

/-- C2 (in-bounds), evaluated at a failing input: on `NewBin(1000, 1000, 0, 0, true)`
`Place` returns true for a 600 by 600 rectangle and leaves the container 0 by 0, so the
rectangle at `(0, 0)` does not lie inside it. -/
theorem C2_out_of_bounds_at_failing_input :
    atlasBin.Place 1 ⟨600, 600, 7, 9⟩ = some (true, atlasBin1, ⟨600, 600, 0, 0⟩) ∧
      atlasBin1.Width = 0 ∧ atlasBin1.Height = 0 ∧
      ¬ ((0 : Int) + 600 ≤ atlasBin1.Width) ∧ ¬ ((0 : Int) + 600 ≤ atlasBin1.Height) := by
  decide

/-! ## The iteration bound of the prune loop is never reached -/

theorem pruneInner_length (t : Rect) (i : Nat) : ∀ (k j : Nat) (free : List Rect), i < j →
    i < free.length →
    (pruneInner t i k j free).2.length ≤ free.length ∧
      ((pruneInner t i k j free).1 = true → (pruneInner t i k j free).2.length < free.length)
  | 0, _, free, _, _ => by simp [pruneInner]
  | k + 1, j, free, hij, hi => by
    simp only [pruneInner]
    split
    · simp
    · rename_i t2 hj
      have hjlt : j < free.length := by
        rcases List.getElem?_eq_some_iff.1 hj with ⟨h, _⟩
        exact h
      split_ifs
      · simp only [List.length_eraseIdx, hi, if_true, forall_const]
        omega
      · have hlen : (free.eraseIdx j).length = free.length - 1 := by
          simp [List.length_eraseIdx, hjlt]
        have ih := pruneInner_length t i k j (free.eraseIdx j) hij (by omega)
        omega
      · exact pruneInner_length t i k (j + 1) free (by omega) hi

/-- With at least `len - i` iterations allowed, the outer prune loop ends by its own exit
condition: allowing more iterations does not change the result. -/
theorem pruneOuter_fuel_enough : ∀ (fuel i : Nat) (free : List Rect),
    free.length - i ≤ fuel → ∀ m, fuel ≤ m → pruneOuter m i free = pruneOuter fuel i free
  | 0, i, free, h, m, _ => by
    have hnone : free[i]? = none := List.getElem?_eq_none (by omega)
    cases m with
    | zero => rfl
    | succ m => simp [pruneOuter, hnone]
  | fuel + 1, i, free, h, m, hm => by
    obtain ⟨m, rfl⟩ : ∃ m1, m = m1 + 1 := ⟨m - 1, by omega⟩
    simp only [pruneOuter]
    split
    · rfl
    · rename_i t hi
      have hilt : i < free.length := by
        rcases List.getElem?_eq_some_iff.1 hi with ⟨h, _⟩
        exact h
      have hl := pruneInner_length t i (free.length - (i + 1)) (i + 1) free (by omega) hilt
      split
      · rename_i free1 heq
        rw [heq] at hl
        exact pruneOuter_fuel_enough fuel i free1 (by have := hl.2 rfl; simp only at this; omega)
          m (by omega)
      · rename_i free1 heq
        rw [heq] at hl
        exact pruneOuter_fuel_enough fuel (i + 1) free1 (by have := hl.1; simp only at this; omega)
          m (by omega)

/-! ## Claims on the rectangle predicates and on the split -/

/-- C16, counterexample: the 2 by 2 rectangle at the origin collides with the rectangle of
width and height 0 at `(1, 1)`, whose open interior is empty. -/
theorem C16_counterexample :
    (⟨2, 2, 0, 0⟩ : Rect).Collide ⟨0, 0, 1, 1⟩ = true ∧
      (⟨2, 2, 0, 0⟩ : Rect).Collide64 ⟨0, 0, 1, 1⟩ = true ∧
      ¬ ∃ x y : ℝ, (⟨2, 2, 0, 0⟩ : Rect).InInterior x y ∧ (⟨0, 0, 1, 1⟩ : Rect).InInterior x y := by
  refine ⟨by decide, by decide, ?_⟩
  rintro ⟨x, y, _, h⟩
  simp only [Rect.InInterior] at h
  norm_num at h
  linarith [h.1, h.2.1]

theorem collide_interiors (a b : Rect) :
    (∃ x y : ℝ, a.InInterior x y ∧ b.InInterior x y) ↔
      (a.Collide b = true ∧ 0 < a.Width ∧ 0 < a.Height ∧ 0 < b.Width ∧ 0 < b.Height) := by
  rw [collide_iff]
  constructor
  · rintro ⟨x, y, ⟨a1, a2, a3, a4⟩, ⟨b1, b2, b3, b4⟩⟩
    have c1 : (b.X : ℝ) < ((a.X + a.Width : Int) : ℝ) := lt_trans b1 a2
    have c2 : (a.X : ℝ) < ((b.X + b.Width : Int) : ℝ) := lt_trans a1 b2
    have c3 : (b.Y : ℝ) < ((a.Y + a.Height : Int) : ℝ) := lt_trans b3 a4
    have c4 : (a.Y : ℝ) < ((b.Y + b.Height : Int) : ℝ) := lt_trans a3 b4
    have c5 : (a.X : ℝ) < ((a.X + a.Width : Int) : ℝ) := lt_trans a1 a2
    have c6 : (a.Y : ℝ) < ((a.Y + a.Height : Int) : ℝ) := lt_trans a3 a4
    have c7 : (b.X : ℝ) < ((b.X + b.Width : Int) : ℝ) := lt_trans b1 b2
    have c8 : (b.Y : ℝ) < ((b.Y + b.Height : Int) : ℝ) := lt_trans b3 b4
    have d1 : b.X < a.X + a.Width := by exact_mod_cast c1
    have d2 : a.X < b.X + b.Width := by exact_mod_cast c2
    have d3 : b.Y < a.Y + a.Height := by exact_mod_cast c3
    have d4 : a.Y < b.Y + b.Height := by exact_mod_cast c4
    have d5 : a.X < a.X + a.Width := by exact_mod_cast c5
    have d6 : a.Y < a.Y + a.Height := by exact_mod_cast c6
    have d7 : b.X < b.X + b.Width := by exact_mod_cast c7
    have d8 : b.Y < b.Y + b.Height := by exact_mod_cast c8
    omega
  · rintro ⟨⟨h1, h2, h3, h4⟩, h5, h6, h7, h8⟩
    have key : ∀ p q r s : Int, p < r → p < s → q < r → q < s →
        ∃ x : ℝ, (p : ℝ) < x ∧ x < (r : ℝ) ∧ (q : ℝ) < x ∧ x < (s : ℝ) := by
      intro p q r s e1 e2 e3 e4
      refine ⟨((max p q : Int) : ℝ) + 1 / 2, ?_, ?_, ?_, ?_⟩
      · have : (p : ℝ) ≤ ((max p q : Int) : ℝ) := by exact_mod_cast le_max_left p q
        linarith
      · have : max p q + 1 ≤ r := by omega
        have : ((max p q : Int) : ℝ) + 1 ≤ (r : ℝ) := by exact_mod_cast this
        linarith
      · have : (q : ℝ) ≤ ((max p q : Int) : ℝ) := by exact_mod_cast le_max_right p q
        linarith
      · have : max p q + 1 ≤ s := by omega
        have : ((max p q : Int) : ℝ) + 1 ≤ (s : ℝ) := by exact_mod_cast this
        linarith
    obtain ⟨x, x1, x2, x3, x4⟩ := key a.X b.X (a.X + a.Width) (b.X + b.Width) (by omega)
      (by omega) (by omega) (by omega)
    obtain ⟨y, y1, y2, y3, y4⟩ := key a.Y b.Y (a.Y + a.Height) (b.Y + b.Height) (by omega)
      (by omega) (by omega) (by omega)
    exact ⟨x, y, ⟨x1, x2, y1, y2⟩, ⟨x3, x4, y3, y4⟩⟩


/-- When the right and bottom edges of both rectangles fit a 64-bit `int`, the 64-bit
`Collide` is the exact one. -/
theorem collide64_eq (a b : Rect) (ha : a.EdgesFit) (hb : b.EdgesFit) :
    a.Collide64 b = a.Collide b := by
  unfold Rect.Collide64 Rect.Collide
  rw [wrapInt_eq _ ha.1 ha.2.1, wrapInt_eq _ ha.2.2.1 ha.2.2.2, wrapInt_eq _ hb.1 hb.2.1,
    wrapInt_eq _ hb.2.2.1 hb.2.2.2]

/-- Where an edge does not fit, the sum wraps around and `Collide` misses an intersection:
the rectangle of width `math.MaxInt` at `(1, 0)` and the unit square at `(5, 0)`. -/
theorem Collide64_wraps :
    (⟨9223372036854775807, 1, 1, 0⟩ : Rect).Collide64 ⟨1, 1, 5, 0⟩ = false ∧
      (⟨9223372036854775807, 1, 1, 0⟩ : Rect).Collide ⟨1, 1, 5, 0⟩ = true := by
  decide

/-- C16, amended (`Collide` is open-interior intersection for rectangles of positive size):
for all rectangles `a` and `b` whose right and bottom edges `X+Width` and `Y+Height` fit a
64-bit `int`, the open interiors of `a` and `b`, the plane regions
`(X, X+Width) × (Y, Y+Height)`, have a point in common exactly when `a.Collide(b)` is true
and both rectangles have positive width and height.  `Collide` is taken as Go computes it,
with 64-bit sums (`Collide64`), which for such rectangles is the exact `Collide`. -/
theorem C16_collide_open_interiors (a b : Rect) (ha : a.EdgesFit) (hb : b.EdgesFit) :
    a.Collide64 b = a.Collide b ∧
      ((∃ x y : ℝ, a.InInterior x y ∧ b.InInterior x y) ↔
        (a.Collide64 b = true ∧ 0 < a.Width ∧ 0 < a.Height ∧ 0 < b.Width ∧ 0 < b.Height)) := by
  refine ⟨collide64_eq a b ha hb, ?_⟩
  rw [collide64_eq a b ha hb]
  exact collide_interiors a b

/-- C16, witness: the 2 by 2 rectangles at `(0, 0)` and `(1, 1)` collide and have positive
sizes, so their interiors share a point. -/
theorem C16_collide_open_interiors_witness :
    (⟨2, 2, 0, 0⟩ : Rect).Collide64 ⟨2, 2, 1, 1⟩ = true ∧
      ∃ x y : ℝ, (⟨2, 2, 0, 0⟩ : Rect).InInterior x y ∧ (⟨2, 2, 1, 1⟩ : Rect).InInterior x y :=
  ⟨by decide,
    (C16_collide_open_interiors ⟨2, 2, 0, 0⟩ ⟨2, 2, 1, 1⟩ (by decide) (by decide)).2.2
      ⟨by decide, by decide, by decide, by decide, by decide⟩⟩

theorem splitPieces_length (F U : Rect) : (splitPieces F U).length ≤ 4 := by
  unfold splitPieces
  split_ifs <;> simp

theorem splitPieces_pos (F U x : Rect) (hw : 0 < F.Width) (hh : 0 < F.Height)
    (hx : x ∈ splitPieces F U) : 0 < x.Width ∧ 0 < x.Height := by
  simp only [splitPieces, List.mem_append, mem_ite_nil, List.mem_singleton] at hx
  rcases hx with ⟨_, ⟨h2, rfl⟩ | ⟨h2, rfl⟩⟩ | ⟨_, ⟨h2, rfl⟩ | ⟨h2, rfl⟩⟩ <;>
    (constructor <;> simp only <;> omega)

theorem splitPieces_cover (F U : Rect) (hc : F.Collide U = true) (px py : ℝ)
    (hF : F.Covers px py) (hU : ¬ U.Covers px py) : ∃ x ∈ splitPieces F U, x.Covers px py := by
  rw [collide_iff] at hc
  obtain ⟨c1, c2, c3, c4⟩ := hc
  obtain ⟨f1, f2, f3, f4⟩ := hF
  simp only [Rect.Covers, not_and_or, not_le, not_lt] at hU
  simp only [splitPieces, List.mem_append, mem_ite_nil, List.mem_singleton]
  rcases hU with h | h | h | h
  · have e1 : (F.X : ℝ) < (U.X : ℝ) := lt_of_le_of_lt f1 h
    have e2 : F.X < U.X := by exact_mod_cast e1
    refine ⟨⟨U.X - F.X, F.Height, F.X, F.Y⟩,
      Or.inr ⟨⟨c3, c4⟩, Or.inl ⟨⟨e2, c1⟩, rfl⟩⟩, f1, ?_, f3, f4⟩
    simp only
    push_cast
    linarith
  · have e1 : ((U.X + U.Width : Int) : ℝ) < ((F.X + F.Width : Int) : ℝ) := lt_of_le_of_lt h f2
    have e2 : U.X + U.Width < F.X + F.Width := by exact_mod_cast e1
    refine ⟨⟨F.X + F.Width - (U.X + U.Width), F.Height, U.X + U.Width, F.Y⟩,
      Or.inr ⟨⟨c3, c4⟩, Or.inr ⟨e2, rfl⟩⟩, h, ?_, f3, f4⟩
    simp only
    push_cast at f2 ⊢
    linarith
  · have e1 : (F.Y : ℝ) < (U.Y : ℝ) := lt_of_le_of_lt f3 h
    have e2 : F.Y < U.Y := by exact_mod_cast e1
    refine ⟨⟨F.Width, U.Y - F.Y, F.X, F.Y⟩,
      Or.inl ⟨⟨c1, c2⟩, Or.inl ⟨⟨e2, c3⟩, rfl⟩⟩, f1, f2, f3, ?_⟩
    simp only
    push_cast
    linarith
  · have e1 : ((U.Y + U.Height : Int) : ℝ) < ((F.Y + F.Height : Int) : ℝ) := lt_of_le_of_lt h f4
    have e2 : U.Y + U.Height < F.Y + F.Height := by exact_mod_cast e1
    refine ⟨⟨F.Width, F.Y + F.Height - (U.Y + U.Height), F.X, U.Y + U.Height⟩,
      Or.inl ⟨⟨c1, c2⟩, Or.inr ⟨e2, rfl⟩⟩, f1, f2, h, ?_⟩
    simp only
    push_cast at f4 ⊢
    linarith

/-- C18 (split covers exactly the uncovered part): for a free region `F` of positive width
and height and a used node `U`, if `F` does not collide with `U` then `splitNode` returns
false and leaves the bin as it is; if `F` collides with `U` then `splitNode` returns true
and appends between 0 and 4 regions, each of positive width and height, each contained in
`F`, none colliding with `U`, such that every point of `F` that is not in `U` lies in an
appended region (regions taken with their left and top edges, without the right and
bottom ones). -/
theorem C18_split_covers (bin : Bin) (F U : Rect) (hw : 0 < F.Width) (hh : 0 < F.Height) :
    (F.Collide U = false → bin.splitNode F U = (false, bin)) ∧
      (F.Collide U = true →
        ∃ pieces : List Rect,
          bin.splitNode F U = (true, { bin with FreeRects := bin.FreeRects ++ pieces }) ∧
          pieces.length ≤ 4 ∧
          (∀ x ∈ pieces, 0 < x.Width ∧ 0 < x.Height ∧ F.Contain x = true ∧
            x.Collide U = false ∧ U.Collide x = false) ∧
          ∀ px py : ℝ, F.Covers px py → ¬ U.Covers px py → ∃ x ∈ pieces, x.Covers px py) := by
  constructor
  · intro hc
    rw [splitNode_eq, hc]
    simp
  · intro hc
    refine ⟨splitPieces F U, ?_, splitPieces_length F U, ?_, ?_⟩
    · rw [splitNode_eq, hc]
      simp
    · intro x hx
      obtain ⟨p1, p2⟩ := splitPieces_pos F U x hw hh hx
      obtain ⟨q1, q2⟩ := splitPieces_spec F U x hc hx
      exact ⟨p1, p2, q1, q2, by rw [collide_symm]; exact q2⟩
    · intro px py hF hU
      exact splitPieces_cover F U hc px py hF hU

/-- C18, witness: a 2 by 2 node in the corner of the 4 by 4 free rectangle of `plainBin`
leaves a bottom and a right piece. -/
theorem C18_split_covers_witness :
    plainBin.splitNode ⟨4, 4, 0, 0⟩ ⟨2, 2, 0, 0⟩ =
        (true, { plainBin with FreeRects := [⟨4, 4, 0, 0⟩, ⟨4, 2, 0, 2⟩, ⟨2, 4, 2, 0⟩] }) ∧
      ∃ pieces : List Rect,
        plainBin.splitNode ⟨4, 4, 0, 0⟩ ⟨2, 2, 0, 0⟩ =
            (true, { plainBin with FreeRects := plainBin.FreeRects ++ pieces }) ∧
          pieces.length ≤ 4 ∧
          (∀ x ∈ pieces, 0 < x.Width ∧ 0 < x.Height ∧ (⟨4, 4, 0, 0⟩ : Rect).Contain x = true ∧
            x.Collide ⟨2, 2, 0, 0⟩ = false ∧ (⟨2, 2, 0, 0⟩ : Rect).Collide x = false) ∧
          ∀ px py : ℝ, (⟨4, 4, 0, 0⟩ : Rect).Covers px py →
            ¬ (⟨2, 2, 0, 0⟩ : Rect).Covers px py → ∃ x ∈ pieces, x.Covers px py :=
  ⟨by decide,
    (C18_split_covers plainBin ⟨4, 4, 0, 0⟩ ⟨2, 2, 0, 0⟩ (by decide) (by decide)).2 (by decide)⟩

/-! ## Claim on the placement heuristic -/

theorem findNodeLoop_best (logic w h : Int) : ∀ (rest done : List Rect) (score : Int)
    (best : Option Rect),
    ((best = none ∧ score = maxInt ∧
        ∀ q ∈ done, q.Fits w h → maxInt ≤ fitScore logic w h q) ∨
      ∃ (pre : List Rect) (r : Rect) (mid : List Rect),
        done = pre ++ r :: mid ∧ best = some ⟨w, h, r.X, r.Y⟩ ∧ r.Fits w h ∧
          score = fitScore logic w h r ∧ score < maxInt ∧
          (∀ q ∈ pre, q.Fits w h → fitScore logic w h r < fitScore logic w h q) ∧
          (∀ q ∈ mid, q.Fits w h → fitScore logic w h r ≤ fitScore logic w h q)) →
    FoundBest logic w h (done ++ rest) (findNodeLoop logic w h rest score best)
  | [], done, score, best, hinv => by
    rw [findNodeLoop, List.append_nil]
    rcases hinv with ⟨h1, _, h3⟩ | ⟨pre, r, mid, h1, h2, h3, h4, h5, h6, h7⟩
    · exact Or.inl ⟨h1, h3⟩
    · exact Or.inr ⟨pre, r, mid, h1, h2, h3, h4 ▸ h5, h6, h7⟩
  | x :: rest, done, score, best, hinv => by
    rw [findNodeLoop]
    have hcons : done ++ x :: rest = (done ++ [x]) ++ rest := by simp
    rw [hcons]
    by_cases hfit : x.Width ≥ w ∧ x.Height ≥ h
    · rw [if_pos hfit]
      have hsc : (if logic = PACK_MAX_AREA then x.Width * x.Height - w * h
          else min (x.Width - w) (x.Height - h)) = fitScore logic w h x := rfl
      simp only [hsc]
      by_cases hlt : fitScore logic w h x < score
      · rw [if_pos hlt]
        apply findNodeLoop_best logic w h rest (done ++ [x])
        right
        refine ⟨done, x, [], by simp, rfl, hfit, rfl, ?_, ?_, by simp⟩
        · rcases hinv with ⟨_, h2, _⟩ | ⟨_, _, _, _, _, _, _, h5, _, _⟩
          · omega
          · omega
        · intro q hq hqf
          rcases hinv with ⟨_, h2, h3⟩ | ⟨pre, r, mid, h1, _, _, h4, _, h6, h7⟩
          · have := h3 q hq hqf
            omega
          · rw [h1] at hq
            rcases List.mem_append.1 hq with hq | hq
            · have := h6 q hq hqf
              omega
            · rcases List.mem_cons.1 hq with rfl | hq
              · omega
              · have := h7 q hq hqf
                omega
      · rw [if_neg hlt]
        apply findNodeLoop_best logic w h rest (done ++ [x])
        rcases hinv with ⟨h1, h2, h3⟩ | ⟨pre, r, mid, h1, h2, h3, h4, h5, h6, h7⟩
        · left
          refine ⟨h1, h2, ?_⟩
          intro q hq hqf
          rcases List.mem_append.1 hq with hq | hq
          · exact h3 q hq hqf
          · rw [List.mem_singleton] at hq
            subst hq
            omega
        · right
          refine ⟨pre, r, mid ++ [x], by simp [h1], h2, h3, h4, h5, h6, ?_⟩
          intro q hq hqf
          rcases List.mem_append.1 hq with hq | hq
          · exact h7 q hq hqf
          · rw [List.mem_singleton] at hq
            subst hq
            omega
    · rw [if_neg hfit]
      apply findNodeLoop_best logic w h rest (done ++ [x])
      rcases hinv with ⟨h1, h2, h3⟩ | ⟨pre, r, mid, h1, h2, h3, h4, h5, h6, h7⟩
      · left
        refine ⟨h1, h2, ?_⟩
        intro q hq hqf
        rcases List.mem_append.1 hq with hq | hq
        · exact h3 q hq hqf
        · rw [List.mem_singleton] at hq
          subst hq
          exact absurd hqf hfit
      · right
        refine ⟨pre, r, mid ++ [x], by simp [h1], h2, h3, h4, h5, h6, ?_⟩
        intro q hq hqf
        rcases List.mem_append.1 hq with hq | hq
        · exact h7 q hq hqf
        · rw [List.mem_singleton] at hq
          subst hq
          exact absurd hqf hfit

theorem findNode_best (bin : Bin) (w h : Int) :
    FoundBest bin.Logic w h bin.FreeRects (bin.findNode w h) := by
  have := findNodeLoop_best bin.Logic w h bin.FreeRects [] maxInt none
    (Or.inl ⟨rfl, rfl, by simp⟩)
  simpa [Bin.findNode] using this

/-- A qualifying region whose score is exactly `math.MaxInt`, the initial value of `score`,
is not chosen: with a free rectangle of the largest 64-bit side lengths and a request of 0
by 0, `findNode` returns nil. -/
theorem findNode_sentinel_miss :
    hugeBin.findNode 0 0 = none ∧
      ∃ r ∈ hugeBin.FreeRects, r.Width ≥ 0 ∧ r.Height ≥ 0 :=
  ⟨by decide, ⟨9223372036854775807, 9223372036854775807, 0, 0⟩, by decide, by decide,
    by decide⟩

/-! ## The free regions stay within the maximum size -/

theorem FreeBelow_update (b b1 : Bin) (node : Rect) (h : b.FreeBelow)
    (hu : b.updateBinSize node = (true, b1)) : b1.FreeBelow := by
  obtain ⟨hp, hb, hn, hfree⟩ := h
  obtain ⟨hs, _, hgw, hgh, _⟩ := updateBinSize_true b b1 node hu
  obtain ⟨hc, _⟩ := updateBinSize_true_dims b b1 node hu
  obtain ⟨_, _, e3, e4, e5⟩ := updateBinSize_true_fields b b1 node hu
  have e1 : b1.MaxWidth = b.MaxWidth := congrArg Cfg.MaxWidth hc
  have e2 : b1.MaxHeight = b.MaxHeight := congrArg Cfg.MaxHeight hc
  obtain ⟨hW, hH⟩ := hn hs
  refine ⟨by rw [e3]; exact hp, by rw [e4]; exact hb, NonNeg_update b b1 node hn hu, ?_⟩
  intro q hq
  rw [e5] at hq
  obtain ⟨hk, hcases⟩ := mem_expandFreeRects b _ _ q hq
  rw [keepFree_iff] at hk
  rw [e1, e2, e3]
  rcases hcases with ⟨f, hf, rfl⟩ | rfl | rfl
  · have hfb := hfree f hf
    rw [expandOne_eq] at hk ⊢
    simp only at hk ⊢
    constructor
    · split_ifs <;> omega
    · split_ifs <;> omega
  · simp only
    omega
  · simp only
    omega

theorem FreeBelow_any (b : Bin) (node : Rect) (h : b.FreeBelow) :
    (b.updateBinSize node).2.FreeBelow := by
  rcases hu : b.updateBinSize node with ⟨o, c⟩
  cases o
  · have := updateBinSize_false b node (by rw [hu])
    rw [hu] at this
    simp only at this ⊢
    rw [this]
    exact h
  · exact FreeBelow_update b c node h hu

theorem FreeBelow_found (b : Bin) (rect node : Rect) (h : b.FreeBelow) :
    (b.placeFound rect node).1.FreeBelow := by
  obtain ⟨hp, hb, hn, hfree⟩ := FreeBelow_any b node h
  have hc : (b.placeFound rect node).1.cfg = (b.updateBinSize node).2.cfg :=
    (cfg_placeFound b rect node).trans (cfg_updateBinSize b node).symm
  have e1 : (b.placeFound rect node).1.MaxWidth = (b.updateBinSize node).2.MaxWidth :=
    congrArg Cfg.MaxWidth hc
  have e2 : (b.placeFound rect node).1.MaxHeight = (b.updateBinSize node).2.MaxHeight :=
    congrArg Cfg.MaxHeight hc
  have e3 : (b.placeFound rect node).1.Padding = (b.updateBinSize node).2.Padding :=
    congrArg Cfg.Padding hc
  have e4 : (b.placeFound rect node).1.border = (b.updateBinSize node).2.border :=
    congrArg Cfg.border hc
  refine ⟨by rw [e3]; exact hp, by rw [e4]; exact hb,
    NonNeg_congr _ _ hc (width_placeFound b rect node) (height_placeFound b rect node) hn, ?_⟩
  intro q hq
  rw [e1, e2, e3]
  rcases mem_placeFound b rect node q hq with ⟨h1, _⟩ | ⟨f, h1, h2, h3⟩
  · exact hfree q h1
  · have hfb := hfree f h1
    have hcon := (splitPieces_spec f node q h2 h3).1
    rw [contain_iff] at hcon
    omega

theorem Place_FreeBelow (fuel : Nat) (b : Bin) (rect : Rect) (ok : Bool) (b1 : Bin)
    (r1 : Rect) (h : b.FreeBelow) (hp : b.Place fuel rect = some (ok, b1, r1)) :
    b1.FreeBelow := by
  refine Place_induct rect Bin.FreeBelow (fun _ b _ => b.FreeBelow) ?_ ?_ ?_
    fuel b ok b1 r1 h hp
  · intro b node hb _
    exact FreeBelow_found b rect node hb
  · intro b b1 hb hg
    rcases growEither_cases b b1 rect true hg.2 with ⟨h, _⟩ | ⟨_, h | h⟩
    · simp at h
    · exact FreeBelow_update b b1 _ hb h
    · exact FreeBelow_update b b1 _ hb h
  · intro b hb _ _
    exact hb

theorem configuredBin_FreeBelow (maxWidth maxHeight padding border : Int)
    (smart pot square : Bool) (hp : 0 ≤ padding) (hb : 0 ≤ border) :
    (configuredBin maxWidth maxHeight padding border smart pot square).FreeBelow := by
  refine ⟨hp, hb, configuredBin_NonNeg _ _ _ _ _ _ _, ?_⟩
  intro q hq
  have : q = ⟨maxWidth + padding - border * 2, maxHeight + padding - border * 2,
      border, border⟩ := by simpa [configuredBin, NewBin] using hq
  subst this
  show maxWidth + padding - border * 2 ≤ maxWidth + 2 * padding ∧
    maxHeight + padding - border * 2 ≤ maxHeight + 2 * padding
  omega

theorem Reach_FreeBelow {okp : Rect → Prop} {b0 bin : Bin} {done : List Rect}
    (h : Reach okp b0 bin done) (h0 : b0.FreeBelow) : bin.FreeBelow :=
  Reach_inv Bin.FreeBelow h0
    (fun fuel b rect ok b1 r1 hb _ hp => Place_FreeBelow fuel b rect ok b1 r1 hb hp) h

/-- When every qualifying region scores below `math.MaxInt`, `findNode` returns nil exactly
when no region qualifies. -/
theorem findNode_none_iff (bin : Bin) (w h : Int)
    (hs : ∀ q ∈ bin.FreeRects, q.Fits w h → fitScore bin.Logic w h q < maxInt) :
    bin.findNode w h = none ↔ ∀ q ∈ bin.FreeRects, ¬ q.Fits w h := by
  have hb := findNode_best bin w h
  constructor
  · intro hn q hq hqf
    rcases hb with ⟨_, h2⟩ | ⟨pre, r, post, _, h2, _⟩
    · have := h2 q hq hqf
      have := hs q hq hqf
      omega
    · rw [hn] at h2
      simp at h2
  · intro hall
    rcases hb with ⟨h1, _⟩ | ⟨pre, r, post, h1, _, h3, _⟩
    · exact h1
    · exact absurd h3 (hall r (by rw [h1]; simp))

/-- In a state with bounded free regions and the max-edge rule, every score for a request
within the size limit is below `math.MaxInt`. -/
theorem score_small (bin : Bin) (w h : Int) (hf : bin.FreeBelow)
    (hl : bin.Logic = PACK_MAX_EDGE) (hmw : bin.MaxWidth ≤ sizeLimit)
    (hpd : bin.Padding ≤ sizeLimit) (hw : -sizeLimit ≤ w) :
    ∀ q ∈ bin.FreeRects, q.Fits w h → fitScore bin.Logic w h q < maxInt := by
  intro q hq _
  have hb := hf.2.2.2 q hq
  have hsc : fitScore bin.Logic w h q = min (q.Width - w) (q.Height - h) := by
    simp [fitScore, hl, PACK_MAX_EDGE, PACK_MAX_AREA]
  rw [hsc]
  have := min_le_left (q.Width - w) (q.Height - h)
  simp only [sizeLimit, maxInt] at *
  omega

theorem small_mul (a b : Int) (ha : SmallValue a) (hb : SmallValue b) :
    -(sizeLimit * sizeLimit) ≤ a * b ∧ a * b ≤ sizeLimit * sizeLimit := by
  obtain ⟨a1, a2⟩ := ha
  obtain ⟨b1, b2⟩ := hb
  constructor
  · nlinarith [mul_nonneg (sub_nonneg.2 a2) (sub_nonneg.2 b1),
      mul_nonneg (sub_nonneg.2 a1) (sub_nonneg.2 b2)]
  · nlinarith [mul_nonneg (sub_nonneg.2 a2) (sub_nonneg.2 b2),
      mul_nonneg (sub_nonneg.2 a1) (sub_nonneg.2 b1)]

/-- For sides within the size limit the score computed in 64 bits is the exact score, and it
is below `math.MaxInt`. -/
theorem fitScore_small (logic w h : Int) (q : Rect) (hq : SmallRect q) (hw : SmallValue w)
    (hh : SmallValue h) :
    fitScore64 logic w h q = fitScore logic w h q ∧ fitScore logic w h q < maxInt := by
  have m1 := small_mul q.Width q.Height ⟨hq.1, hq.2.1⟩ ⟨hq.2.2.1, hq.2.2.2⟩
  have m2 := small_mul w h hw hh
  obtain ⟨q1, q2, q3, q4⟩ := hq
  obtain ⟨w1, w2⟩ := hw
  obtain ⟨h1, h2⟩ := hh
  simp only [sizeLimit] at m1 m2 q1 q2 q3 q4 w1 w2 h1 h2
  unfold fitScore64 fitScore
  split_ifs
  · rw [wrapInt_eq (q.Width * q.Height) (by omega) (by omega),
      wrapInt_eq (w * h) (by omega) (by omega), wrapInt_eq _ (by omega) (by omega)]
    exact ⟨rfl, by simp only [maxInt]; omega⟩
  · rw [wrapInt_eq (q.Width - w) (by omega) (by omega),
      wrapInt_eq (q.Height - h) (by omega) (by omega)]
    refine ⟨rfl, ?_⟩
    have := min_le_left (q.Width - w) (q.Height - h)
    simp only [maxInt]
    omega

/-- C17 (placement heuristic), for free regions and a request whose sides are at most
`sizeLimit` in absolute value, where the scores computed in 64 bits are the exact ones and
lie below `math.MaxInt`, the initial value of the best score.  `findNode(w, h)` returns nil
iff no region of `FreeRects` has `Width ≥ w` and `Height ≥ h`; otherwise it returns
`Rect{w, h, r.X, r.Y}` where `r` is the first region in `FreeRects` order among the
qualifying regions of minimal score, the score being `min(r.Width - w, r.Height - h)` for the
default max-edge logic and `r.Width*r.Height - w*h` for the max-area logic. -/
theorem C17_placement_heuristic (bin : Bin) (w h : Int)
    (hfree : ∀ q ∈ bin.FreeRects, SmallRect q) (hw : SmallValue w) (hh : SmallValue h) :
    (bin.findNode w h = none ↔ ∀ q ∈ bin.FreeRects, ¬ q.Fits w h) ∧
      (∀ node, bin.findNode w h = some node →
        ∃ (pre : List Rect) (r : Rect) (post : List Rect),
          bin.FreeRects = pre ++ r :: post ∧ node = ⟨w, h, r.X, r.Y⟩ ∧ r.Fits w h ∧
            (∀ q ∈ pre, q.Fits w h → fitScore bin.Logic w h r < fitScore bin.Logic w h q) ∧
            (∀ q ∈ post, q.Fits w h → fitScore bin.Logic w h r ≤ fitScore bin.Logic w h q)) ∧
      (∀ q ∈ bin.FreeRects,
        fitScore64 bin.Logic w h q = fitScore bin.Logic w h q ∧
          fitScore bin.Logic w h q < maxInt) ∧
      fitScore PACK_MAX_EDGE w h = (fun r => min (r.Width - w) (r.Height - h)) ∧
      fitScore PACK_MAX_AREA w h = (fun r => r.Width * r.Height - w * h) := by
  have hsc : ∀ q ∈ bin.FreeRects,
      fitScore64 bin.Logic w h q = fitScore bin.Logic w h q ∧
        fitScore bin.Logic w h q < maxInt :=
    fun q hq => fitScore_small bin.Logic w h q (hfree q hq) hw hh
  refine ⟨findNode_none_iff bin w h (fun q hq _ => (hsc q hq).2), ?_, hsc, ?_, ?_⟩
  · intro node hn
    rcases findNode_best bin w h with ⟨h1, _⟩ | ⟨pre, r, post, h1, h2, h3, _, h5, h6⟩
    · rw [hn] at h1
      simp at h1
    · rw [hn] at h2
      exact ⟨pre, r, post, h1, Option.some.inj h2, h3, h5, h6⟩
  · funext r
    simp [fitScore, PACK_MAX_EDGE, PACK_MAX_AREA]
  · funext r
    simp [fitScore]

/-- C17, witness: among three free rectangles, of which the second and the third have the
least max-edge score for a 2 by 2 request, `findNode` returns the position of the second. -/
theorem C17_placement_heuristic_witness :
    threeFreeBin.findNode 2 2 = some ⟨2, 2, 5, 0⟩ ∧
      ∃ (pre : List Rect) (r : Rect) (post : List Rect),
        threeFreeBin.FreeRects = pre ++ r :: post ∧ (⟨2, 2, 5, 0⟩ : Rect) = ⟨2, 2, r.X, r.Y⟩ ∧
          r.Fits 2 2 ∧
          (∀ q ∈ pre, q.Fits 2 2 →
            fitScore threeFreeBin.Logic 2 2 r < fitScore threeFreeBin.Logic 2 2 q) ∧
          (∀ q ∈ post, q.Fits 2 2 →
            fitScore threeFreeBin.Logic 2 2 r ≤ fitScore threeFreeBin.Logic 2 2 q) :=
  have hf : threeFreeBin.findNode 2 2 = some ⟨2, 2, 5, 0⟩ := by decide
  ⟨hf, (C17_placement_heuristic threeFreeBin 2 2 (by decide) (by decide) (by decide)).2.1
    ⟨2, 2, 5, 0⟩ hf⟩

/-! ## Claims on the growth computation, the first placement and degenerate rectangles -/

theorem potCeil_eq_spec (n : Int) (hn : 0 ≤ n) : potCeil n = specNextPow2 n := by
  rcases hn.lt_or_eq with h | h
  · obtain ⟨j, h1, h2, h3⟩ := potCeil_pos_spec n h
    have hne : n ≠ 0 := by omega
    simp only [specNextPow2, hne, if_false]
    obtain ⟨a, rfl⟩ : ∃ a : Nat, n = a := ⟨n.toNat, by omega⟩
    simp only [Int.toNat_ofNat]
    apply le_antisymm
    · apply h3
      exact_mod_cast Nat.le_pow_clog (by norm_num) a
    · rw [h1]
      have h4 : (a : Int) ≤ 2 ^ j := by rw [← h1]; exact h2
      have h5 : a ≤ 2 ^ j := by exact_mod_cast h4
      have h6 : Nat.clog 2 a ≤ j := (Nat.le_pow_iff_clog_le (by norm_num)).1 h5
      exact_mod_cast Nat.pow_le_pow_right (by norm_num) h6
  · subst h
    simp [potCeil_zero, specNextPow2]

theorem grow_eq_spec (bin : Bin) (node : Rect) (hW : 0 ≤ bin.Width) (hH : 0 ≤ bin.Height) :
    (bin.growWidth node, bin.growHeight node) = specGrowth bin node := by
  have hw0 : 0 ≤ max bin.Width (node.X + node.Width - bin.Padding + bin.border) :=
    le_max_of_le_left hW
  have hh0 : 0 ≤ max bin.Height (node.Y + node.Height - bin.Padding + bin.border) :=
    le_max_of_le_left hH
  unfold specGrowth Bin.growHeight Bin.growWidth
  simp only [potCeil_eq_spec _ hw0, potCeil_eq_spec _ hh0]
  cases bin.POT <;> cases bin.Square <;> simp

theorem potCeil_le_limit (n : Int) (h0 : 0 ≤ n) (h1 : n ≤ 4 * sizeLimit) :
    potCeil n ≤ 4 * sizeLimit := by
  rcases eq_or_lt_of_le h0 with h | h
  · rw [← h, potCeil_zero]
    decide
  · obtain ⟨_, _, _, hmin⟩ := potCeil_pos_spec n h
    have := hmin 32 (by simp only [sizeLimit] at h1; norm_num; omega)
    simp only [sizeLimit]
    norm_num at this ⊢
    exact this

/-- C20 (growth computation), for a bin and a node whose sizes and positions are at most
`sizeLimit` in absolute value: when growth is disabled or the confirmed stage contains the
node, `updateBinSize` returns false and leaves the bin unchanged.  For a growth-enabled bin,
of non-negative width and height as in all its states, and a node not contained in the
stage, let `(w', h')` be the tentative size of `specGrowth`; `updateBinSize` returns true iff
`w' ≤ MaxWidth + Padding` and `h' ≤ MaxHeight + Padding`, and then `Width = w'` and
`Height = h'` afterwards; otherwise it returns false and leaves the bin unchanged.  The
tentative sizes are at most `4 * sizeLimit = 2 ^ 32`. -/
theorem C20_growth_computation (bin : Bin) (node : Rect) (hbin : bin.SmallFields)
    (hnode : node.SmallFields) :
    (bin.Smart = false ∨ bin.stage.Contain node = true →
        bin.updateBinSize node = (false, bin)) ∧
      (bin.Smart = true → bin.stage.Contain node = false → 0 ≤ bin.Width → 0 ≤ bin.Height →
        ((bin.updateBinSize node).1 = true ↔
          (specGrowth bin node).1 ≤ bin.MaxWidth + bin.Padding ∧
            (specGrowth bin node).2 ≤ bin.MaxHeight + bin.Padding) ∧
        ((bin.updateBinSize node).1 = true →
          (bin.updateBinSize node).2.Width = (specGrowth bin node).1 ∧
            (bin.updateBinSize node).2.Height = (specGrowth bin node).2) ∧
        ((bin.updateBinSize node).1 = false → (bin.updateBinSize node).2 = bin) ∧
        (specGrowth bin node).1 ≤ 4 * sizeLimit ∧ (specGrowth bin node).2 ≤ 4 * sizeLimit) := by
  constructor
  · rintro (h | h)
    · exact updateBinSize_not_smart bin node h
    · rw [updateBinSize_eq]
      split_ifs <;> rfl
  · intro hs hc hW hH
    have hspec := grow_eq_spec bin node hW hH
    have h1 : (specGrowth bin node).1 = bin.growWidth node := by rw [← hspec]
    have h2 : (specGrowth bin node).2 = bin.growHeight node := by rw [← hspec]
    rw [h1, h2]
    refine ⟨?_, ?_, updateBinSize_false bin node, ?_⟩
    · rw [updateBinSize_eq, if_neg (by simp [hs]), if_neg (by simp [hc])]
      split_ifs with h3
      · simp only [Bool.false_eq_true, false_iff]
        omega
      · simp only [true_iff]
        omega
    · intro ht
      rcases hu : bin.updateBinSize node with ⟨o, b1⟩
      rw [hu] at ht
      simp only at ht
      subst ht
      obtain ⟨_, e1, e2, _⟩ := updateBinSize_true_dims bin b1 node hu
      exact ⟨e1, e2⟩
    · obtain ⟨b1, b2, _, _, b5, b6, _⟩ := hbin
      obtain ⟨n1, n2, n3, n4⟩ := hnode
      have hw0 : 0 ≤ max bin.Width (node.X + node.Width - bin.Padding + bin.border) :=
        le_max_of_le_left hW
      have hh0 : 0 ≤ max bin.Height (node.Y + node.Height - bin.Padding + bin.border) :=
        le_max_of_le_left hH
      have hw1 : max bin.Width (node.X + node.Width - bin.Padding + bin.border) ≤
          4 * sizeLimit := max_le (by omega) (by omega)
      have hh1 : max bin.Height (node.Y + node.Height - bin.Padding + bin.border) ≤
          4 * sizeLimit := max_le (by omega) (by omega)
      have pw := potCeil_le_limit _ hw0 hw1
      have ph := potCeil_le_limit _ hh0 hh1
      unfold Bin.growHeight Bin.growWidth
      cases bin.POT <;> cases bin.Square <;> simp <;> omega

/-- C20, witness: on `monkeyBin` the node of a 200 by 100 rectangle gives the tentative size
256 by 128, which is accepted and assigned. -/
theorem C20_growth_computation_witness :
    specGrowth monkeyBin ⟨200, 100, 0, 0⟩ = (256, 128) ∧
      (monkeyBin.updateBinSize ⟨200, 100, 0, 0⟩).1 = true ∧
      (monkeyBin.updateBinSize ⟨200, 100, 0, 0⟩).2.Width =
        (specGrowth monkeyBin ⟨200, 100, 0, 0⟩).1 ∧
      (monkeyBin.updateBinSize ⟨200, 100, 0, 0⟩).2.Height =
        (specGrowth monkeyBin ⟨200, 100, 0, 0⟩).2 :=
  have hc := (C20_growth_computation monkeyBin ⟨200, 100, 0, 0⟩ (by decide) (by decide)).2
    (by decide) (by decide) (by decide) (by decide)
  have ht : (monkeyBin.updateBinSize ⟨200, 100, 0, 0⟩).1 = true := by decide
  ⟨by simp [specGrowth, monkeyBin, configuredBin, NewBin, specNextPow2,
      show Nat.clog 2 200 = 8 by simp [Nat.clog], show Nat.clog 2 100 = 7 by simp [Nat.clog]],
    ht, hc.2.1 ht⟩

theorem Place_found (fuel : Nat) (bin : Bin) (rect node : Rect)
    (hf : bin.findNode (rect.Width + bin.Padding) (rect.Height + bin.Padding) = some node) :
    bin.Place (fuel + 1) rect =
      some (true, (bin.placeFound rect node).1, { rect with X := node.X, Y := node.Y }) := by
  rw [Bin.Place, hf]
  rfl

/-- C13 (first placement): on a freshly constructed growth-enabled bin with POT set and
Square unset, power-of-two `MaxWidth` and `MaxHeight`, `padding ≥ 0` and `border ≥ 0`, none
of them above `sizeLimit`, for every rectangle with `Width ≥ 1`, `Height ≥ 1`,
`Width + 2*border ≤ MaxWidth` and `Height + 2*border ≤ MaxHeight`, `Place` returns true,
writes `X = Y = border`, and leaves `Width` equal to the least power of two that is at
least `Width + 2*border` and `Height` equal to the least power of two that is at least
`Height + 2*border`. -/
theorem C13_first_placement (j k : Nat) (padding border : Int)
    (hcfg : SmallConfig (2 ^ j) (2 ^ k) padding border)
    (rect : Rect) (hw : 1 ≤ rect.Width) (hh : 1 ≤ rect.Height)
    (hfw : rect.Width + 2 * border ≤ 2 ^ j) (hfh : rect.Height + 2 * border ≤ 2 ^ k)
    (fuel : Nat) :
    ∃ bin1 : Bin,
      (configuredBin (2 ^ j) (2 ^ k) padding border true true false).Place (fuel + 1) rect =
          some (true, bin1, { rect with X := border, Y := border }) ∧
        bin1.Width = specNextPow2 (rect.Width + 2 * border) ∧
        bin1.Height = specNextPow2 (rect.Height + 2 * border) ∧
        ((∃ m : Nat, bin1.Width = 2 ^ m) ∧ rect.Width + 2 * border ≤ bin1.Width ∧
          ∀ m : Nat, rect.Width + 2 * border ≤ 2 ^ m → bin1.Width ≤ 2 ^ m) ∧
        ((∃ m : Nat, bin1.Height = 2 ^ m) ∧ rect.Height + 2 * border ≤ bin1.Height ∧
          ∀ m : Nat, rect.Height + 2 * border ≤ 2 ^ m → bin1.Height ≤ 2 ^ m) := by
  have hp : 0 ≤ padding := hcfg.2.2.2.2.1
  have hb : 0 ≤ border := hcfg.2.2.2.2.2.2.1
  have hj : (2 : Int) ^ j ≤ maxInt := le_trans hcfg.2.1 (by decide)
  have hk : (2 : Int) ^ k ≤ maxInt := le_trans hcfg.2.2.2.1 (by decide)
  set b0 := configuredBin (2 ^ j) (2 ^ k) padding border true true false with hb0
  have hfree : b0.FreeRects =
      [⟨2 ^ j + padding - border * 2, 2 ^ k + padding - border * 2, border, border⟩] := rfl
  have hfind : b0.findNode (rect.Width + b0.Padding) (rect.Height + b0.Padding) =
      some ⟨rect.Width + padding, rect.Height + padding, border, border⟩ := by
    have hbest := findNode_best b0 (rect.Width + padding) (rect.Height + padding)
    rcases hbest with ⟨_, h2⟩ | ⟨pre, r, post, h1, h2, _⟩
    · exfalso
      have := h2 _ (by rw [hfree]; exact List.mem_singleton_self _)
        ⟨by simp only; omega, by simp only; omega⟩
      have hsc : fitScore b0.Logic (rect.Width + padding) (rect.Height + padding)
          ⟨2 ^ j + padding - border * 2, 2 ^ k + padding - border * 2, border, border⟩ =
          min (2 ^ j + padding - border * 2 - (rect.Width + padding))
            (2 ^ k + padding - border * 2 - (rect.Height + padding)) := by
        simp [fitScore, hb0, configuredBin, NewBin, PACK_MAX_EDGE, PACK_MAX_AREA]
      rw [hsc] at this
      omega
    · have hr : r = ⟨2 ^ j + padding - border * 2, 2 ^ k + padding - border * 2,
          border, border⟩ := by
        have hmem : r ∈ b0.FreeRects := by rw [h1]; simp
        rw [hfree] at hmem
        exact List.mem_singleton.1 hmem
      subst hr
      exact h2
  have hplace := Place_found fuel b0 rect _ hfind
  have hgw : b0.growWidth ⟨rect.Width + padding, rect.Height + padding, border, border⟩ =
      potCeil (rect.Width + 2 * border) := by
    have e : max (0 : Int) (border + (rect.Width + padding) - padding + border) =
        rect.Width + 2 * border := by omega
    simp only [Bin.growWidth, hb0, configuredBin, NewBin]
    simp [e]
  have hgh : b0.growHeight ⟨rect.Width + padding, rect.Height + padding, border, border⟩ =
      potCeil (rect.Height + 2 * border) := by
    have e : max (0 : Int) (border + (rect.Height + padding) - padding + border) =
        rect.Height + 2 * border := by omega
    simp only [Bin.growHeight, hb0, configuredBin, NewBin]
    simp [e]
  have hpw := potCeil_pos_spec (rect.Width + 2 * border) (by omega)
  have hph := potCeil_pos_spec (rect.Height + 2 * border) (by omega)
  obtain ⟨mw, w1, w2, w3⟩ := hpw
  obtain ⟨mh, h1, h2, h3⟩ := hph
  have hupd : b0.updateBinSize ⟨rect.Width + padding, rect.Height + padding, border, border⟩ =
      (true,
        { b0.expandFreeRects (potCeil (rect.Width + 2 * border) + padding)
              (potCeil (rect.Height + 2 * border) + padding) with
          stage := ⟨potCeil (rect.Width + 2 * border), potCeil (rect.Height + 2 * border), 0, 0⟩
          Width := potCeil (rect.Width + 2 * border)
          Height := potCeil (rect.Height + 2 * border) }) := by
    have hcn : b0.stage.Contain
        ⟨rect.Width + padding, rect.Height + padding, border, border⟩ = false := by
      rw [← Bool.not_eq_true, contain_iff]
      simp only [hb0, configuredBin, NewBin]
      simp only [Bool.not_true, Bool.false_eq_true, if_false]
      omega
    have hle1 : potCeil (rect.Width + 2 * border) ≤ 2 ^ j := w3 j hfw
    have hle2 : potCeil (rect.Height + 2 * border) ≤ 2 ^ k := h3 k hfh
    rw [updateBinSize_eq, if_neg (by simp [hb0, configuredBin, NewBin]), if_neg (by simp [hcn]),
      hgw, hgh, if_neg]
    · rfl
    · show ¬ (potCeil (rect.Width + 2 * border) > 2 ^ j + padding ∨
        potCeil (rect.Height + 2 * border) > 2 ^ k + padding)
      omega
  refine ⟨_, hplace, ?_, ?_, ⟨⟨mw, ?_⟩, ?_, ?_⟩, ⟨⟨mh, ?_⟩, ?_, ?_⟩⟩
  · rw [width_placeFound, hupd, ← potCeil_eq_spec _ (by omega)]
  · rw [height_placeFound, hupd, ← potCeil_eq_spec _ (by omega)]
  · rw [width_placeFound, hupd]; exact w1
  · rw [width_placeFound, hupd]; exact w2
  · rw [width_placeFound, hupd]; exact w3
  · rw [height_placeFound, hupd]; exact h1
  · rw [height_placeFound, hupd]; exact h2
  · rw [height_placeFound, hupd]; exact h3

/-- C13, witness: a 200 by 100 rectangle on `newTestBin(0, 0)` (maximum `2 ^ 10`) is placed
at `(0, 0)` in a 256 by 128 container. -/
theorem C13_first_placement_witness :
    (configuredBin (2 ^ 10) (2 ^ 10) 0 0 true true false).Place 1 ⟨200, 100, 7, 9⟩ =
        some (true, monkeyBin1, ⟨200, 100, 0, 0⟩) ∧
      monkeyBin1.Width = 256 ∧ monkeyBin1.Height = 128 ∧
      ∃ bin1 : Bin,
        (configuredBin (2 ^ 10) (2 ^ 10) 0 0 true true false).Place 1 ⟨200, 100, 7, 9⟩ =
            some (true, bin1, ⟨200, 100, 0, 0⟩) ∧
          bin1.Width = specNextPow2 (200 + 2 * 0) ∧ bin1.Height = specNextPow2 (100 + 2 * 0) :=
  have hc := C13_first_placement 10 10 0 0 (by decide)
    ⟨200, 100, 7, 9⟩ (by decide) (by decide) (by decide) (by decide) 0
  ⟨by decide, rfl, rfl,
    hc.elim fun bin1 h => ⟨bin1, h.1, h.2.1, h.2.2.1⟩⟩

/-- C14, counterexample: on the fresh bin `NewBin(1024, 1024, 0, 0, true)` `Place` returns
true for a rectangle of width and height 0, and for one of width -3 and height 0, and writes
the position `(0, 0)` into it. -/
theorem C14_counterexample :
    Reach AnyRect (NewBin 1024 1024 0 0 true) (NewBin 1024 1024 0 0 true) [] ∧
      (NewBin 1024 1024 0 0 true).Place 1 ⟨0, 0, 7, 9⟩ =
        some (true, { NewBin 1024 1024 0 0 true with dirty := 1 }, ⟨0, 0, 0, 0⟩) ∧
      (NewBin 1024 1024 0 0 true).Place 1 ⟨-3, 0, 7, 9⟩ =
        some (true, { NewBin 1024 1024 0 0 true with dirty := 1 }, ⟨-3, 0, 0, 0⟩) :=
  ⟨Reach.init, by decide, by decide⟩

/-- C14, amended (degenerate rectangles are not rejected): `Place` does not test the sign
of `Width` and `Height`.  For every bin state reachable from `NewBin` by `Place` calls and
every rectangle, in particular one with `Width ≤ 0` or `Height ≤ 0` (positive maximum sizes,
`padding ≥ 0`, `border ≥ 0`, all sizes at most `sizeLimit` in absolute value): if some free
region has `Width ≥ rect.Width+Padding` and `Height ≥ rect.Height+Padding`, then `Place`
returns true and writes the position of such a region; and if `Place` returns false, then no
free region of the bin it leaves has `Width ≥ rect.Width+Padding` and
`Height ≥ rect.Height+Padding`. -/
theorem C14_degenerate_not_rejected (maxWidth maxHeight padding border : Int)
    (smart pot square : Bool) (hcfg : SmallConfig maxWidth maxHeight padding border)
    (bin : Bin) (done : List Rect)
    (h : Reach SmallRect (configuredBin maxWidth maxHeight padding border smart pot square)
      bin done)
    (rect : Rect) (hr : SmallRect rect) :
    ((∃ q ∈ bin.FreeRects, q.Fits (rect.Width + bin.Padding) (rect.Height + bin.Padding)) →
        ∀ fuel : Nat, ∃ (bin1 : Bin) (q : Rect), q ∈ bin.FreeRects ∧
          q.Fits (rect.Width + bin.Padding) (rect.Height + bin.Padding) ∧
          bin.Place (fuel + 1) rect = some (true, bin1, { rect with X := q.X, Y := q.Y })) ∧
      (∀ (fuel : Nat) (bin1 : Bin) (rect1 : Rect),
        bin.Place fuel rect = some (false, bin1, rect1) →
        ∀ q ∈ bin1.FreeRects,
          ¬ q.Fits (rect.Width + bin1.Padding) (rect.Height + bin1.Padding)) := by
  obtain ⟨_, c2, _, _, c5, c6, c7, _⟩ := hcfg
  have hsmall : ∀ {b : Bin} {l : List Rect},
      Reach SmallRect (configuredBin maxWidth maxHeight padding border smart pot square) b l →
      ∀ q ∈ b.FreeRects, q.Fits (rect.Width + b.Padding) (rect.Height + b.Padding) →
        fitScore b.Logic (rect.Width + b.Padding) (rect.Height + b.Padding) q < maxInt := by
    intro b l hb
    have hc := Reach_cfg hb
    have hf := Reach_FreeBelow hb (configuredBin_FreeBelow _ _ _ _ smart pot square c5 c7)
    have e1 : b.MaxWidth = maxWidth := congrArg Cfg.MaxWidth hc
    have e2 : b.Padding = padding := congrArg Cfg.Padding hc
    have e3 : b.Logic = PACK_MAX_EDGE := congrArg Cfg.Logic hc
    exact score_small b _ _ hf e3 (by rw [e1]; exact c2) (by rw [e2]; exact c6)
      (by rw [e2]; have := hr.1; omega)
  constructor
  · rintro ⟨q0, hq0, hfit0⟩ fuel
    rcases findNode_best bin (rect.Width + bin.Padding) (rect.Height + bin.Padding) with
      ⟨_, h2⟩ | ⟨pre, r, post, h1, h2, h3, _⟩
    · have := h2 q0 hq0 hfit0
      have := hsmall h q0 hq0 hfit0
      omega
    · exact ⟨_, r, by rw [h1]; simp, h3,
        Place_found fuel bin rect
          ⟨rect.Width + bin.Padding, rect.Height + bin.Padding, r.X, r.Y⟩ h2⟩
  · intro fuel bin1 rect1 hpl
    have hnone := Place_induct rect (fun _ => True)
      (fun ok b _ => ok = false →
        b.findNode (rect.Width + b.Padding) (rect.Height + b.Padding) = none)
      (fun _ _ _ _ hok => by simp at hok)
      (fun _ _ _ _ => trivial)
      (fun _ _ hf _ _ => hf)
      fuel bin false bin1 rect1 trivial hpl rfl
    exact (findNode_none_iff bin1 _ _ (hsmall (Reach.failed h hr hpl))).1 hnone

/-- C14, witness: the fresh bin `NewBin(1024, 1024, 0, 0, true)` has a free region of 1024
by 1024, so the rectangle of width and height 0 is placed. -/
theorem C14_degenerate_not_rejected_witness :
    ∃ (bin1 : Bin) (q : Rect),
      q ∈ (configuredBin 1024 1024 0 0 true true true).FreeRects ∧
        q.Fits (0 + 0) (0 + 0) ∧
        (configuredBin 1024 1024 0 0 true true true).Place 1 ⟨0, 0, 7, 9⟩ =
          some (true, bin1, ⟨0, 0, q.X, q.Y⟩) :=
  (C14_degenerate_not_rejected 1024 1024 0 0 true true true (by decide) _ [] Reach.init
    ⟨0, 0, 7, 9⟩ (by decide)).1
    ⟨⟨1024, 1024, 0, 0⟩, by decide, by unfold Rect.Fits; decide⟩ 0

/-! ## The prune loop on lists -/

theorem contain_refl (a : Rect) : a.Contain a = true := by
  rw [contain_iff]; omega

theorem contain_trans (a b c : Rect) (h1 : a.Contain b = true) (h2 : b.Contain c = true) :
    a.Contain c = true := by
  rw [contain_iff] at h1 h2 ⊢; omega

theorem pruneInner_eq_scan (t : Rect) : ∀ (rest pre kept : List Rect),
    pruneInner t pre.length rest.length (pre.length + 1 + kept.length)
        (pre ++ t :: (kept ++ rest)) =
      ((pruneScan t kept rest).1,
        if (pruneScan t kept rest).1 = true then pre ++ (pruneScan t kept rest).2
        else pre ++ t :: (pruneScan t kept rest).2)
  | [], pre, kept => by
    simp [pruneInner, pruneScan]
  | x :: rest, pre, kept => by
    have hget : (pre ++ t :: (kept ++ x :: rest))[pre.length + 1 + kept.length]? = some x := by
      have e : pre ++ t :: (kept ++ x :: rest) = (pre ++ t :: kept) ++ x :: rest := by simp
      rw [e, List.getElem?_append_right (by simp; omega)]
      simp
      have : pre.length + 1 + kept.length - (pre.length + (kept.length + 1)) = 0 := by omega
      rw [this]
      simp
    rw [List.length_cons, pruneInner, hget]
    simp only [pruneScan]
    by_cases h1 : x.Contain t = true
    · simp only [h1, if_true]
      have := eraseIdx_middle pre (kept ++ x :: rest) t
      rw [this]
    · simp only [h1, Bool.false_eq_true, if_false]
      by_cases h2 : t.Contain x = true
      · simp only [h2, if_true]
        have e : pre ++ t :: (kept ++ x :: rest) = (pre ++ t :: kept) ++ x :: rest := by simp
        have hl : pre.length + 1 + kept.length = (pre ++ t :: kept).length := by
          simp; omega
        rw [e, hl, eraseIdx_middle (pre ++ t :: kept) rest x, ← hl]
        have ih := pruneInner_eq_scan t rest pre kept
        rw [← ih]
        simp
      · simp only [h2, Bool.false_eq_true, if_false]
        have ih := pruneInner_eq_scan t rest pre (kept ++ [x])
        rw [← ih]
        simp [Nat.add_assoc]

theorem pruneOuter_eq_list : ∀ (fuel : Nat) (pre cur : List Rect),
    pruneOuter fuel pre.length (pre ++ cur) = pre ++ pruneList fuel cur
  | 0, pre, cur => by simp [pruneOuter, pruneList]
  | fuel + 1, pre, [] => by
    simp [pruneOuter, pruneList]
  | fuel + 1, pre, t :: rest => by
    have hget : (pre ++ t :: rest)[pre.length]? = some t := by
      rw [List.getElem?_append_right (le_refl _)]
      simp
    have hlen : (pre ++ t :: rest).length - (pre.length + 1) = rest.length := by
      simp only [List.length_append, List.length_cons]
      omega
    have hin := pruneInner_eq_scan t rest pre []
    simp only [List.length_nil, Nat.add_zero, List.nil_append] at hin
    rw [pruneOuter, hget]
    simp only [hlen, hin, pruneList]
    rcases hs : pruneScan t [] rest with ⟨brk, l⟩
    cases brk
    · simp only [Bool.false_eq_true, if_false]
      have ih := pruneOuter_eq_list fuel (pre ++ [t]) l
      simp only [List.length_append, List.length_singleton, List.append_assoc,
        List.singleton_append] at ih
      exact ih
    · simp only [if_true]
      exact pruneOuter_eq_list fuel pre l

theorem pruneFreeList_eq_list (bin : Bin) :
    bin.pruneFreeList.FreeRects = pruneList bin.FreeRects.length bin.FreeRects := by
  have := pruneOuter_eq_list bin.FreeRects.length [] bin.FreeRects
  simpa [Bin.pruneFreeList] using this

theorem pruneScan_false (t : Rect) : ∀ (rest kept l : List Rect),
    pruneScan t kept rest = (false, l) →
    l = kept ++ rest.filter (fun x => !t.Contain x) ∧ ∀ x ∈ rest, x.Contain t = false
  | [], kept, l, h => by
    simp only [pruneScan, Prod.mk.injEq, true_and] at h
    simp [h]
  | x :: rest, kept, l, h => by
    rw [pruneScan] at h
    by_cases h1 : x.Contain t = true
    · rw [if_pos h1] at h
      simp at h
    · rw [if_neg h1] at h
      have h1f : x.Contain t = false := by simpa using h1
      by_cases h2 : t.Contain x = true
      · rw [if_pos h2] at h
        obtain ⟨e1, e2⟩ := pruneScan_false t rest kept l h
        refine ⟨?_, ?_⟩
        · rw [e1]; simp [List.filter_cons, h2]
        · intro y hy
          rcases List.mem_cons.1 hy with rfl | hy
          · exact h1f
          · exact e2 y hy
      · rw [if_neg h2] at h
        have h2f : t.Contain x = false := by simpa using h2
        obtain ⟨e1, e2⟩ := pruneScan_false t rest (kept ++ [x]) l h
        refine ⟨?_, ?_⟩
        · rw [e1]; simp [List.filter_cons, h2f]
        · intro y hy
          rcases List.mem_cons.1 hy with rfl | hy
          · exact h1f
          · exact e2 y hy

theorem pruneScan_true (t : Rect) : ∀ (rest kept l : List Rect),
    pruneScan t kept rest = (true, l) →
    ∃ (r1 : List Rect) (x : Rect) (r2 : List Rect),
      rest = r1 ++ x :: r2 ∧ x.Contain t = true ∧
        l = kept ++ r1.filter (fun y => !t.Contain y) ++ x :: r2
  | [], kept, l, h => by
    simp [pruneScan] at h
  | x :: rest, kept, l, h => by
    rw [pruneScan] at h
    by_cases h1 : x.Contain t = true
    · rw [if_pos h1] at h
      simp only [Prod.mk.injEq, true_and] at h
      exact ⟨[], x, rest, rfl, h1, by simp [← h]⟩
    · rw [if_neg h1] at h
      by_cases h2 : t.Contain x = true
      · rw [if_pos h2] at h
        obtain ⟨r1, y, r2, e1, e2, e3⟩ := pruneScan_true t rest kept l h
        refine ⟨x :: r1, y, r2, by simp [e1], e2, ?_⟩
        rw [e3]; simp [List.filter_cons, h2]
      · rw [if_neg h2] at h
        have h2f : t.Contain x = false := by simpa using h2
        obtain ⟨r1, y, r2, e1, e2, e3⟩ := pruneScan_true t rest (kept ++ [x]) l h
        refine ⟨x :: r1, y, r2, by simp [e1], e2, ?_⟩
        rw [e3]; simp [List.filter_cons, h2f]

theorem filter_eq_singleton_of_sublist (p : Rect → Bool) (l1 l : List Rect) (y : Rect)
    (hs : l1.Sublist l) (hy : y ∈ l1) (hp : p y = true) (hf : l.filter p = [y]) :
    l1.filter p = [y] := by
  have h1 : (l1.filter p).Sublist [y] := hf ▸ hs.filter p
  have h2 : y ∈ l1.filter p := List.mem_filter.2 ⟨hy, hp⟩
  have h3 : 0 < (l1.filter p).length := List.length_pos_of_mem h2
  exact h1.eq_of_length_le (by simpa using h3)

/-- The pruned form of a list: a sublist in which no region is contained in another, whose
regions contain every region of the list, and which keeps every region that no region at
another position contains. -/
theorem pruneList_spec : ∀ (fuel : Nat) (cur : List Rect), cur.length ≤ fuel →
    (pruneList fuel cur).Sublist cur ∧ Pruned (pruneList fuel cur) ∧
      (∀ y ∈ cur, ∃ z ∈ pruneList fuel cur, z.Contain y = true) ∧
      (∀ y : Rect, cur.filter (fun z => z.Contain y) = [y] → y ∈ pruneList fuel cur)
  | 0, cur, h => by
    have : cur = [] := List.length_eq_zero.1 (by omega)
    subst this
    simp [pruneList, Pruned]
  | fuel + 1, [], _ => by
    simp [pruneList, Pruned]
  | fuel + 1, t :: rest, h => by
    have hlen : rest.length ≤ fuel := by simpa using h
    rw [pruneList]
    rcases hs : pruneScan t [] rest with ⟨brk, l⟩
    cases brk
    · obtain ⟨e1, e2⟩ := pruneScan_false t rest [] l hs
      simp only [List.nil_append] at e1
      have hsub : l.Sublist rest := by rw [e1]; exact List.filter_sublist _
      obtain ⟨i1, i2, i3, i4⟩ := pruneList_spec fuel l (le_trans hsub.length_le hlen)
      simp only
      refine ⟨(i1.trans hsub).cons₂ t, ?_, ?_, ?_⟩
      · unfold Pruned at i2 ⊢
        rw [List.pairwise_cons]
        refine ⟨?_, i2⟩
        intro z hz
        have hzl : z ∈ l := i1.subset hz
        have hzr : z ∈ rest := hsub.subset hzl
        refine ⟨?_, e2 z hzr⟩
        rw [e1, List.mem_filter] at hzl
        simpa using hzl.2
      · intro y hy
        rcases List.mem_cons.1 hy with rfl | hy
        · exact ⟨y, List.mem_cons_self _ _, contain_refl y⟩
        · by_cases hty : t.Contain y = true
          · exact ⟨t, List.mem_cons_self _ _, hty⟩
          · have hyl : y ∈ l := by
              rw [e1, List.mem_filter]
              exact ⟨hy, by simpa using hty⟩
            obtain ⟨z, hz, hzy⟩ := i3 y hyl
            exact ⟨z, List.mem_cons_of_mem _ hz, hzy⟩
      · intro y hf
        by_cases hty : t.Contain y = true
        · rw [List.filter_cons, if_pos hty] at hf
          have : t = y := by
            have := congrArg List.head? hf
            simpa using this
          rw [this]
          exact List.mem_cons_self _ _
        · rw [List.filter_cons, if_neg hty] at hf
          have hyr : y ∈ rest := by
            have : y ∈ rest.filter (fun z => z.Contain y) := by rw [hf]; simp
            exact (List.mem_filter.1 this).1
          have hyl : y ∈ l := by
            rw [e1, List.mem_filter]
            exact ⟨hyr, by simpa using hty⟩
          exact List.mem_cons_of_mem _
            (i4 y (filter_eq_singleton_of_sublist _ l rest y hsub hyl (contain_refl y) hf))
    · obtain ⟨r1, x, r2, e1, e2, e3⟩ := pruneScan_true t rest [] l hs
      simp only [List.nil_append] at e3
      have hsub : l.Sublist rest := by
        rw [e1, e3]
        exact (List.filter_sublist _).append (List.Sublist.refl _)
      obtain ⟨i1, i2, i3, i4⟩ := pruneList_spec fuel l (le_trans hsub.length_le hlen)
      have hxl : x ∈ l := by rw [e3]; simp
      simp only
      refine ⟨(i1.trans hsub).cons t, i2, ?_, ?_⟩
      · intro y hy
        have viaT : t.Contain y = true → ∃ z ∈ pruneList fuel l, z.Contain y = true := by
          intro hty
          obtain ⟨z, hz, hzx⟩ := i3 x hxl
          exact ⟨z, hz, contain_trans z x y hzx (contain_trans x t y e2 hty)⟩
        rcases List.mem_cons.1 hy with rfl | hy
        · exact viaT (contain_refl y)
        · by_cases hty : t.Contain y = true
          · exact viaT hty
          · have hyl : y ∈ l := by
              rw [e1] at hy
              rw [e3]
              rcases List.mem_append.1 hy with hy | hy
              · exact List.mem_append_left _ (List.mem_filter.2 ⟨hy, by simpa using hty⟩)
              · exact List.mem_append_right _ hy
            exact i3 y hyl
      · intro y hf
        have hxr : x ∈ rest := by rw [e1]; simp
        by_cases hty : t.Contain y = true
        · exfalso
          rw [List.filter_cons, if_pos hty] at hf
          have hxy : x.Contain y = true := contain_trans x t y e2 hty
          have hxf : x ∈ rest.filter (fun z => z.Contain y) := List.mem_filter.2 ⟨hxr, hxy⟩
          have hl := congrArg List.length hf
          have := List.length_pos_of_mem hxf
          simp only [List.length_cons, List.length_nil] at hl
          omega
        · rw [List.filter_cons, if_neg hty] at hf
          have hyr : y ∈ rest := by
            have : y ∈ rest.filter (fun z => z.Contain y) := by rw [hf]; simp
            exact (List.mem_filter.1 this).1
          have hyl : y ∈ l := by
            rw [e1] at hyr
            rw [e3]
            rcases List.mem_append.1 hyr with hy | hy
            · exact List.mem_append_left _ (List.mem_filter.2 ⟨hy, by simpa using hty⟩)
            · exact List.mem_append_right _ hy
          exact i4 y (filter_eq_singleton_of_sublist _ l rest y hsub hyl (contain_refl y) hf)

theorem Pruned_index (l : List Rect) (h : Pruned l) (i j : Nat) (hi : i < l.length)
    (hj : j < l.length) (hij : i ≠ j) : l[j].Contain l[i] = false := by
  unfold Pruned at h
  rw [List.pairwise_iff_getElem] at h
  rcases Nat.lt_or_gt_of_ne hij with hlt | hgt
  · exact (h i j hi hj hlt).2
  · exact (h j i hj hi hgt).1

theorem Pruned_nodup (l : List Rect) (h : Pruned l) : l.Nodup := by
  unfold Pruned at h
  refine h.imp ?_
  intro a b hab heq
  subst heq
  rw [contain_refl] at hab
  simp at hab

theorem Pruned_pruneFreeList (bin : Bin) : Pruned bin.pruneFreeList.FreeRects := by
  rw [pruneFreeList_eq_list]
  exact (pruneList_spec _ _ (le_refl _)).2.1

/-- C19 (prune keeps exactly the maximal regions): for every list of free regions, the
result of `pruneFreeList` is a sublist of the input in the same relative order (and nothing
else of the bin changes), no region of the result is contained in a region at another
position of the result, every input region is contained in some region of the result, and
an input region that is contained in no input region at another position is kept. -/
theorem C19_prune_keeps_maximal (bin : Bin) :
    bin.pruneFreeList = { bin with FreeRects := bin.pruneFreeList.FreeRects } ∧
      bin.pruneFreeList.FreeRects.Sublist bin.FreeRects ∧
      (∀ (i j : Nat) (hi : i < bin.pruneFreeList.FreeRects.length)
        (hj : j < bin.pruneFreeList.FreeRects.length), i ≠ j →
        (bin.pruneFreeList.FreeRects[j]).Contain (bin.pruneFreeList.FreeRects[i]) = false) ∧
      (∀ y ∈ bin.FreeRects, ∃ z ∈ bin.pruneFreeList.FreeRects, z.Contain y = true) ∧
      (∀ (before : List Rect) (y : Rect) (after : List Rect),
        bin.FreeRects = before ++ y :: after →
        (∀ z ∈ before, z.Contain y = false) → (∀ z ∈ after, z.Contain y = false) →
        y ∈ bin.pruneFreeList.FreeRects) := by
  have hspec := pruneList_spec bin.FreeRects.length bin.FreeRects (le_refl _)
  rw [← pruneFreeList_eq_list] at hspec
  obtain ⟨s1, s2, s3, s4⟩ := hspec
  refine ⟨rfl, s1, fun i j hi hj hij => Pruned_index _ s2 i j hi hj hij, s3, ?_⟩
  intro before y after hdec hb ha
  apply s4
  rw [hdec, List.filter_append, List.filter_cons, if_pos (contain_refl y)]
  have e1 : before.filter (fun z => z.Contain y) = [] := by
    rw [List.filter_eq_nil_iff]
    intro z hz
    simp [hb z hz]
  have e2 : after.filter (fun z => z.Contain y) = [] := by
    rw [List.filter_eq_nil_iff]
    intro z hz
    simp [ha z hz]
  rw [e1, e2]
  rfl

/-- C19, witness: pruning a list with two nested regions and a duplicate keeps the 1 by 5
region and the second copy of the 4 by 4 region. -/
theorem C19_prune_keeps_maximal_witness :
    (Bin.pruneFreeList { plainBin with FreeRects := nestedFree }).FreeRects =
        [⟨1, 5, 0, 0⟩, ⟨4, 4, 0, 0⟩] ∧
      (⟨1, 5, 0, 0⟩ : Rect) ∈
        (Bin.pruneFreeList { plainBin with FreeRects := nestedFree }).FreeRects :=
  ⟨by decide,
    (C19_prune_keeps_maximal { plainBin with FreeRects := nestedFree }).2.2.2.2
      [⟨2, 2, 0, 0⟩, ⟨4, 4, 0, 0⟩] ⟨1, 5, 0, 0⟩ [⟨4, 4, 0, 0⟩] rfl (by decide) (by decide)⟩

/-- C15 (pruned invariant): in every state reachable from `NewBin` by `Place` calls,
successful or failed (any configuration, any rectangles), no region of `FreeRects` is
contained in a region at a different index of `FreeRects`; in particular `FreeRects` holds
no duplicate regions. -/
theorem C15_pruned_invariant (maxWidth maxHeight padding border : Int)
    (smart pot square : Bool) (bin : Bin) (done : List Rect)
    (h : Reach AnyRect (configuredBin maxWidth maxHeight padding border smart pot square)
      bin done) :
    (∀ (i j : Nat) (hi : i < bin.FreeRects.length) (hj : j < bin.FreeRects.length), i ≠ j →
        (bin.FreeRects[j]).Contain (bin.FreeRects[i]) = false) ∧
      bin.FreeRects.Nodup := by
  have hpr : Pruned bin.FreeRects := by
    refine Reach_inv (fun b => Pruned b.FreeRects) ?_ ?_ h
    · show Pruned [_]
      exact List.pairwise_singleton _ _
    · intro fuel b rect ok b1 r1 hb _ hp
      refine Place_induct rect (fun b => Pruned b.FreeRects) (fun _ b _ => Pruned b.FreeRects)
        ?_ ?_ ?_ fuel b ok b1 r1 hb hp
      · intro b node _ _
        rw [placeFound_eq]
        simp only
        have := pruneOuter_eq_list
          ((b.updateBinSize node).2.FreeRects.filter (fun f => !f.Collide node) ++
            ((b.updateBinSize node).2.FreeRects.filter (fun f => f.Collide node)).flatMap
              (fun f => splitPieces f node)).length []
          ((b.updateBinSize node).2.FreeRects.filter (fun f => !f.Collide node) ++
            ((b.updateBinSize node).2.FreeRects.filter (fun f => f.Collide node)).flatMap
              (fun f => splitPieces f node))
        simp only [List.length_nil, List.nil_append] at this
        rw [this]
        exact (pruneList_spec _ _ (le_refl _)).2.1
      · intro b b2 _ hg
        have key : ∀ node : Rect, b.updateBinSize node = (true, b2) → Pruned b2.FreeRects := by
          intro node hu
          obtain ⟨_, _, _, _, ef⟩ := updateBinSize_true_fields b b2 node hu
          rw [ef]
          exact Pruned_pruneFreeList _
        rcases growEither_cases b b2 rect true hg.2 with ⟨h1, _⟩ | ⟨_, h1 | h1⟩
        · simp at h1
        · exact key _ h1
        · exact key _ h1
      · intro b hb _ _
        exact hb
  exact ⟨fun i j hi hj hij => Pruned_index _ hpr i j hi hj hij, Pruned_nodup _ hpr⟩

/-- C15, witness: after a 200 by 100 rectangle was placed on `newTestBin(0, 0)` neither of
the two free regions contains the other, and `FreeRects` has no duplicates. -/
theorem C15_pruned_invariant_witness :
    Reach AnyRect (configuredBin 1024 1024 0 0 true true false) monkeyBin1
        [⟨200, 100, 0, 0⟩] ∧
      monkeyBin1.FreeRects = [⟨256, 28, 0, 100⟩, ⟨56, 128, 200, 0⟩] ∧
      monkeyBin1.FreeRects.Nodup :=
  have h1 : Reach AnyRect (configuredBin 1024 1024 0 0 true true false) monkeyBin1
      [⟨200, 100, 0, 0⟩] :=
    Reach.placed Reach.init trivial
      (by decide : (configuredBin 1024 1024 0 0 true true false).Place 1 ⟨200, 100, 7, 9⟩ =
        some (true, monkeyBin1, ⟨200, 100, 0, 0⟩))
  ⟨h1, rfl, (C15_pruned_invariant 1024 1024 0 0 true true false monkeyBin1 _ h1).2⟩

/-! ## PlaceAll: the sort -/

theorem placeAllLess_false_iff (a b : Rect)
    (h1 : a.maxSide - b.maxSide ≤ maxInt) (h2 : b.maxSide - a.maxSide ≤ maxInt) :
    placeAllLess b a = false ↔ b.maxSide ≤ a.maxSide := by
  simp only [Rect.maxSide, maxInt] at h1 h2
  simp only [placeAllLess, Rect.maxSide, decide_eq_false_iff_not, not_lt]
  rw [wrapInt_eq _ (by omega) (by omega)]
  omega

theorem sliceStable_perm (less : Rect → Rect → Bool) (rects : List Rect) :
    (sliceStable less rects).Perm rects :=
  List.perm_insertionSort _ rects

theorem orderedInsert_congr (r1 r2 : Rect → Rect → Prop) [DecidableRel r1] [DecidableRel r2]
    (a : Rect) : ∀ (l : List Rect), (∀ b ∈ l, r1 a b ↔ r2 a b) →
      l.orderedInsert r1 a = l.orderedInsert r2 a
  | [], _ => rfl
  | b :: l, h => by
    have hb := h b (List.mem_cons_self _ _)
    have ih := orderedInsert_congr r1 r2 a l (fun c hc => h c (List.mem_cons_of_mem _ hc))
    by_cases hr : r1 a b
    · simp [List.orderedInsert, hr, hb.1 hr]
    · have hr2 : ¬ r2 a b := fun h2 => hr (hb.2 h2)
      simp [List.orderedInsert, hr, hr2, ih]

theorem insertionSort_congr (r1 r2 : Rect → Rect → Prop) [DecidableRel r1] [DecidableRel r2] :
    ∀ (l : List Rect), (∀ a ∈ l, ∀ b ∈ l, r1 a b ↔ r2 a b) →
      l.insertionSort r1 = l.insertionSort r2
  | [], _ => rfl
  | a :: l, h => by
    have ih := insertionSort_congr r1 r2 l
      (fun x hx y hy => h x (List.mem_cons_of_mem _ hx) y (List.mem_cons_of_mem _ hy))
    simp only [List.insertionSort]
    rw [ih]
    apply orderedInsert_congr
    intro b hb
    have hb2 : b ∈ l := (List.perm_insertionSort r2 l).subset hb
    exact h a (List.mem_cons_self _ _) b (List.mem_cons_of_mem _ hb2)

/-- Beyond that range the comparison function does not order by the larger side: the
difference `math.MinInt - 1` wraps around to `math.MaxInt`. -/
theorem placeAllLess_wraps :
    sliceStable placeAllLess
        [⟨1, 1, 0, 0⟩, ⟨-9223372036854775808, -9223372036854775808, 0, 0⟩,
          ⟨9223372036854775807, 1, 0, 0⟩] =
      [⟨-9223372036854775808, -9223372036854775808, 0, 0⟩, ⟨9223372036854775807, 1, 0, 0⟩,
        ⟨1, 1, 0, 0⟩] := by
  decide

/-- When the larger sides of any two rectangles of the list differ by at most `math.MaxInt`,
the comparison function orders by the exact larger side. -/
theorem sliceStable_eq_exact (rects : List Rect)
    (hfit : ∀ a ∈ rects, ∀ b ∈ rects,
      max a.Width a.Height - max b.Width b.Height ≤ maxInt) :
    sliceStable placeAllLess rects =
      rects.insertionSort (fun a b => b.maxSide ≤ a.maxSide) := by
  unfold sliceStable
  apply insertionSort_congr
  intro a ha b hb
  exact placeAllLess_false_iff a b (hfit a ha b hb) (hfit b hb a ha)

theorem exactSort_sorted (rects : List Rect) :
    (rects.insertionSort (fun a b : Rect => b.maxSide ≤ a.maxSide)).Pairwise
      (fun a b => b.maxSide ≤ a.maxSide) := by
  haveI : IsTotal Rect (fun a b : Rect => b.maxSide ≤ a.maxSide) :=
    ⟨fun a b => le_total _ _⟩
  haveI : IsTrans Rect (fun a b : Rect => b.maxSide ≤ a.maxSide) :=
    ⟨fun a b c hab hbc => le_trans hbc hab⟩
  exact List.sorted_insertionSort (fun a b : Rect => b.maxSide ≤ a.maxSide) rects

theorem exactSort_stable (rects : List Rect) (k : Int) :
    (rects.insertionSort (fun a b : Rect => b.maxSide ≤ a.maxSide)).filter
        (fun r => decide (r.maxSide = k)) =
      rects.filter (fun r => decide (r.maxSide = k)) := by
  have hpw : (rects.filter (fun r => decide (r.maxSide = k))).Pairwise
      (fun a b : Rect => b.maxSide ≤ a.maxSide) := by
    rw [List.pairwise_iff_forall_sublist]
    intro a b hab
    have ha : a ∈ rects.filter (fun r => decide (r.maxSide = k)) :=
      hab.subset (by simp)
    have hb : b ∈ rects.filter (fun r => decide (r.maxSide = k)) :=
      hab.subset (by simp)
    simp only [List.mem_filter, decide_eq_true_eq] at ha hb
    rw [ha.2, hb.2]
  have hsub : (rects.filter (fun r => decide (r.maxSide = k))).Sublist
      (rects.insertionSort (fun a b : Rect => b.maxSide ≤ a.maxSide)) :=
    List.sublist_insertionSort hpw (List.filter_sublist _)
  have hsub2 := List.Sublist.filter (fun r => decide (r.maxSide = k)) hsub
  rw [List.filter_filter] at hsub2
  simp only [Bool.and_self] at hsub2
  have hlen := ((List.perm_insertionSort (fun a b : Rect => b.maxSide ≤ a.maxSide) rects).filter
    (fun r => decide (r.maxSide = k))).length_eq
  exact (hsub2.eq_of_length hlen.symm).symm

/-! ## PlaceAll: the loop -/

theorem Place_size (fuel : Nat) (bin : Bin) (rect : Rect) (ok : Bool) (b1 : Bin) (r1 : Rect)
    (h : bin.Place fuel rect = some (ok, b1, r1)) :
    r1.Width = rect.Width ∧ r1.Height = rect.Height :=
  Place_induct rect (fun _ => True) (fun _ _ r => r.Width = rect.Width ∧ r.Height = rect.Height)
    (fun _ _ _ _ => ⟨rfl, rfl⟩) (fun _ _ _ _ => trivial) (fun _ _ _ _ => ⟨rfl, rfl⟩)
    fuel bin ok b1 r1 trivial h

theorem placeEach_size (fuel : Nat) :
    ∀ (l : List Rect) (bin : Bin) (ok : Bool) (b1 : Bin) (out : List Rect),
      bin.placeEach fuel l = some (ok, b1, out) →
      out.map (fun r => (r.Width, r.Height)) = l.map (fun r => (r.Width, r.Height))
  | [], bin, ok, b1, out, h => by
    simp only [Bin.placeEach, Option.some.injEq, Prod.mk.injEq] at h
    rw [← h.2.2]
  | rect :: rest, bin, ok, b1, out, h => by
    simp only [Bin.placeEach] at h
    split at h
    · simp at h
    · rename_i b r hp
      simp only [Option.some.injEq, Prod.mk.injEq] at h
      rw [← h.2.2]
      have hs := Place_size fuel bin rect false b r hp
      simp [hs.1, hs.2]
    · rename_i b r hp
      split at h
      · simp at h
      · rename_i ok2 b2 rs he
        simp only [Option.some.injEq, Prod.mk.injEq] at h
        rw [← h.2.2]
        have hs := Place_size fuel bin rect true b r hp
        have ih := placeEach_size fuel rest b ok2 b2 rs he
        simp [hs.1, hs.2, ih]

theorem placeEach_true_iff (fuel : Nat) :
    ∀ (l : List Rect) (bin b1 : Bin) (out : List Rect),
      bin.placeEach fuel l = some (true, b1, out) ↔ PlacedRun fuel bin l b1 out
  | [], bin, b1, out => by
    constructor
    · intro h
      simp only [Bin.placeEach, Option.some.injEq, Prod.mk.injEq, true_and] at h
      rw [← h.1, ← h.2]
      exact PlacedRun.nil
    · intro h
      cases h
      rfl
  | rect :: rest, bin, b1, out => by
    constructor
    · intro h
      simp only [Bin.placeEach] at h
      split at h
      · simp at h
      · simp at h
      · rename_i b r hp
        split at h
        · simp at h
        · rename_i ok2 b2 rs he
          simp only [Option.some.injEq, Prod.mk.injEq] at h
          obtain ⟨h1, h2, h3⟩ := h
          subst h1 h2 h3
          exact PlacedRun.cons hp ((placeEach_true_iff fuel rest b b2 rs).1 he)
    · intro h
      cases h with
      | cons hp hrun =>
        have he := (placeEach_true_iff fuel rest _ _ _).2 hrun
        simp only [Bin.placeEach, hp, he]

theorem placeEach_false_iff (fuel : Nat) :
    ∀ (l : List Rect) (bin b1 : Bin) (out : List Rect),
      bin.placeEach fuel l = some (false, b1, out) ↔
        ∃ (pre : List Rect) (r : Rect) (post : List Rect) (b0 : Bin) (outPre : List Rect)
          (r1 : Rect),
          l = pre ++ r :: post ∧ PlacedRun fuel bin pre b0 outPre ∧
            b0.Place fuel r = some (false, b1, r1) ∧ out = outPre ++ r1 :: post
  | [], bin, b1, out => by
    constructor
    · intro h
      simp [Bin.placeEach] at h
    · rintro ⟨pre, r, post, b0, outPre, r1, hl, _⟩
      simp at hl
  | rect :: rest, bin, b1, out => by
    constructor
    · intro h
      simp only [Bin.placeEach] at h
      split at h
      · simp at h
      · rename_i b r hp
        simp only [Option.some.injEq, Prod.mk.injEq, true_and] at h
        obtain ⟨h2, h3⟩ := h
        subst h2 h3
        exact ⟨[], rect, rest, bin, [], r, rfl, PlacedRun.nil, hp, rfl⟩
      · rename_i b r hp
        split at h
        · simp at h
        · rename_i ok2 b2 rs he
          simp only [Option.some.injEq, Prod.mk.injEq] at h
          obtain ⟨h1, h2, h3⟩ := h
          subst h1 h2 h3
          obtain ⟨pre, r0, post, b0, outPre, r1, hl, hrun, hf, ho⟩ :=
            (placeEach_false_iff fuel rest b b2 rs).1 he
          subst hl ho
          exact ⟨rect :: pre, r0, post, b0, r :: outPre, r1, rfl, PlacedRun.cons hp hrun,
            hf, rfl⟩
    · rintro ⟨pre, r, post, b0, outPre, r1, hl, hrun, hf, ho⟩
      cases hrun with
      | nil =>
        simp only [List.nil_append, List.cons.injEq] at hl
        obtain ⟨h1, h2⟩ := hl
        subst h1 h2
        simp only [Bin.placeEach, hf, ho, List.nil_append]
      | cons hp hrun2 =>
        simp only [List.cons_append, List.cons.injEq] at hl
        obtain ⟨h1, h2⟩ := hl
        subst h1
        have he := (placeEach_false_iff fuel rest _ b1 _).2
          ⟨_, r, post, b0, _, r1, h2, hrun2, hf, rfl⟩
        simp only [Bin.placeEach, hp, he, ho, List.cons_append]

theorem foldl_placeAllSpecStep_none (fuel : Nat) (l : List Rect) :
    l.foldl (placeAllSpecStep fuel) none = none := by
  induction l with
  | nil => rfl
  | cons a l ih => simpa [List.foldl, placeAllSpecStep] using ih

theorem foldl_placeAllSpecStep_false (fuel : Nat) (l : List Rect) :
    ∀ (b : Bin) (seen : List Rect),
      l.foldl (placeAllSpecStep fuel) (some (false, b, seen)) = some (false, b, seen ++ l) := by
  induction l with
  | nil => intro b seen; simp
  | cons a l ih =>
    intro b seen
    simp only [List.foldl, placeAllSpecStep]
    rw [ih]
    simp

theorem foldl_placeAllSpecStep_true (fuel : Nat) (l : List Rect) :
    ∀ (b : Bin) (seen : List Rect),
      l.foldl (placeAllSpecStep fuel) (some (true, b, seen)) =
        (b.placeEach fuel l).map (fun res => (res.1, res.2.1, seen ++ res.2.2)) := by
  induction l with
  | nil => intro b seen; simp [Bin.placeEach]
  | cons a l ih =>
    intro b seen
    simp only [List.foldl, placeAllSpecStep, Bin.placeEach]
    rcases hp : b.Place fuel a with _ | ⟨ok, b1, r1⟩
    · simp [foldl_placeAllSpecStep_none]
    · cases ok
      · simp [foldl_placeAllSpecStep_false]
      · simp only [ih]
        rcases he : b1.placeEach fuel l with _ | ⟨ok2, b2, rs⟩
        · simp
        · simp

theorem PlaceAll_eq_spec (fuel : Nat) (bin : Bin) (rects : List Rect) :
    bin.PlaceAll fuel rects = placeAllSpec fuel bin rects := by
  simp only [Bin.PlaceAll, placeAllSpec, foldl_placeAllSpecStep_true]
  rcases bin.placeEach fuel (sliceStable placeAllLess rects) with _ | ⟨ok2, b2, rs⟩
  · rfl
  · simp
/-- C11 (PlaceAll sort order), for rectangles whose larger sides differ pairwise by at most
`math.MaxInt`, so that the subtraction in the comparison function does not wrap around (as
is the case when no side is negative).  The list `sliceStable placeAllLess rects`, on which
`PlaceAll` runs its loop, is a permutation of the input, its values `max(Width, Height)` are
non-increasing, and for every value `k` the rectangles with `max(Width, Height) = k` appear in
their input order.  Whatever `PlaceAll` returns (`nil` or the error), the slice it leaves has
the widths and heights of that sorted list position by position (`Place` writes `X` and `Y`
only), so it is ordered by non-increasing `max(Width, Height)` as well. -/
theorem C11_placeAll_sort_order (bin : Bin) (rects : List Rect)
    (hfit : ∀ a ∈ rects, ∀ b ∈ rects,
      max a.Width a.Height - max b.Width b.Height ≤ maxInt) :
    (sliceStable placeAllLess rects).Perm rects ∧
      (sliceStable placeAllLess rects).Pairwise
        (fun a b => max b.Width b.Height ≤ max a.Width a.Height) ∧
      (∀ k : Int,
        (sliceStable placeAllLess rects).filter (fun r => decide (max r.Width r.Height = k)) =
          rects.filter (fun r => decide (max r.Width r.Height = k))) ∧
      (∀ (fuel : Nat) (ok : Bool) (b1 : Bin) (out : List Rect),
        bin.PlaceAll fuel rects = some (ok, b1, out) →
        out.map (fun r => (r.Width, r.Height)) =
            (sliceStable placeAllLess rects).map (fun r => (r.Width, r.Height)) ∧
          out.Pairwise (fun a b => max b.Width b.Height ≤ max a.Width a.Height)) := by
  have hs : (sliceStable placeAllLess rects).Pairwise
      (fun a b => max b.Width b.Height ≤ max a.Width a.Height) := by
    rw [sliceStable_eq_exact rects hfit]
    exact exactSort_sorted rects
  refine ⟨sliceStable_perm _ rects, hs, ?_, ?_⟩
  · intro k
    rw [sliceStable_eq_exact rects hfit]
    exact exactSort_stable rects k
  · intro fuel ok b1 out h
    have hmap := placeEach_size fuel _ bin ok b1 out h
    refine ⟨hmap, ?_⟩
    have h1 : ((sliceStable placeAllLess rects).map (fun r => (r.Width, r.Height))).Pairwise
        (fun p q : Int × Int => max q.1 q.2 ≤ max p.1 p.2) :=
      List.pairwise_map.2 hs
    rw [← hmap] at h1
    exact List.pairwise_map.1 h1

/-- C11, witness: on the fixed 4 by 4 bin the batch 3x3, 1x3, 4x2 is sorted to 4x2, 3x3, 1x3
(3x3 stays before 1x3), the placement of 3x3 fails, and the slice is left in the sorted
order. -/
theorem C11_placeAll_sort_order_witness :
    plainBin.PlaceAll 1 batchFailing =
        some (false, plainBinFailed, [⟨4, 2, 0, 0⟩, ⟨3, 3, 7, 7⟩, ⟨1, 3, 8, 8⟩]) ∧
      sliceStable placeAllLess batchFailing = [⟨4, 2, 9, 9⟩, ⟨3, 3, 7, 7⟩, ⟨1, 3, 8, 8⟩] ∧
      ([⟨4, 2, 0, 0⟩, ⟨3, 3, 7, 7⟩, ⟨1, 3, 8, 8⟩] : List Rect).Pairwise
        (fun a b => max b.Width b.Height ≤ max a.Width a.Height) :=
  ⟨by decide, by decide,
    ((C11_placeAll_sort_order plainBin batchFailing (by decide)).2.2.2 1 false plainBinFailed _
      (by decide)).2⟩

/-- C12 (PlaceAll iterates Place).  `PlaceAll` as written in the source equals the batch
placement in the words of the spec (`placeAllSpec`), for every recursion bound, also where a
`Place` call does not return within it.  It returns `nil` exactly when the calls of `Place`
on the sorted rectangles, from left to right and each on the bin left by the one before, all
returned true.  It returns the error exactly when the sorted list splits into `pre`, `r` and
`post` such that all calls on `pre` returned true and the call on `r` returned false; then
the bin is the one this last call left (nothing is rolled back), the rectangles of `pre`
carry their positions and the rectangles of `post` are untouched. -/
theorem C12_placeAll_iterates_place (fuel : Nat) (bin : Bin) (rects : List Rect) :
    bin.PlaceAll fuel rects = placeAllSpec fuel bin rects ∧
      (∀ (b1 : Bin) (out : List Rect),
        bin.PlaceAll fuel rects = some (true, b1, out) ↔
          PlacedRun fuel bin (sliceStable placeAllLess rects) b1 out) ∧
      (∀ (b1 : Bin) (out : List Rect),
        bin.PlaceAll fuel rects = some (false, b1, out) ↔
          ∃ (pre : List Rect) (r : Rect) (post : List Rect) (b0 : Bin) (outPre : List Rect)
            (r1 : Rect),
            sliceStable placeAllLess rects = pre ++ r :: post ∧
              PlacedRun fuel bin pre b0 outPre ∧
              b0.Place fuel r = some (false, b1, r1) ∧ out = outPre ++ r1 :: post) :=
  ⟨PlaceAll_eq_spec fuel bin rects,
    fun b1 out => placeEach_true_iff fuel _ bin b1 out,
    fun b1 out => placeEach_false_iff fuel _ bin b1 out⟩

/-- C12, witness: on the fixed 4 by 4 bin the batch 1x2, 2x1, 4x2 is placed completely, by
the run of `Place` calls on 4x2, 1x2, 2x1; on the batch 3x3, 1x3, 4x2 the spec-worded
iteration stops after the failure on 3x3 with the 4x2 rectangle still placed. -/
theorem C12_placeAll_iterates_place_witness :
    plainBin.PlaceAll 1 batchFitting =
        some (true, plainBinFitted, [⟨4, 2, 0, 0⟩, ⟨1, 2, 0, 2⟩, ⟨2, 1, 1, 2⟩]) ∧
      PlacedRun 1 plainBin (sliceStable placeAllLess batchFitting) plainBinFitted
        [⟨4, 2, 0, 0⟩, ⟨1, 2, 0, 2⟩, ⟨2, 1, 1, 2⟩] ∧
      placeAllSpec 1 plainBin batchFailing =
        some (false, plainBinFailed, [⟨4, 2, 0, 0⟩, ⟨3, 3, 7, 7⟩, ⟨1, 3, 8, 8⟩]) :=
  ⟨by decide,
    ((C12_placeAll_iterates_place 1 plainBin batchFitting).2.1 _ _).1 (by decide),
    (C12_placeAll_iterates_place 1 plainBin batchFailing).1.symm.trans (by decide)⟩

/-! ## Claim on the growth direction -/

theorem growEitherLog_fst (bin : Bin) (rect : Rect) :
    (bin.growEitherLog rect).1 = bin.growEither rect := by
  unfold Bin.growEitherLog Bin.growEither
  split_ifs
  · rcases bin.updateBinSize (bin.rightNode rect) with ⟨o, b⟩
    cases o <;> rfl
  · rcases bin.updateBinSize (bin.downNode rect) with ⟨o, b⟩
    cases o <;> rfl

theorem growEitherLog_down (bin : Bin) (rect : Rect) (hv : bin.verticalExpand = true) :
    bin.growEitherLog rect =
      if (bin.updateBinSize (bin.downNode rect)).1 then
        (bin.updateBinSize (bin.downNode rect), [bin.downNode rect])
      else (bin.updateBinSize (bin.rightNode rect), [bin.downNode rect, bin.rightNode rect]) := by
  have hf := updateBinSize_false bin (bin.downNode rect)
  unfold Bin.growEitherLog
  rw [if_neg (by simp [hv])]
  rcases hu : bin.updateBinSize (bin.downNode rect) with ⟨o, b⟩
  rw [hu] at hf
  cases o
  · have hb : b = bin := hf rfl
    subst hb
    simp
  · simp

theorem growEitherLog_right (bin : Bin) (rect : Rect) (hv : bin.verticalExpand = false) :
    bin.growEitherLog rect =
      if (bin.updateBinSize (bin.rightNode rect)).1 then
        (bin.updateBinSize (bin.rightNode rect), [bin.rightNode rect])
      else (bin.updateBinSize (bin.downNode rect), [bin.rightNode rect, bin.downNode rect]) := by
  have hf := updateBinSize_false bin (bin.rightNode rect)
  unfold Bin.growEitherLog
  rw [if_pos (by simp [hv])]
  rcases hu : bin.updateBinSize (bin.rightNode rect) with ⟨o, b⟩
  rw [hu] at hf
  cases o
  · have hb : b = bin := hf rfl
    subst hb
    simp
  · simp

theorem Place_nofit (fuel : Nat) (bin : Bin) (rect : Rect)
    (hf : bin.findNode (rect.Width + bin.Padding) (rect.Height + bin.Padding) = none) :
    bin.Place (fuel + 1) rect =
      if (bin.growEither rect).1 then Bin.Place fuel (bin.growEither rect).2 rect
      else some (false, bin, rect) := by
  rw [Bin.Place, hf]
  rcases hg : bin.growEither rect with ⟨o, b⟩
  cases o
  · rcases growEither_cases bin b rect false hg with ⟨_, h⟩ | ⟨h, _⟩
    · subst h
      simp
    · simp at h
  · simp

theorem Place_true_flag (fuel : Nat) (bin : Bin) (rect : Rect) (b1 : Bin) (r1 : Rect)
    (h : bin.Place fuel rect = some (true, b1, r1)) :
    b1.verticalExpand = decide (b1.Width > b1.Height) :=
  Place_induct rect (fun _ => True)
    (fun ok b _ => ok = true → b.verticalExpand = decide (b.Width > b.Height))
    (fun _ _ _ _ _ => rfl) (fun _ _ _ _ => trivial) (fun _ _ _ _ hok => by simp at hok)
    fuel bin true b1 r1 trivial h rfl
/-- C21 (growth direction bias).  After every `Place` call that returns true the flag
`verticalExpand` equals `bin.Width > bin.Height`.  When `findNode` finds no fitting free
region, `Place` makes the growth attempts of `growEither` and calls itself on the grown bin
if one is accepted, and returns false on the unchanged bin otherwise.  The nodes passed to
`updateBinSize`, in call order, are: with `verticalExpand` set the downward node first and
the rightward node after it only if the downward growth was rejected; with `verticalExpand`
unset the rightward node first and the downward node only if the rightward growth was
rejected.  The bin is the one grown by the first accepted attempt. -/
theorem C21_growth_direction_bias (bin : Bin) (rect : Rect) :
    (∀ (fuel : Nat) (b1 : Bin) (r1 : Rect), bin.Place fuel rect = some (true, b1, r1) →
        b1.verticalExpand = decide (b1.Width > b1.Height)) ∧
      (bin.findNode (rect.Width + bin.Padding) (rect.Height + bin.Padding) = none →
        ∀ fuel : Nat, bin.Place (fuel + 1) rect =
          if (bin.growEitherLog rect).1.1 then Bin.Place fuel (bin.growEitherLog rect).1.2 rect
          else some (false, bin, rect)) ∧
      (bin.growEitherLog rect).1 = bin.growEither rect ∧
      (bin.verticalExpand = true →
        bin.growEitherLog rect =
          if (bin.updateBinSize (bin.downNode rect)).1 then
            (bin.updateBinSize (bin.downNode rect), [bin.downNode rect])
          else
            (bin.updateBinSize (bin.rightNode rect), [bin.downNode rect, bin.rightNode rect])) ∧
      (bin.verticalExpand = false →
        bin.growEitherLog rect =
          if (bin.updateBinSize (bin.rightNode rect)).1 then
            (bin.updateBinSize (bin.rightNode rect), [bin.rightNode rect])
          else
            (bin.updateBinSize (bin.downNode rect), [bin.rightNode rect, bin.downNode rect])) := by
  refine ⟨fun fuel b1 r1 h => Place_true_flag fuel bin rect b1 r1 h, ?_,
    growEitherLog_fst bin rect, growEitherLog_down bin rect, growEitherLog_right bin rect⟩
  intro hf fuel
  rw [growEitherLog_fst]
  exact Place_nofit fuel bin rect hf

/-- C21, witness: the bin `monkeyBin1` is 256 by 128 with the flag set and has no free region
for a 100 by 100 rectangle; only the downward growth is attempted (to 256 by 256, not the
rightward one to 512 by 128), the rectangle is placed at `(0, 100)`, and the flag is unset
afterwards, the container being as wide as high.  The bin `tallBin1` is 128 by 128 with the
flag unset: the rightward growth is attempted first and rejected, then the downward one. -/
theorem C21_growth_direction_bias_witness :
    monkeyBin1.verticalExpand = true ∧
      monkeyBin1.findNode (100 + monkeyBin1.Padding) (100 + monkeyBin1.Padding) = none ∧
      monkeyBin1.Place 2 ⟨100, 100, 7, 9⟩ = some (true, monkeyBin2, ⟨100, 100, 0, 100⟩) ∧
      monkeyBin2.verticalExpand = decide (monkeyBin2.Width > monkeyBin2.Height) ∧
      monkeyBin1.growEitherLog ⟨100, 100, 7, 9⟩ =
        (monkeyBin1.updateBinSize ⟨100, 100, 0, 128⟩, [⟨100, 100, 0, 128⟩]) ∧
      ((monkeyBin1.updateBinSize ⟨100, 100, 0, 128⟩).2.Width,
        (monkeyBin1.updateBinSize ⟨100, 100, 0, 128⟩).2.Height) = (256, 256) ∧
      (configuredBin 128 1024 0 0 true true false).Place 1 ⟨100, 100, 7, 9⟩ =
        some (true, tallBin1, ⟨100, 100, 0, 0⟩) ∧
      tallBin1.growEitherLog ⟨100, 100, 7, 9⟩ =
        (tallBin1.updateBinSize ⟨100, 100, 0, 128⟩,
          [⟨100, 100, 128, 0⟩, ⟨100, 100, 0, 128⟩]) ∧
      (tallBin1.updateBinSize ⟨100, 100, 128, 0⟩).1 = false ∧
      (tallBin1.updateBinSize ⟨100, 100, 0, 128⟩).1 = true :=
  have hc := C21_growth_direction_bias monkeyBin1 ⟨100, 100, 7, 9⟩
  have hp : monkeyBin1.Place 2 ⟨100, 100, 7, 9⟩ =
      some (true, monkeyBin2, ⟨100, 100, 0, 100⟩) := by decide
  ⟨rfl, by decide, hp, hc.1 2 monkeyBin2 _ hp,
    (hc.2.2.2.1 rfl).trans (by decide), by decide, by decide,
    ((C21_growth_direction_bias tallBin1 ⟨100, 100, 7, 9⟩).2.2.2.2 rfl).trans (by decide),
    by decide, by decide⟩

end MaxRects
